import Mathlib

/-!
Prism highlighting engine (`src/scope.cpp`).

Shallow embedding of the matching engine, the transactional cursor, the span
accumulator, the checkpoint tree and the scope driver of `src/scope.cpp`,
followed by theorems about them.

Conventions of the embedding:
* a `char` is the natural number of its byte; every character constant of the
  grammars is 7-bit, so the comparisons of `range` agree for signed and
  unsigned `char`;
* `std::size_t` positions are `Nat` (the only arithmetic on them is `++i`
  guarded by `i < size_`);
* `Range::end` is spelled `end_`, `match` is spelled `match_`;
* loops and recursion that need not terminate (`Repetition::match`,
  `Scope::match`) take a fuel argument and return `none` when it runs out.
-/

set_option maxRecDepth 100000

namespace Prism

/-! ## Styles, ranges, spans -/

/-- Constant `Style::INHERIT`. -/
def Style.INHERIT : Int := 0
/-- Constant `Style::WORD`. -/
def Style.WORD : Int := 1
/-- Constant `Style::DEFAULT`. -/
def Style.DEFAULT : Int := 2
/-- Constant `Style::COMMENT`. -/
def Style.COMMENT : Int := 3
/-- Constant `Style::KEYWORD`. -/
def Style.KEYWORD : Int := 4
/-- Constant `Style::OPERATOR`. -/
def Style.OPERATOR : Int := 5
/-- Constant `Style::TYPE`. -/
def Style.TYPE : Int := 6
/-- Constant `Style::LITERAL`. -/
def Style.LITERAL : Int := 7
/-- Constant `Style::STRING`. -/
def Style.STRING : Int := 8
/-- Constant `Style::FUNCTION`. -/
def Style.FUNCTION : Int := 9

/-- Class `Range`: the half-open interval of positions from `start` to `end_`. -/
structure Range where
  start : Nat
  end_ : Nat
deriving DecidableEq, Repr

/-- Class `Span`: a `Range` with a style. -/
structure Span extends Range where
  style : Int
deriving DecidableEq, Repr

/-! ## Input -/

/-- Class `StringInput`: the bytes `data_` (its `size_` is the length of the
list) and the current position `i`. -/
structure StringInput where
  data_ : List Nat
  i : Nat
deriving DecidableEq, Repr

/-- Member `size_` of `StringInput`. -/
def StringInput.size_ (s : StringInput) : Nat := s.data_.length

/-- Method `StringInput::get`: `i < size_ ? data_[i] : 0`. -/
def StringInput.get (s : StringInput) : Nat :=
  if s.i < s.size_ then s.data_.getD s.i 0 else 0

/-- Method `StringInput::advance`: `if (i < size_) ++i`. -/
def StringInput.advance (s : StringInput) : StringInput :=
  if s.i < s.size_ then { s with i := s.i + 1 } else s

/-- Method `StringInput::get_position`. -/
def StringInput.get_position (s : StringInput) : Nat := s.i

/-- Method `StringInput::seek`. -/
def StringInput.seek (s : StringInput) (pos : Nat) : StringInput := { s with i := pos }

/-- Method `StringInput::save`: the save point is the pair of a null pointer
and `i`; only `i` is kept. -/
def StringInput.save (s : StringInput) : Nat := s.i

/-- Method `StringInput::restore`. -/
def StringInput.restore (s : StringInput) (save_point : Nat) : StringInput :=
  { s with i := save_point }

/-! ## Checkpoint tree -/

/-- Struct `Tree::Checkpoint`. -/
structure Checkpoint where
  pos : Nat
  max_pos : Nat
deriving DecidableEq, Repr

/-- Class `Tree`: the vector of checkpoints. -/
structure Tree where
  checkpoints : List Checkpoint
deriving DecidableEq, Repr

/-- Method `Tree::add_checkpoint`. -/
def Tree.add_checkpoint (t : Tree) (pos max_pos : Nat) : Tree :=
  match t.checkpoints.getLast? with
  | none => { checkpoints := t.checkpoints ++ [{ pos := pos, max_pos := max_pos }] }
  | some back =>
    if pos > back.pos then
      { checkpoints := t.checkpoints ++ [{ pos := pos, max_pos := max_pos }] }
    else t

/-- The loop of `std::lower_bound` (the algorithm of libstdc++ and libc++) over
the index range that starts at `first` and has `len` elements: halve the
range, keep the upper half when `comp` holds at the middle element and the
lower half otherwise.  The first argument bounds the number of iterations;
`len` iterations always suffice. -/
def lower_bound_loop {α : Type} (comp : α → Nat → Bool) (xs : List α) (value : Nat) :
    Nat → Nat → Nat → Nat
  | 0, first, _ => first
  | n + 1, first, len =>
    if len > 0 then
      let half := len / 2
      let middle := first + half
      match xs[middle]? with
      | some x =>
        if comp x value then
          lower_bound_loop comp xs value n (middle + 1) (len - half - 1)
        else
          lower_bound_loop comp xs value n first half
      | none => first
    else first

/-- Function `std::lower_bound` over a whole sequence; the result is an index,
`xs.length` standing for the end iterator. -/
def lower_bound {α : Type} (comp : α → Nat → Bool) (xs : List α) (value : Nat) : Nat :=
  lower_bound_loop comp xs value xs.length 0 xs.length

/-- Method `Tree::find_checkpoint`: a `lower_bound` over the reversed vector
with `checkpoint.pos > pos` as comparison. -/
def Tree.find_checkpoint (t : Tree) (pos : Nat) : Nat :=
  let comp := fun (checkpoint : Checkpoint) (pos : Nat) => decide (checkpoint.pos > pos)
  match t.checkpoints.reverse[lower_bound comp t.checkpoints.reverse pos]? with
  | some checkpoint => checkpoint.pos
  | none => 0

/-- Method `Tree::edit`: erase from the `lower_bound` of `pos` (comparison
`checkpoint.max_pos < pos`) to the end. -/
def Tree.edit (t : Tree) (pos : Nat) : Tree :=
  let comp := fun (checkpoint : Checkpoint) (pos : Nat) => decide (checkpoint.max_pos < pos)
  { checkpoints := t.checkpoints.take (lower_bound comp t.checkpoints pos) }

/-! ## Span accumulator -/

/-- Class `Spans`: the referenced output vector `spans`, the start of the open
run and the active style. -/
structure Spans where
  spans : List Span
  start : Nat
  style : Int
deriving DecidableEq, Repr

/-- Struct `Spans::SavePoint`. -/
structure Spans.SavePoint where
  spans_size : Nat
  start : Nat
  style : Int
deriving DecidableEq, Repr

/-- Method `Spans::emit_span`. -/
def Spans.emit_span (s : Spans) (end_ : Nat) (window : Range) : Spans :=
  if end_ ≤ window.start || s.start ≥ window.end_ then s
  else
    match s.spans.getLast? with
    | some last_span =>
      if last_span.end_ = s.start ∧ last_span.style = s.style then
        { s with spans := s.spans.dropLast ++
            [{ last_span with end_ := min end_ window.end_ }] }
      else
        { s with spans := s.spans ++
            [{ start := max s.start window.start, end_ := min end_ window.end_,
               style := s.style }] }
    | none =>
      { s with spans := s.spans ++
          [{ start := max s.start window.start, end_ := min end_ window.end_,
             style := s.style }] }

/-- Method `Spans::change_style`: returns the old style and the new state. -/
def Spans.change_style (s : Spans) (pos : Nat) (new_style : Int) (window : Range) :
    Int × Spans :=
  let s1 := if pos ≠ s.start then { s.emit_span pos window with start := pos } else s
  (s1.style, { s1 with style := new_style })

/-- Method `Spans::save`. -/
def Spans.save (s : Spans) : Spans.SavePoint :=
  { spans_size := s.spans.length, start := s.start, style := s.style }

/-- Method `Spans::restore`.  `spans.resize(n)` truncates to `n` elements; if
`n` exceeded the size it would append default-constructed spans, written here
as zero spans (this never happens with a save point taken from `save`). -/
def Spans.restore (s : Spans) (save_point : Spans.SavePoint) : Spans :=
  { spans := s.spans.take save_point.spans_size ++
      List.replicate (save_point.spans_size - s.spans.length)
        { start := 0, end_ := 0, style := 0 },
    start := save_point.start,
    style := save_point.style }

/-! ## Cursor -/

/-- Class `Cursor`. -/
structure Cursor where
  input : StringInput
  tree : Tree
  window : Range
  max_pos : Nat
  spans : Spans
deriving DecidableEq, Repr

/-- Struct `Cursor::SavePoint`. -/
structure Cursor.SavePoint where
  input : Nat
  spans : Spans.SavePoint
deriving DecidableEq, Repr

/-- Constructor of `Cursor`. -/
def Cursor.new (input : StringInput) (tree : Tree) (window_start window_end : Nat) : Cursor :=
  { input := input, tree := tree, window := { start := window_start, end_ := window_end },
    max_pos := 0, spans := { spans := [], start := 0, style := Style.DEFAULT } }

/-- Method `Cursor::get`. -/
def Cursor.get (c : Cursor) : Nat := c.input.get

/-- Method `Cursor::advance`. -/
def Cursor.advance (c : Cursor) : Cursor := { c with input := c.input.advance }

/-- Method `Cursor::change_style`: returns the old style and the new cursor. -/
def Cursor.change_style (c : Cursor) (new_style : Int) : Int × Cursor :=
  let r := c.spans.change_style c.input.get_position new_style c.window
  (r.1, { c with spans := r.2 })

/-- Method `Cursor::add_checkpoint`. -/
def Cursor.add_checkpoint (c : Cursor) : Cursor :=
  { c with
    tree := Tree.add_checkpoint c.tree c.input.get_position (max c.max_pos c.input.get_position) }

/-- Method `Cursor::skip_to_checkpoint`. -/
def Cursor.skip_to_checkpoint (c : Cursor) : Cursor :=
  { c with input := c.input.seek (c.tree.find_checkpoint c.window.start) }

/-- Method `Cursor::is_before_window_end`. -/
def Cursor.is_before_window_end (c : Cursor) : Bool :=
  decide (c.input.get_position < c.window.end_)

/-- Method `Cursor::save`. -/
def Cursor.save (c : Cursor) : Cursor.SavePoint :=
  { input := c.input.save, spans := c.spans.save }

/-- Method `Cursor::restore`. -/
def Cursor.restore (c : Cursor) (save_point : Cursor.SavePoint) : Cursor :=
  { c with
    max_pos := max c.max_pos c.input.get_position,
    input := c.input.restore save_point.input,
    spans := c.spans.restore save_point.spans }

/-! ## Grammar nodes -/

mutual
/-- The grammar node classes `Char`, `String`, `Sequence`, `Choice`,
`Repetition`, `Optional`, `Not` and `Highlight`. -/
inductive Node where
  | Char (f : Nat → Bool)
  | String (string : List Nat)
  | Sequence (t : Tuple)
  | Choice (t : Tuple)
  | Repetition (t : Node)
  | Optional (t : Node)
  | Not (t : Node)
  | Highlight (t : Node) (style : Int)
/-- The class template `Tuple`: empty, or a first node `t0` and a rest `t`. -/
inductive Tuple where
  | nil
  | cons (t0 : Node) (t : Tuple)
end

/-- The `for` loop of `String::match` over the characters that remain to be
compared; the characters end at the end of the list or at a `0`, the
terminator of the C string. -/
def String_match_loop (save_point : Cursor.SavePoint) : List Nat → Cursor → Bool × Cursor
  | [], cursor => (true, cursor)
  | s :: rest, cursor =>
    if s = 0 then (true, cursor)
    else if cursor.get = s then String_match_loop save_point rest cursor.advance
    else (false, cursor.restore save_point)

mutual
/-- The `match` method of every node class.  `none` is running out of fuel. -/
def Node.match_ : Nat → Node → Cursor → Option (Bool × Cursor)
  | 0, _, _ => none
  | _ + 1, .Char f, cursor =>
    if f cursor.get then some (true, cursor.advance) else some (false, cursor)
  | _ + 1, .String string, cursor =>
    some (String_match_loop cursor.save string cursor)
  | fuel + 1, .Sequence t, cursor => Tuple.match_sequence fuel t cursor
  | fuel + 1, .Choice t, cursor => Tuple.match_choice fuel t cursor
  | fuel + 1, .Repetition t, cursor =>
    match Node.match_ fuel t cursor with
    | none => none
    | some (true, cursor1) => Node.match_ fuel (.Repetition t) cursor1
    | some (false, cursor1) => some (true, cursor1)
  | fuel + 1, .Optional t, cursor =>
    match Node.match_ fuel t cursor with
    | none => none
    | some (_, cursor1) => some (true, cursor1)
  | fuel + 1, .Not t, cursor =>
    let save_point := cursor.save
    match Node.match_ fuel t cursor with
    | none => none
    | some (true, cursor1) => some (false, cursor1.restore save_point)
    | some (false, cursor1) => some (true, cursor1)
  | fuel + 1, .Highlight t style, cursor =>
    let r := cursor.change_style style
    match Node.match_ fuel t r.2 with
    | none => none
    | some (result, cursor1) => some (result, (cursor1.change_style r.1).2)
/-- Method `Tuple::match_sequence`. -/
def Tuple.match_sequence : Nat → Tuple → Cursor → Option (Bool × Cursor)
  | 0, _, _ => none
  | _ + 1, .nil, cursor => some (true, cursor)
  | fuel + 1, .cons t0 t, cursor =>
    let save_point := cursor.save
    match Node.match_ fuel t0 cursor with
    | none => none
    | some (true, cursor1) =>
      match Tuple.match_sequence fuel t cursor1 with
      | none => none
      | some (true, cursor2) => some (true, cursor2)
      | some (false, cursor2) => some (false, cursor2.restore save_point)
    | some (false, cursor1) => some (false, cursor1)
/-- Method `Tuple::match_choice`. -/
def Tuple.match_choice : Nat → Tuple → Cursor → Option (Bool × Cursor)
  | 0, _, _ => none
  | _ + 1, .nil, cursor => some (false, cursor)
  | fuel + 1, .cons t0 t, cursor =>
    match Node.match_ fuel t0 cursor with
    | none => none
    | some (true, cursor1) => some (true, cursor1)
    | some (false, cursor1) => Tuple.match_choice fuel t cursor1
end

/-! ## Language node helpers -/

/-- Function `get_language_node(char c)`: the node `Char` of the predicate `i == c`. -/
def get_language_node_char (c : Nat) : Node := .Char (fun i => i == c)

/-- Function `get_language_node(const char* s)`. -/
def get_language_node_string (s : List Nat) : Node := .String s

/-- The bytes of a string literal of the source. -/
def lit (s : String) : List Nat := s.toList.map Char.toNat

/-- A character literal of the source as a node. -/
def chr (c : Char) : Node := get_language_node_char c.toNat

/-- A string literal of the source as a node. -/
def str (s : String) : Node := get_language_node_string (lit s)

/-- The argument pack of a variadic helper as a `Tuple`. -/
def Tuple.ofList : List Node → Tuple
  | [] => .nil
  | t0 :: t => .cons t0 (Tuple.ofList t)

/-- Function `range`. -/
def range (first last : Nat) : Node := .Char (fun c => c >= first && c <= last)

/-- Function `any_char`. -/
def any_char : Node := .Char (fun c => c != 0)

/-- Function `sequence`. -/
def sequence (t : List Node) : Node := .Sequence (Tuple.ofList t)

/-- Function `choice`. -/
def choice (t : List Node) : Node := .Choice (Tuple.ofList t)

/-- Function `repetition`. -/
def repetition (child : Node) : Node := .Repetition child

/-- Function `optional`. -/
def optional (child : Node) : Node := .Optional child

/-- Function `not_`. -/
def not_ (child : Node) : Node := .Not child

/-- Function `highlight` (the grammar helper). -/
def highlight (style : Int) (child : Node) : Node := .Highlight child style

/-- Function `zero_or_more`. -/
def zero_or_more (child : Node) : Node := repetition child

/-- Function `one_or_more`. -/
def one_or_more (child : Node) : Node := sequence [child, repetition child]

/-- Function `but`. -/
def but (child : Node) : Node := sequence [not_ child, any_char]

/-- Function `end`. -/
def end_ : Node := not_ any_char

/-! ## Scope driver -/

/-- Method `Scope::match_single`. -/
def Scope.match_single (fuel : Nat) (tuple : Tuple) (cursor : Cursor) : Option (Bool × Cursor) :=
  match Tuple.match_choice fuel tuple cursor with
  | none => none
  | some (true, cursor1) => some (true, cursor1)
  | some (false, cursor1) => Node.match_ fuel any_char cursor1

/-- The `while` loop of `Scope::match`. -/
def Scope.match_loop : Nat → Tuple → Cursor → Option Cursor
  | 0, _, _ => none
  | fuel + 1, tuple, cursor =>
    if cursor.is_before_window_end then
      match Scope.match_single fuel tuple cursor with
      | none => none
      | some (true, cursor1) => Scope.match_loop fuel tuple cursor1.add_checkpoint
      | some (false, cursor1) => some cursor1
    else some cursor

/-- Method `Scope::match`. -/
def Scope.match_ (fuel : Nat) (tuple : Tuple) (cursor : Cursor) : Option Cursor :=
  Scope.match_loop fuel tuple cursor.skip_to_checkpoint

/-! ## The scope "c" of `initialize` -/

/-- Constant `c_whitespace_char`. -/
def c_whitespace_char : Node := choice [chr ' ', chr '\t', chr '\n', chr '\r', chr '\x0b', chr '\x0c']

/-- Constant `c_identifier_begin_char`. -/
def c_identifier_begin_char : Node :=
  choice [range 'a'.toNat 'z'.toNat, range 'A'.toNat 'Z'.toNat, chr '_']

/-- Constant `c_identifier_char`. -/
def c_identifier_char : Node :=
  choice [range 'a'.toNat 'z'.toNat, range 'A'.toNat 'Z'.toNat, chr '_', range '0'.toNat '9'.toNat]

/-- Constant `c_identifier`. -/
def c_identifier : Node := sequence [c_identifier_begin_char, zero_or_more c_identifier_char]

/-- Function `c_keyword`. -/
def c_keyword (t : Node) : Node := sequence [t, not_ c_identifier_char]

/-- Function `c_keywords`. -/
def c_keywords (arguments : List Node) : Node := choice (arguments.map c_keyword)

/-- The alternatives that `initialize` registers as `scopes["c"]`. -/
def c_scope : Tuple := Tuple.ofList [
  one_or_more c_whitespace_char,
  highlight Style.COMMENT (choice [
    sequence [str "/*", repetition (but (str "*/")), optional (str "*/")],
    sequence [str "//", repetition (but (chr '\n'))]
  ]),
  highlight Style.STRING (sequence [
    chr '"',
    repetition (but (choice [chr '"', chr '\n'])),
    optional (chr '"')
  ]),
  highlight Style.LITERAL (one_or_more (range '0'.toNat '9'.toNat)),
  highlight Style.KEYWORD (c_keywords [
    str "if", str "else", str "for", str "while", str "do", str "switch", str "case",
    str "default", str "goto", str "break", str "continue", str "return", str "struct",
    str "enum", str "union", str "typedef", str "const", str "static", str "extern",
    str "inline"
  ]),
  highlight Style.TYPE (c_keywords [
    str "void", str "char", str "short", str "int", str "long", str "float", str "double",
    str "unsigned", str "signed"
  ]),
  highlight Style.KEYWORD (sequence [chr '#', optional c_identifier]),
  c_identifier
]

/-! ## A highlighting pass -/

/-- The pass of `highlight` and of `highlight_incremental` over one window:
a `Cursor` with a fresh span list on the given tree, `Scope::match`, then the
final `change_style(Style::DEFAULT)`. -/
def highlight_pass (fuel : Nat) (scope : Tuple) (data : List Nat) (tree : Tree)
    (window_start window_end : Nat) : Option Cursor :=
  match Scope.match_ fuel scope
      (Cursor.new { data_ := data, i := 0 } tree window_start window_end) with
  | none => none
  | some cursor => some (cursor.change_style Style.DEFAULT).2

/-! ## Sequences of tree operations -/

/-- A call of one of the two mutating methods of `Tree`. -/
inductive TreeOp where
  | add_checkpoint (pos max_pos : Nat)
  | edit (pos : Nat)
deriving DecidableEq, Repr

/-- The tree after one call. -/
def Tree.apply (t : Tree) : TreeOp → Tree
  | .add_checkpoint pos max_pos => t.add_checkpoint pos max_pos
  | .edit pos => t.edit pos

/-- The tree after a sequence of calls, starting from the empty tree. -/
def Tree.run (ops : List TreeOp) : Tree :=
  ops.foldl Tree.apply { checkpoints := [] }

/-! ## Big-step view of matching

The three mutually recursive matching methods as one relation between the
cursor before a call, the returned boolean and the cursor after it.  The
relation holds exactly when the method returns for some fuel
(`Call.run_sound`, `Call.run_complete`). -/

/-- A call of `match` on a node, of `match_sequence` or of `match_choice` on a
tuple. -/
inductive Call where
  | node (n : Node)
  | seq (t : Tuple)
  | alt (t : Tuple)

/-- The method that a `Call` stands for. -/
def Call.run (fuel : Nat) : Call → Cursor → Option (Bool × Cursor)
  | .node n, cursor => Node.match_ fuel n cursor
  | .seq t, cursor => Tuple.match_sequence fuel t cursor
  | .alt t, cursor => Tuple.match_choice fuel t cursor

/-- Big-step relation: `Eval call c b c1` says that `call` on cursor `c` returns
`b` and leaves the cursor `c1`. -/
inductive Eval : Call → Cursor → Bool → Cursor → Prop where
  | char_true {f : Nat → Bool} {c : Cursor} :
      f c.get = true → Eval (.node (.Char f)) c true c.advance
  | char_false {f : Nat → Bool} {c : Cursor} :
      f c.get = false → Eval (.node (.Char f)) c false c
  | string {s : List Nat} {c : Cursor} :
      Eval (.node (.String s)) c (String_match_loop c.save s c).1 (String_match_loop c.save s c).2
  | sequence {t : Tuple} {c c1 : Cursor} {b : Bool} :
      Eval (.seq t) c b c1 → Eval (.node (.Sequence t)) c b c1
  | choice {t : Tuple} {c c1 : Cursor} {b : Bool} :
      Eval (.alt t) c b c1 → Eval (.node (.Choice t)) c b c1
  | repetition_stop {t : Node} {c c1 : Cursor} :
      Eval (.node t) c false c1 → Eval (.node (.Repetition t)) c true c1
  | repetition_step {t : Node} {c c1 c2 : Cursor} {b : Bool} :
      Eval (.node t) c true c1 → Eval (.node (.Repetition t)) c1 b c2 →
      Eval (.node (.Repetition t)) c b c2
  | optional {t : Node} {c c1 : Cursor} {b : Bool} :
      Eval (.node t) c b c1 → Eval (.node (.Optional t)) c true c1
  | not_true {t : Node} {c c1 : Cursor} :
      Eval (.node t) c true c1 → Eval (.node (.Not t)) c false (c1.restore c.save)
  | not_false {t : Node} {c c1 : Cursor} :
      Eval (.node t) c false c1 → Eval (.node (.Not t)) c true c1
  | highlight {t : Node} {style : Int} {c c1 : Cursor} {b : Bool} :
      Eval (.node t) (c.change_style style).2 b c1 →
      Eval (.node (.Highlight t style)) c b (c1.change_style (c.change_style style).1).2
  | seq_nil {c : Cursor} : Eval (.seq .nil) c true c
  | seq_first_fails {t0 : Node} {t : Tuple} {c c1 : Cursor} :
      Eval (.node t0) c false c1 → Eval (.seq (.cons t0 t)) c false c1
  | seq_true {t0 : Node} {t : Tuple} {c c1 c2 : Cursor} :
      Eval (.node t0) c true c1 → Eval (.seq t) c1 true c2 →
      Eval (.seq (.cons t0 t)) c true c2
  | seq_rest_fails {t0 : Node} {t : Tuple} {c c1 c2 : Cursor} :
      Eval (.node t0) c true c1 → Eval (.seq t) c1 false c2 →
      Eval (.seq (.cons t0 t)) c false (c2.restore c.save)
  | alt_nil {c : Cursor} : Eval (.alt .nil) c false c
  | alt_first {t0 : Node} {t : Tuple} {c c1 : Cursor} :
      Eval (.node t0) c true c1 → Eval (.alt (.cons t0 t)) c true c1
  | alt_next {t0 : Node} {t : Tuple} {c c1 c2 : Cursor} {b : Bool} :
      Eval (.node t0) c false c1 → Eval (.alt t) c1 b c2 →
      Eval (.alt (.cons t0 t)) c b c2

/-- Big-step relation of `Scope::match_single`. -/
inductive Single (tuple : Tuple) : Cursor → Bool → Cursor → Prop where
  | matched {c c1 : Cursor} : Eval (.alt tuple) c true c1 → Single tuple c true c1
  | fallback {c c1 c2 : Cursor} {b : Bool} :
      Eval (.alt tuple) c false c1 → Eval (.node any_char) c1 b c2 → Single tuple c b c2

/-- Big-step relation of the `while` loop of `Scope::match`. -/
inductive Loop (tuple : Tuple) : Cursor → Cursor → Prop where
  | done {c : Cursor} : c.is_before_window_end = false → Loop tuple c c
  | stuck {c c1 : Cursor} :
      c.is_before_window_end = true → Single tuple c false c1 → Loop tuple c c1
  | step {c c1 c2 : Cursor} :
      c.is_before_window_end = true → Single tuple c true c1 →
      Loop tuple c1.add_checkpoint c2 → Loop tuple c c2

/-! ## Syntactic classes of nodes -/

mutual
/-- The node contains no `Highlight`. -/
def Node.hlfree : Node → Bool
  | .Char _ => true
  | .String _ => true
  | .Sequence t => t.hlfree
  | .Choice t => t.hlfree
  | .Repetition t => t.hlfree
  | .Optional t => t.hlfree
  | .Not t => t.hlfree
  | .Highlight _ _ => false
/-- No node of the tuple contains a `Highlight`. -/
def Tuple.hlfree : Tuple → Bool
  | .nil => true
  | .cons t0 t => t0.hlfree && t.hlfree
end

mutual
/-- A syntactic criterion for "a successful match consumes input": a `Char`
whose predicate rejects the sentinel `0`, a `String` with a first character, a
`Sequence` with such an element, a `Choice` of such elements, a `Highlight` of
such a node. -/
def Node.consuming : Node → Bool
  | .Char f => !f 0
  | .String s =>
    match s with
    | [] => false
    | c :: _ => c != 0
  | .Sequence t => t.any_consuming
  | .Choice t => t.all_consuming
  | .Repetition _ => false
  | .Optional _ => false
  | .Not _ => false
  | .Highlight t _ => t.consuming
/-- Some node of the tuple is `consuming`. -/
def Tuple.any_consuming : Tuple → Bool
  | .nil => false
  | .cons t0 t => t0.consuming || t.any_consuming
/-- Every node of the tuple is `consuming`. -/
def Tuple.all_consuming : Tuple → Bool
  | .nil => true
  | .cons t0 t => t0.consuming && t.all_consuming
end

mutual
/-- Every `Repetition` inside the node repeats a `consuming` node. -/
def Node.productive : Node → Bool
  | .Char _ => true
  | .String _ => true
  | .Sequence t => t.productive
  | .Choice t => t.productive
  | .Repetition t => t.consuming && t.productive
  | .Optional t => t.productive
  | .Not t => t.productive
  | .Highlight t _ => t.productive
/-- Every node of the tuple is `productive`. -/
def Tuple.productive : Tuple → Bool
  | .nil => true
  | .cons t0 t => t0.productive && t.productive
end

/-- The class `hlfree` of the node or tuple of a call. -/
def Call.hlfree : Call → Bool
  | .node n => n.hlfree
  | .seq t => t.hlfree
  | .alt t => t.hlfree

/-- The criterion `consuming` for a call: a sequence needs one consuming
element, a choice needs all alternatives consuming. -/
def Call.consuming : Call → Bool
  | .node n => n.consuming
  | .seq t => t.any_consuming
  | .alt t => t.all_consuming

/-- The class `productive` of the node or tuple of a call. -/
def Call.productive : Call → Bool
  | .node n => n.productive
  | .seq t => t.productive
  | .alt t => t.productive

/-- A node whose style changes all happen at its top: a node free of
`Highlight`, or one `Highlight` around a node free of `Highlight`. -/
def Node.flat : Node → Bool
  | .Highlight t _ => t.hlfree
  | .Char _ => true
  | .String _ => true
  | .Sequence t => t.hlfree
  | .Choice t => t.hlfree
  | .Repetition t => t.hlfree
  | .Optional t => t.hlfree
  | .Not t => t.hlfree

/-- Shape of the alternatives of a scope whose style changes all happen at the
top level: every alternative is `flat`. -/
def Tuple.flat : Tuple → Bool
  | .nil => true
  | .cons t0 rest => t0.flat && rest.flat

mutual
/-- Number of constructors of a node. -/
def Node.size : Node → Nat
  | .Char _ => 1
  | .String _ => 1
  | .Sequence t => t.size + 1
  | .Choice t => t.size + 1
  | .Repetition t => t.size + 1
  | .Optional t => t.size + 1
  | .Not t => t.size + 1
  | .Highlight t _ => t.size + 1
/-- Number of constructors of a tuple. -/
def Tuple.size : Tuple → Nat
  | .nil => 1
  | .cons t0 t => t0.size + t.size + 1
end

/-- Number of constructors of the node or tuple of a call. -/
def Call.size : Call → Nat
  | .node n => n.size
  | .seq t => t.size
  | .alt t => t.size

/-- The steps of the loop of `Scope::match` from one cursor to a later one:
any number of iterations, each one a successful `match_single` before the
window end followed by `add_checkpoint`. -/
inductive Reach (tuple : Tuple) : Cursor → Cursor → Prop where
  | refl {c : Cursor} : Reach tuple c c
  | step {c c1 c2 : Cursor} :
      c.is_before_window_end = true → Single tuple c true c1 →
      Reach tuple c1.add_checkpoint c2 → Reach tuple c c2

/-- The spans form a chain from position `a` to position `b`: the first starts
at `a`, each next one starts where the previous one ends, the last ends at `b`;
the empty list is a chain only from `a` to `a`. -/
def Chain : List Span → Nat → Nat → Prop
  | [], a, b => a = b
  | s :: rest, a, b => s.start = a ∧ Chain rest s.end_ b

/-- A position clipped to a window. -/
def clip (window : Range) (x : Nat) : Nat := max window.start (min x window.end_)

/-- The high-water mark that `add_checkpoint` would record. -/
def Cursor.mark (c : Cursor) : Nat := max c.max_pos c.input.i

/-- Two documents read the same at every position up to `m`: the same
character from `get` and the same answer to `i < size_`. -/
def AgreeUpTo (m : Nat) (data data' : List Nat) : Prop :=
  ∀ i, i ≤ m →
    StringInput.get { data_ := data, i := i } = StringInput.get { data_ := data', i := i } ∧
    (i < data.length ↔ i < data'.length)

/-! ## The loop of `String::match` on the input alone -/

/-- The comparisons of the loop of `String::match` seen on the input alone:
whether every character matched, and the input where the loop stopped. -/
def String_scan : List Nat → StringInput → Bool × StringInput
  | [], input => (true, input)
  | s :: rest, input =>
    if s = 0 then (true, input)
    else if input.get = s then String_scan rest input.advance
    else (false, input)

/-- Two documents agree before position `p`: both have at least `p` bytes and
the same byte at every position before `p`. -/
def Agree (p : Nat) (data data' : List Nat) : Prop :=
  p ≤ data.length ∧ p ≤ data'.length ∧ ∀ i, i < p → data.getD i 0 = data'.getD i 0

/-- The cursor on another document, everything else unchanged. -/
def Cursor.with_data (c : Cursor) (data : List Nat) : Cursor :=
  { c with input := { c.input with data_ := data } }

/-- The cursor on another tree, everything else unchanged. -/
def Cursor.with_tree (c : Cursor) (tree : Tree) : Cursor :=
  { c with tree := tree }

/-- The accumulator of the cursor is consistent with its position: the open
run starts at or before the position, and the emitted spans form a chain from
the window start to the clipped start of the open run. -/
def Cursor.tiled (c : Cursor) : Prop :=
  c.spans.start ≤ c.input.i ∧
    Chain c.spans.spans c.window.start (clip c.window c.spans.start)

/-- Two accumulator states that produce the same spans from now on: the same
emitted spans and active style, and the same start of the open run, or no
emitted span yet and both open runs starting at or before the window start. -/
def Spans.same_output (w : Range) (A B : Spans) : Prop :=
  A.spans = B.spans ∧ A.style = B.style ∧
    (A.start = B.start ∨ (A.spans = [] ∧ A.start ≤ w.start ∧ B.start ≤ w.start))

/-- Two cursors on the same input and window whose accumulators produce the
same spans from now on. -/
def Cursor.same_output (d f : Cursor) : Prop :=
  d.input = f.input ∧ d.window = f.window ∧ Spans.same_output d.window d.spans f.spans

/-! ## The XML grammar of `src/languages/xml.hpp` -/

/-- Constant `xml_comment`. -/
def xml_comment : Node :=
  sequence [str "<!--", repetition (but (str "-->")), optional (str "-->")]

/-- Constant `xml_white_space`. -/
def xml_white_space : Node := repetition (choice [chr ' ', chr '\t', chr '\n', chr '\r'])

/-- Constant `xml_name_start_char`. -/
def xml_name_start_char : Node :=
  choice [range 'a'.toNat 'z'.toNat, range 'A'.toNat 'Z'.toNat, chr ':', chr '_']

/-- Constant `xml_name_char`. -/
def xml_name_char : Node :=
  choice [xml_name_start_char, chr '-', chr '.', range '0'.toNat '9'.toNat]

/-- Constant `xml_name`. -/
def xml_name : Node := sequence [xml_name_start_char, repetition xml_name_char]

/-- The alternatives of the constant `xml_syntax`, as the alternatives of a
scope. -/
def xml_scope : Tuple := Tuple.ofList [
  highlight Style.COMMENT xml_comment,
  highlight Style.KEYWORD (sequence [
    sequence [chr '<', xml_name],
    xml_white_space,
    highlight Style.TYPE (repetition (sequence [
      xml_name,
      xml_white_space,
      chr '=',
      xml_white_space,
      highlight Style.STRING (sequence [chr '"', repetition (but (chr '"')), chr '"']),
      xml_white_space
    ])),
    choice [chr '>', str "/>"]
  ]),
  highlight Style.KEYWORD (sequence [str "</", xml_name, xml_white_space, chr '>'])
]

/-! ## Instrumented driver loop and helpers for statements -/

/-- The characters of the C string stored in `s`: those before the first `0`,
the terminator that ends the loop of `String::match`. -/
def c_str (s : List Nat) : List Nat := s.takeWhile (fun ch => ch != 0)

/-- The `while` loop of `Scope::match`, instrumented: besides the final cursor
it returns, in order, the cursors on which `add_checkpoint` was called, one for
each completed step. -/
def Scope.match_loop_trace : Nat → Tuple → Cursor → Option (List Cursor × Cursor)
  | 0, _, _ => none
  | fuel + 1, tuple, cursor =>
    if cursor.is_before_window_end then
      match Scope.match_single fuel tuple cursor with
      | none => none
      | some (true, cursor1) =>
        match Scope.match_loop_trace fuel tuple cursor1.add_checkpoint with
        | none => none
        | some (steps, cursor2) => some (cursor1 :: steps, cursor2)
      | some (false, cursor1) => some ([], cursor1)
    else some ([], cursor)

/-- The nodes of a tuple as a list. -/
def Tuple.toList : Tuple → List Node
  | .nil => []
  | .cons t0 t => t0 :: t.toList

/-! ## First characters -/

/-- First-character filter of a literal: the literal is empty or begins with
`ch`. -/
def String_first : List Nat → Nat → Bool
  | [], _ => true
  | a :: _, ch => a == 0 || ch == a

mutual
/-- First-character filter: `n.first ch` is `false` only if `n` cannot succeed
at a cursor whose current character is `ch`. -/
def Node.first : Node → Nat → Bool
  | .Char f, ch => f ch
  | .String s, ch => String_first s ch
  | .Sequence t, ch => t.first_seq ch
  | .Choice t, ch => t.first_alt ch
  | .Repetition _, _ => true
  | .Optional _, _ => true
  | .Not _, _ => true
  | .Highlight t _, ch => t.first ch
/-- First-character filter of `match_sequence`: that of the first child. -/
def Tuple.first_seq : Tuple → Nat → Bool
  | .nil, _ => true
  | .cons t0 _, ch => t0.first ch
/-- First-character filter of `match_choice`: that of some child. -/
def Tuple.first_alt : Tuple → Nat → Bool
  | .nil, _ => false
  | .cons t0 t, ch => t0.first ch || t.first_alt ch
end

/-- First-character filter of a call. -/
def Call.first : Call → Nat → Bool
  | .node n, ch => n.first ch
  | .seq t, ch => t.first_seq ch
  | .alt t, ch => t.first_alt ch

/-! ## Accumulators that hold default text only -/

/-- The accumulator has reported nothing but one run of default text from
position 0 to the start of its open run, and its active style is the default. -/
def Spans.plain (A : Spans) : Prop :=
  A.style = Style.DEFAULT ∧
    ((A.spans = [] ∧ A.start = 0) ∨
      (A.spans = [{ start := 0, end_ := A.start, style := Style.DEFAULT }] ∧ 0 < A.start))

/-- A cursor of a pass over the whole document whose accumulator is `plain`. -/
def Cursor.plain (c : Cursor) : Prop :=
  c.window.start = 0 ∧ c.input.data_.length ≤ c.window.end_ ∧
    c.input.i ≤ c.input.data_.length ∧ c.spans.start ≤ c.input.i ∧ c.spans.plain

/-! ## Character classes of the scope "c" in the words of the specification -/

/-- Letters, digits and the underscore. -/
def is_identifier_char (ch : Nat) : Bool :=
  (97 ≤ ch && ch ≤ 122) || (65 ≤ ch && ch ≤ 90) || ch == 95 || (48 ≤ ch && ch ≤ 57)

/-- Letters and the underscore. -/
def is_identifier_begin_char (ch : Nat) : Bool :=
  (97 ≤ ch && ch ≤ 122) || (65 ≤ ch && ch ≤ 90) || ch == 95

/-- The keywords listed in the scope "c". -/
def c_keyword_names : List String :=
  ["if", "else", "for", "while", "do", "switch", "case", "default", "goto", "break",
   "continue", "return", "struct", "enum", "union", "typedef", "const", "static", "extern",
   "inline"]

/-- The type names listed in the scope "c". -/
def c_type_names : List String :=
  ["void", "char", "short", "int", "long", "float", "double", "unsigned", "signed"]

/-- A non-NUL byte at which no alternative of the scope "c" can start: not
whitespace, `/`, `"`, a digit, a letter, `_` or `#`. -/
def is_unrecognised_byte (ch : Nat) : Bool :=
  ch != 0 &&
    !(ch == 32 || ch == 9 || ch == 10 || ch == 13 || ch == 11 || ch == 12) &&
    ch != 47 && ch != 34 && !is_identifier_char ch && ch != 35

/-! ## Styles and the theme -/

/-- The length of the array `Theme::styles`. -/
def Theme.styles_size : Int := 8

/-- The index into `Theme::styles` that `print` computes for a span:
`span.style - Style::DEFAULT`. -/
def print_index (span : Span) : Int := span.style - Style.DEFAULT

/-- The style is one of `Style::DEFAULT` .. `Style::FUNCTION`. -/
def Style.in_theme (style : Int) : Bool :=
  decide (Style.DEFAULT ≤ style) && decide (style ≤ Style.FUNCTION)

mutual
/-- Every `Highlight` of the node has a style between `Style::DEFAULT` and
`Style::FUNCTION`. -/
def Node.styles_in_theme : Node → Bool
  | .Char _ => true
  | .String _ => true
  | .Sequence t => t.styles_in_theme
  | .Choice t => t.styles_in_theme
  | .Repetition t => t.styles_in_theme
  | .Optional t => t.styles_in_theme
  | .Not t => t.styles_in_theme
  | .Highlight t style => Style.in_theme style && t.styles_in_theme
/-- Every `Highlight` of the children has a style between `Style::DEFAULT` and
`Style::FUNCTION`. -/
def Tuple.styles_in_theme : Tuple → Bool
  | .nil => true
  | .cons t0 t => t0.styles_in_theme && t.styles_in_theme
end

/-- The same for a call. -/
def Call.styles_in_theme : Call → Bool
  | .node n => n.styles_in_theme
  | .seq t => t.styles_in_theme
  | .alt t => t.styles_in_theme

/-- The active style and the styles of all reported spans are between
`Style::DEFAULT` and `Style::FUNCTION`. -/
def Spans.styled (A : Spans) : Prop :=
  Style.in_theme A.style = true ∧ ∀ sp ∈ A.spans, Style.in_theme sp.style = true

/-! # Theorems -/

/-! ## `std::lower_bound` -/

/-- The binary search stays inside its range, stops at the end of the range or
at an element on which `comp` is false, and, when no element on which `comp`
is false precedes one on which it is true, has only elements on which `comp`
is true before its result. -/
theorem lower_bound_loop_spec {α : Type} (comp : α → Nat → Bool) (xs : List α) (value : Nat) :
    ∀ (n first len : Nat), len ≤ n → first + len ≤ xs.length →
      first ≤ lower_bound_loop comp xs value n first len ∧
      lower_bound_loop comp xs value n first len ≤ first + len ∧
      (lower_bound_loop comp xs value n first len = first + len ∨
        ∃ x, xs[lower_bound_loop comp xs value n first len]? = some x ∧ comp x value = false) ∧
      ((∀ (i j : Nat) (x y : α), i ≤ j → xs[i]? = some x → xs[j]? = some y →
          comp y value = true → comp x value = true) →
        ∀ (i : Nat) (x : α), first ≤ i → i < lower_bound_loop comp xs value n first len →
          xs[i]? = some x → comp x value = true) := by
  intro n
  induction n with
  | zero =>
    intro first len hlen _
    have : len = 0 := by omega
    subst this
    simp only [lower_bound_loop]
    refine ⟨le_refl _, by omega, Or.inl rfl, ?_⟩
    intro _ i x h1 h2
    omega
  | succ n ih =>
    intro first len hlen hbound
    by_cases hpos : len > 0
    · have hmid : first + len / 2 < xs.length := by
        have := Nat.div_lt_self hpos (by decide : 1 < 2)
        omega
      obtain ⟨x, hx⟩ : ∃ x, xs[first + len / 2]? = some x :=
        ⟨xs[first + len / 2], List.getElem?_eq_getElem hmid⟩
      by_cases hc : comp x value = true
      · have hstep : lower_bound_loop comp xs value (n + 1) first len =
            lower_bound_loop comp xs value n (first + len / 2 + 1) (len - len / 2 - 1) := by
          simp [lower_bound_loop, hpos, hx, hc]
        rw [hstep]
        have hdiv := Nat.div_lt_self hpos (by decide : 1 < 2)
        obtain ⟨h1, h2, h3, h4⟩ := ih (first + len / 2 + 1) (len - len / 2 - 1)
          (by omega) (by omega)
        refine ⟨by omega, by omega, ?_, ?_⟩
        · rcases h3 with h3 | h3
          · left; omega
          · right; exact h3
        · intro hpart i y hi1 hi2 hy
          by_cases hle : i ≤ first + len / 2
          · exact hpart i (first + len / 2) y x hle hy hx hc
          · exact h4 hpart i y (by omega) hi2 hy
      · have hstep : lower_bound_loop comp xs value (n + 1) first len =
            lower_bound_loop comp xs value n first (len / 2) := by
          simp [lower_bound_loop, hpos, hx, hc]
        rw [hstep]
        have hdiv := Nat.div_lt_self hpos (by decide : 1 < 2)
        obtain ⟨h1, h2, h3, h4⟩ := ih first (len / 2) (by omega) (by omega)
        refine ⟨h1, by omega, ?_, h4⟩
        rcases h3 with h3 | h3
        · right
          rw [h3]
          exact ⟨x, hx, by simpa using hc⟩
        · right; exact h3
    · have : len = 0 := by omega
      subst this
      simp only [lower_bound_loop, gt_iff_lt, lt_self_iff_false, if_false]
      refine ⟨le_refl _, by omega, Or.inl rfl, ?_⟩
      intro _ i x h1 h2
      omega

/-- The specification of `lower_bound` over a whole sequence. -/
theorem lower_bound_spec {α : Type} (comp : α → Nat → Bool) (xs : List α) (value : Nat) :
    lower_bound comp xs value ≤ xs.length ∧
    (lower_bound comp xs value = xs.length ∨
      ∃ x, xs[lower_bound comp xs value]? = some x ∧ comp x value = false) ∧
    (xs.Pairwise (fun a b => comp b value = true → comp a value = true) →
      ∀ (i : Nat) (x : α), i < lower_bound comp xs value →
        xs[i]? = some x → comp x value = true) := by
  obtain ⟨_, h2, h3, h4⟩ := lower_bound_loop_spec comp xs value xs.length 0 xs.length
    (le_refl _) (by omega)
  refine ⟨by simpa [lower_bound] using h2, by simpa [lower_bound] using h3, ?_⟩
  intro hpw i x hi hx
  refine h4 ?_ i x (Nat.zero_le _) hi hx
  intro i j a b hij ha hb hcb
  rcases Nat.lt_or_eq_of_le hij with hlt | heq
  · obtain ⟨hi', hia⟩ := List.getElem?_eq_some.mp ha
    obtain ⟨hj', hjb⟩ := List.getElem?_eq_some.mp hb
    have := List.pairwise_iff_getElem.mp hpw i j hi' hj' hlt
    rw [hia, hjb] at this
    exact this hcb
  · subst heq
    rw [ha] at hb
    cases hb
    exact hcb

/-- A prefix that holds only elements satisfying `p` and ends at the end of the
list or before an element that fails `p` is the `takeWhile` of `p`. -/
theorem takeWhile_eq_take_of {α : Type} (p : α → Bool) :
    ∀ (xs : List α) (r : Nat),
      (∀ (i : Nat) (x : α), i < r → xs[i]? = some x → p x = true) →
      (r = xs.length ∨ ∃ x, xs[r]? = some x ∧ p x = false) →
      xs.takeWhile p = xs.take r := by
  intro xs
  induction xs with
  | nil => intro r _ _; simp
  | cons a l ih =>
    intro r hall hstop
    cases r with
    | zero =>
      rcases hstop with h | ⟨x, hx, hpx⟩
      · simp at h
      · simp at hx
        subst hx
        simp [List.takeWhile, hpx]
    | succ r =>
      have ha : p a = true := hall 0 a (by omega) (by simp)
      simp only [List.takeWhile, ha, List.take_succ_cons, List.cons.injEq, true_and]
      apply ih r
      · intro i x hi hx
        exact hall (i + 1) x (by omega) (by simpa using hx)
      · rcases hstop with h | ⟨x, hx, hpx⟩
        · left; simpa using h
        · right; exact ⟨x, by simpa using hx, hpx⟩


/-! ## Checkpoint tree -/

/-- Claim C6 as stated fails: after `add_checkpoint(1, 10)`, `add_checkpoint(2, 3)`
on the empty tree, `edit(5)` erases nothing: the result is not the longest
prefix with `max_pos < 5` (which is empty), and the checkpoint with
`max_pos = 10 >= 5` remains. -/
theorem Tree.edit_unordered_counterexample :
    ((Tree.run [.add_checkpoint 1 10, .add_checkpoint 2 3]).edit 5).checkpoints =
        [{ pos := 1, max_pos := 10 }, { pos := 2, max_pos := 3 }] ∧
      ((Tree.run [.add_checkpoint 1 10, .add_checkpoint 2 3]).edit 5).checkpoints ≠
        (Tree.run [.add_checkpoint 1 10, .add_checkpoint 2 3]).checkpoints.takeWhile
          (fun c => decide (c.max_pos < 5)) ∧
      ∃ c ∈ ((Tree.run [.add_checkpoint 1 10, .add_checkpoint 2 3]).edit 5).checkpoints,
        5 ≤ c.max_pos := by
  decide

/-- On a sequence partitioned by `max_pos < p`, every checkpoint that `edit(p)`
keeps has `max_pos < p`. -/
theorem Tree.edit_all_lt (t : Tree) (p : Nat)
    (h : t.checkpoints.Pairwise (fun a b => b.max_pos < p → a.max_pos < p)) :
    ∀ c ∈ (t.edit p).checkpoints, c.max_pos < p := by
  obtain ⟨_, _, h3⟩ := lower_bound_spec
    (fun (checkpoint : Checkpoint) (pos : Nat) => decide (checkpoint.max_pos < pos))
    t.checkpoints p
  have hall := h3 (by simpa using h)
  intro c hc
  simp only [Tree.edit] at hc
  obtain ⟨i, hic⟩ := List.getElem?_of_mem hc
  rw [List.getElem?_take] at hic
  split at hic
  · rename_i hi
    simpa using hall i c hi hic
  · cases hic

/-- Claim C6, amended: when no checkpoint with `max_pos >= p` precedes a
checkpoint with `max_pos < p` (in particular when `max_pos` is non-decreasing
along the sequence), `edit(p)` leaves exactly the longest prefix in which
every checkpoint has `max_pos < p`, and no remaining checkpoint has
`max_pos >= p`. -/
theorem Tree.edit_eq_takeWhile (t : Tree) (p : Nat)
    (h : t.checkpoints.Pairwise (fun a b => b.max_pos < p → a.max_pos < p)) :
    (t.edit p).checkpoints = t.checkpoints.takeWhile (fun c => decide (c.max_pos < p)) ∧
      ∀ c ∈ (t.edit p).checkpoints, c.max_pos < p := by
  obtain ⟨_, h2, h3⟩ := lower_bound_spec
    (fun (checkpoint : Checkpoint) (pos : Nat) => decide (checkpoint.max_pos < pos))
    t.checkpoints p
  have hall := h3 (by simpa using h)
  have heq : (t.edit p).checkpoints =
      t.checkpoints.takeWhile (fun c => decide (c.max_pos < p)) := by
    simp only [Tree.edit]
    symm
    apply takeWhile_eq_take_of
    · intro i x hi hx
      exact hall i x hi hx
    · exact h2
  refine ⟨heq, ?_⟩
  intro c hc
  rw [heq] at hc
  simpa using List.mem_takeWhile_imp hc

/-- Witness of `Tree.edit_eq_takeWhile`: a tree with non-decreasing `max_pos`. -/
theorem Tree.edit_eq_takeWhile_witness :
    (({ checkpoints := [{ pos := 1, max_pos := 2 }, { pos := 3, max_pos := 6 },
          { pos := 7, max_pos := 7 }] } : Tree).edit 5).checkpoints =
        [{ pos := 1, max_pos := 2 }] ∧
      ∀ c ∈ (({ checkpoints := [{ pos := 1, max_pos := 2 }, { pos := 3, max_pos := 6 },
          { pos := 7, max_pos := 7 }] } : Tree).edit 5).checkpoints, c.max_pos < 5 :=
  ⟨by decide,
   (Tree.edit_eq_takeWhile
      { checkpoints := [{ pos := 1, max_pos := 2 }, { pos := 3, max_pos := 6 },
          { pos := 7, max_pos := 7 }] } 5 (by decide)).2⟩

/-- Claim C7: on a tree whose checkpoint positions are strictly increasing,
`find_checkpoint(p)` is at most `p`; when some recorded position is `<= p` it is
a recorded position and the greatest of those that are `<= p`; when none is,
it is `0`. -/
theorem Tree.find_checkpoint_greatest (t : Tree) (p : Nat)
    (h : t.checkpoints.Pairwise (fun a b => a.pos < b.pos)) :
    t.find_checkpoint p ≤ p ∧
      ((∃ c ∈ t.checkpoints, c.pos ≤ p) →
        (∃ c ∈ t.checkpoints, c.pos = t.find_checkpoint p) ∧
        ∀ c ∈ t.checkpoints, c.pos ≤ p → c.pos ≤ t.find_checkpoint p) ∧
      ((∀ c ∈ t.checkpoints, p < c.pos) → t.find_checkpoint p = 0) := by
  have hrev : t.checkpoints.reverse.Pairwise (fun a b => b.pos < a.pos) :=
    List.pairwise_reverse.mpr h
  obtain ⟨h1, h2, h3⟩ := lower_bound_spec
    (fun (checkpoint : Checkpoint) (pos : Nat) => decide (checkpoint.pos > pos))
    t.checkpoints.reverse p
  have hfind : t.find_checkpoint p =
      match t.checkpoints.reverse[lower_bound
        (fun (checkpoint : Checkpoint) (pos : Nat) => decide (checkpoint.pos > pos))
        t.checkpoints.reverse p]? with
      | some checkpoint => checkpoint.pos
      | none => 0 := rfl
  generalize lower_bound
    (fun (checkpoint : Checkpoint) (pos : Nat) => decide (checkpoint.pos > pos))
    t.checkpoints.reverse p = k at h1 h2 h3 hfind
  have hall := h3 (by
    refine hrev.imp ?_
    intro a b hab hb
    simp only [gt_iff_lt, decide_eq_true_eq] at hb ⊢
    omega)
  simp only [gt_iff_lt, decide_eq_true_eq, decide_eq_false_iff_not, not_lt] at hall h2
  have hgreat : ∀ c ∈ t.checkpoints, c.pos ≤ p →
      ∃ c0, t.checkpoints.reverse[k]? = some c0 ∧ c0.pos ≤ p ∧ c.pos ≤ c0.pos := by
    intro c hc hcp
    obtain ⟨j, hj, hjc⟩ := List.getElem_of_mem (List.mem_reverse.mpr hc)
    have hjk : ¬ j < k := by
      intro hlt
      have := hall j c hlt (by rw [List.getElem?_eq_getElem hj, hjc])
      omega
    rcases h2 with h2 | ⟨c0, hc0, hc0p⟩
    · omega
    · refine ⟨c0, hc0, hc0p, ?_⟩
      obtain ⟨hk, hkc⟩ := List.getElem?_eq_some.mp hc0
      rcases Nat.lt_or_eq_of_le (Nat.le_of_not_lt hjk) with hlt | heq
      · have := List.pairwise_iff_getElem.mp hrev _ j hk hj hlt
        rw [hkc, hjc] at this
        omega
      · subst heq
        rw [hkc] at hjc
        subst hjc
        exact le_refl _
  have hend : k = t.checkpoints.reverse.length → t.find_checkpoint p = 0 := by
    intro hk
    rw [hfind, hk, List.getElem?_eq_none (le_refl _)]
  refine ⟨?_, ?_, ?_⟩
  · rcases h2 with h2 | ⟨c0, hc0, hc0p⟩
    · rw [hend h2]
      exact Nat.zero_le _
    · rw [hfind, hc0]
      exact hc0p
  · rintro ⟨c, hc, hcp⟩
    obtain ⟨c0, hc0, _, _⟩ := hgreat c hc hcp
    have hfind0 : t.find_checkpoint p = c0.pos := by
      rw [hfind, hc0]
    rw [hfind0]
    refine ⟨⟨c0, ?_, rfl⟩, ?_⟩
    · exact List.mem_reverse.mp (List.getElem?_mem hc0)
    · intro c' hc' hcp'
      obtain ⟨c1, hc1, _, hle⟩ := hgreat c' hc' hcp'
      rw [hc0] at hc1
      cases hc1
      exact hle
  · intro hnone
    rcases h2 with h2 | ⟨c0, hc0, hc0p⟩
    · exact hend h2
    · have := hnone c0 (List.mem_reverse.mp (List.getElem?_mem hc0))
      omega

/-- Witness of `Tree.find_checkpoint_greatest` on a tree with three checkpoints. -/
theorem Tree.find_checkpoint_greatest_witness :
    ({ checkpoints := [{ pos := 2, max_pos := 2 }, { pos := 5, max_pos := 6 },
        { pos := 9, max_pos := 9 }] } : Tree).find_checkpoint 7 = 5 ∧
      ({ checkpoints := [{ pos := 2, max_pos := 2 }, { pos := 5, max_pos := 6 },
        { pos := 9, max_pos := 9 }] } : Tree).find_checkpoint 7 ≤ 7 :=
  ⟨by decide,
   (Tree.find_checkpoint_greatest
      { checkpoints := [{ pos := 2, max_pos := 2 }, { pos := 5, max_pos := 6 },
        { pos := 9, max_pos := 9 }] } 7 (by decide)).1⟩

/-- Method `add_checkpoint` keeps the checkpoint positions strictly increasing. -/
theorem Tree.add_checkpoint_pairwise (t : Tree) (pos m : Nat)
    (h : t.checkpoints.Pairwise (fun a b => a.pos < b.pos)) :
    (t.add_checkpoint pos m).checkpoints.Pairwise (fun a b => a.pos < b.pos) := by
  simp only [Tree.add_checkpoint]
  split
  · rename_i hnone
    rw [List.getLast?_eq_none_iff.mp hnone]
    simp
  · rename_i back hback
    split
    · rename_i hlt
      obtain ⟨ys, hys⟩ := List.getLast?_eq_some_iff.mp hback
      rw [hys] at h ⊢
      rw [List.pairwise_append] at h ⊢
      refine ⟨?_, by simp, ?_⟩
      · rw [List.pairwise_append]
        exact h
      · intro a ha b hb
        simp only [List.mem_singleton] at hb
        subst hb
        simp only [List.mem_append, List.mem_singleton] at ha
        rcases ha with ha | ha
        · have := h.2.2 a ha back (by simp)
          simp only [gt_iff_lt] at hlt ⊢
          omega
        · subst ha
          exact hlt
    · exact h

/-- Method `edit` keeps the checkpoint positions strictly increasing: it only
erases a suffix. -/
theorem Tree.edit_pairwise (t : Tree) (p : Nat)
    (h : t.checkpoints.Pairwise (fun a b => a.pos < b.pos)) :
    (t.edit p).checkpoints.Pairwise (fun a b => a.pos < b.pos) :=
  h.sublist (List.take_sublist _ _)

/-- Any sequence of calls keeps the checkpoint positions strictly increasing. -/
theorem Tree.foldl_apply_pairwise (ops : List TreeOp) :
    ∀ (t : Tree), t.checkpoints.Pairwise (fun a b => a.pos < b.pos) →
      (ops.foldl Tree.apply t).checkpoints.Pairwise (fun a b => a.pos < b.pos) := by
  induction ops with
  | nil => intro t h; exact h
  | cons op ops ih =>
    intro t h
    simp only [List.foldl_cons]
    apply ih
    cases op with
    | add_checkpoint pos m => exact Tree.add_checkpoint_pairwise t pos m h
    | edit p => exact Tree.edit_pairwise t p h

/-- Claim C8: starting from the empty tree, after any sequence of
`add_checkpoint` and `edit` calls the checkpoint positions are strictly
increasing; `add_checkpoint(pos, m)` appends exactly the checkpoint `(pos, m)`
when the tree is empty or `pos` is greater than the last recorded position,
and leaves the tree unchanged otherwise. -/
theorem Tree.checkpoints_strictly_increasing (ops : List TreeOp) (t : Tree) (pos m : Nat) :
    (Tree.run ops).checkpoints.Pairwise (fun a b => a.pos < b.pos) ∧
      ((t.checkpoints = [] ∨ ∃ back, t.checkpoints.getLast? = some back ∧ back.pos < pos) →
        (t.add_checkpoint pos m).checkpoints =
          t.checkpoints ++ [{ pos := pos, max_pos := m }]) ∧
      ((∃ back, t.checkpoints.getLast? = some back ∧ pos ≤ back.pos) →
        t.add_checkpoint pos m = t) := by
  refine ⟨Tree.foldl_apply_pairwise ops _ (by simp), ?_, ?_⟩
  · rintro (hempty | ⟨back, hback, hlt⟩)
    · simp [Tree.add_checkpoint, hempty]
    · simp [Tree.add_checkpoint, hback, hlt]
  · rintro ⟨back, hback, hle⟩
    simp only [Tree.add_checkpoint, hback]
    rw [if_neg (by omega)]

/-! ## The big-step relation and the functions -/

/-- A call that returns, whatever the fuel, is in the big-step relation. -/
theorem Call.run_sound : ∀ (fuel : Nat) (call : Call) (c c' : Cursor) (b : Bool),
    call.run fuel c = some (b, c') → Eval call c b c' := by
  intro fuel
  induction fuel with
  | zero =>
    intro call c c' b h
    cases call <;> simp [Call.run, Node.match_, Tuple.match_sequence, Tuple.match_choice] at h
  | succ n ih =>
    intro call c c' b h
    cases call with
    | node nd =>
      cases nd with
      | Char f =>
        simp only [Call.run, Node.match_] at h
        split at h
        · rename_i hf
          cases h
          exact Eval.char_true hf
        · rename_i hf
          cases h
          exact Eval.char_false (by simpa using hf)
      | String s =>
        simp only [Call.run, Node.match_, Option.some.injEq] at h
        have hb : b = (String_match_loop c.save s c).1 := by rw [h]
        have hc : c' = (String_match_loop c.save s c).2 := by rw [h]
        rw [hb, hc]
        exact Eval.string
      | Sequence t =>
        simp only [Call.run, Node.match_] at h
        exact Eval.sequence (ih (.seq t) c c' b h)
      | Choice t =>
        simp only [Call.run, Node.match_] at h
        exact Eval.choice (ih (.alt t) c c' b h)
      | Repetition t =>
        simp only [Call.run, Node.match_] at h
        split at h
        · cases h
        · rename_i c1 h1
          exact Eval.repetition_step (ih (.node t) c c1 true h1)
            (ih (.node (.Repetition t)) c1 c' b h)
        · rename_i c1 h1
          cases h
          exact Eval.repetition_stop (ih (.node t) c c' false h1)
      | Optional t =>
        simp only [Call.run, Node.match_] at h
        split at h
        · cases h
        · rename_i b1 c1 h1
          cases h
          exact Eval.optional (ih (.node t) c c' b1 h1)
      | Not t =>
        simp only [Call.run, Node.match_] at h
        split at h
        · cases h
        · rename_i c1 h1
          cases h
          exact Eval.not_true (ih (.node t) c c1 true h1)
        · rename_i c1 h1
          cases h
          exact Eval.not_false (ih (.node t) c c' false h1)
      | Highlight t style =>
        simp only [Call.run, Node.match_] at h
        split at h
        · cases h
        · rename_i b1 c1 h1
          cases h
          exact Eval.highlight (ih (.node t) _ c1 b h1)
    | seq t =>
      cases t with
      | nil =>
        simp only [Call.run, Tuple.match_sequence] at h
        cases h
        exact Eval.seq_nil
      | cons t0 t =>
        simp only [Call.run, Tuple.match_sequence] at h
        split at h
        · cases h
        · rename_i c1 h1
          split at h
          · cases h
          · rename_i c2 h2
            cases h
            exact Eval.seq_true (ih (.node t0) c c1 true h1) (ih (.seq t) c1 c' true h2)
          · rename_i c2 h2
            cases h
            exact Eval.seq_rest_fails (ih (.node t0) c c1 true h1) (ih (.seq t) c1 c2 false h2)
        · rename_i c1 h1
          cases h
          exact Eval.seq_first_fails (ih (.node t0) c c' false h1)
    | alt t =>
      cases t with
      | nil =>
        simp only [Call.run, Tuple.match_choice] at h
        cases h
        exact Eval.alt_nil
      | cons t0 t =>
        simp only [Call.run, Tuple.match_choice] at h
        split at h
        · cases h
        · rename_i c1 h1
          cases h
          exact Eval.alt_first (ih (.node t0) c c' true h1)
        · rename_i c1 h1
          exact Eval.alt_next (ih (.node t0) c c1 false h1) (ih (.alt t) c1 c' b h)

/-- More fuel does not change the result of a call that returns. -/
theorem Call.run_mono : ∀ (fuel : Nat) (call : Call) (c : Cursor) (r : Bool × Cursor),
    call.run fuel c = some r → ∀ fuel', fuel ≤ fuel' → call.run fuel' c = some r := by
  intro fuel
  induction fuel with
  | zero =>
    intro call c r h
    cases call <;> simp [Call.run, Node.match_, Tuple.match_sequence, Tuple.match_choice] at h
  | succ n ih =>
    intro call c r h fuel' hle
    obtain ⟨m, rfl⟩ : ∃ m, fuel' = m + 1 := ⟨fuel' - 1, by omega⟩
    have hnm : n ≤ m := by omega
    have ihn : ∀ (nd : Node) (c : Cursor) (r : Bool × Cursor),
        Node.match_ n nd c = some r → Node.match_ m nd c = some r :=
      fun nd c r h => ih (.node nd) c r h m hnm
    have ihs : ∀ (t : Tuple) (c : Cursor) (r : Bool × Cursor),
        Tuple.match_sequence n t c = some r → Tuple.match_sequence m t c = some r :=
      fun t c r h => ih (.seq t) c r h m hnm
    have iha : ∀ (t : Tuple) (c : Cursor) (r : Bool × Cursor),
        Tuple.match_choice n t c = some r → Tuple.match_choice m t c = some r :=
      fun t c r h => ih (.alt t) c r h m hnm
    cases call with
    | node nd =>
      cases nd with
      | Char f => simpa only [Call.run, Node.match_] using h
      | String s => simpa only [Call.run, Node.match_] using h
      | Sequence t =>
        simp only [Call.run, Node.match_] at h ⊢
        exact ihs t c r h
      | Choice t =>
        simp only [Call.run, Node.match_] at h ⊢
        exact iha t c r h
      | Repetition t =>
        simp only [Call.run, Node.match_] at h ⊢
        split at h
        · cases h
        · rename_i c1 h1
          rw [ihn t c _ h1]
          exact ihn _ c1 r h
        · rename_i c1 h1
          rw [ihn t c _ h1]
          exact h
      | Optional t =>
        simp only [Call.run, Node.match_] at h ⊢
        split at h
        · cases h
        · rename_i b1 c1 h1
          rw [ihn t c _ h1]
          exact h
      | Not t =>
        simp only [Call.run, Node.match_] at h ⊢
        split at h
        · cases h
        · rename_i c1 h1
          rw [ihn t c _ h1]
          exact h
        · rename_i c1 h1
          rw [ihn t c _ h1]
          exact h
      | Highlight t style =>
        simp only [Call.run, Node.match_] at h ⊢
        split at h
        · cases h
        · rename_i b1 c1 h1
          rw [ihn t _ _ h1]
          exact h
    | seq t =>
      cases t with
      | nil => simpa only [Call.run, Tuple.match_sequence] using h
      | cons t0 t =>
        simp only [Call.run, Tuple.match_sequence] at h ⊢
        split at h
        · cases h
        · rename_i c1 h1
          rw [ihn t0 c _ h1]
          split at h
          · cases h
          · rename_i c2 h2
            rw [ihs t c1 _ h2]
            exact h
          · rename_i c2 h2
            rw [ihs t c1 _ h2]
            exact h
        · rename_i c1 h1
          rw [ihn t0 c _ h1]
          exact h
    | alt t =>
      cases t with
      | nil => simpa only [Call.run, Tuple.match_choice] using h
      | cons t0 t =>
        simp only [Call.run, Tuple.match_choice] at h ⊢
        split at h
        · cases h
        · rename_i c1 h1
          rw [ihn t0 c _ h1]
          exact h
        · rename_i c1 h1
          rw [ihn t0 c _ h1]
          exact iha t c1 r h

/-- A call in the big-step relation returns for some fuel. -/
theorem Call.run_complete {call : Call} {c c' : Cursor} {b : Bool} (h : Eval call c b c') :
    ∃ fuel, call.run fuel c = some (b, c') := by
  induction h with
  | char_true hf => exact ⟨1, by simp [Call.run, Node.match_, hf]⟩
  | char_false hf => exact ⟨1, by simp [Call.run, Node.match_, hf]⟩
  | string => exact ⟨1, by simp [Call.run, Node.match_]⟩
  | sequence _ ih =>
    obtain ⟨n, hn⟩ := ih
    exact ⟨n + 1, by simpa [Call.run, Node.match_] using hn⟩
  | choice _ ih =>
    obtain ⟨n, hn⟩ := ih
    exact ⟨n + 1, by simpa [Call.run, Node.match_] using hn⟩
  | repetition_stop _ ih =>
    obtain ⟨n, hn⟩ := ih
    refine ⟨n + 1, ?_⟩
    simp only [Call.run] at hn
    simp [Call.run, Node.match_, hn]
  | repetition_step _ _ ih1 ih2 =>
    obtain ⟨n1, hn1⟩ := ih1
    obtain ⟨n2, hn2⟩ := ih2
    refine ⟨max n1 n2 + 1, ?_⟩
    have h1 := Call.run_mono n1 _ _ _ hn1 (max n1 n2) (le_max_left _ _)
    have h2 := Call.run_mono n2 _ _ _ hn2 (max n1 n2) (le_max_right _ _)
    simp only [Call.run] at h1 h2
    simp [Call.run, Node.match_, h1, h2]
  | optional _ ih =>
    obtain ⟨n, hn⟩ := ih
    refine ⟨n + 1, ?_⟩
    simp only [Call.run] at hn
    simp [Call.run, Node.match_, hn]
  | not_true _ ih =>
    obtain ⟨n, hn⟩ := ih
    refine ⟨n + 1, ?_⟩
    simp only [Call.run] at hn
    simp [Call.run, Node.match_, hn]
  | not_false _ ih =>
    obtain ⟨n, hn⟩ := ih
    refine ⟨n + 1, ?_⟩
    simp only [Call.run] at hn
    simp [Call.run, Node.match_, hn]
  | highlight _ ih =>
    obtain ⟨n, hn⟩ := ih
    refine ⟨n + 1, ?_⟩
    simp only [Call.run] at hn
    simp [Call.run, Node.match_, hn]
  | seq_nil => exact ⟨1, by simp [Call.run, Tuple.match_sequence]⟩
  | seq_first_fails _ ih =>
    obtain ⟨n, hn⟩ := ih
    refine ⟨n + 1, ?_⟩
    simp only [Call.run] at hn
    simp [Call.run, Tuple.match_sequence, hn]
  | seq_true _ _ ih1 ih2 =>
    obtain ⟨n1, hn1⟩ := ih1
    obtain ⟨n2, hn2⟩ := ih2
    refine ⟨max n1 n2 + 1, ?_⟩
    have h1 := Call.run_mono n1 _ _ _ hn1 (max n1 n2) (le_max_left _ _)
    have h2 := Call.run_mono n2 _ _ _ hn2 (max n1 n2) (le_max_right _ _)
    simp only [Call.run] at h1 h2
    simp [Call.run, Tuple.match_sequence, h1, h2]
  | seq_rest_fails _ _ ih1 ih2 =>
    obtain ⟨n1, hn1⟩ := ih1
    obtain ⟨n2, hn2⟩ := ih2
    refine ⟨max n1 n2 + 1, ?_⟩
    have h1 := Call.run_mono n1 _ _ _ hn1 (max n1 n2) (le_max_left _ _)
    have h2 := Call.run_mono n2 _ _ _ hn2 (max n1 n2) (le_max_right _ _)
    simp only [Call.run] at h1 h2
    simp [Call.run, Tuple.match_sequence, h1, h2]
  | alt_nil => exact ⟨1, by simp [Call.run, Tuple.match_choice]⟩
  | alt_first _ ih =>
    obtain ⟨n, hn⟩ := ih
    refine ⟨n + 1, ?_⟩
    simp only [Call.run] at hn
    simp [Call.run, Tuple.match_choice, hn]
  | alt_next _ _ ih1 ih2 =>
    obtain ⟨n1, hn1⟩ := ih1
    obtain ⟨n2, hn2⟩ := ih2
    refine ⟨max n1 n2 + 1, ?_⟩
    have h1 := Call.run_mono n1 _ _ _ hn1 (max n1 n2) (le_max_left _ _)
    have h2 := Call.run_mono n2 _ _ _ hn2 (max n1 n2) (le_max_right _ _)
    simp only [Call.run] at h1 h2
    simp [Call.run, Tuple.match_choice, h1, h2]

/-- A call of `match_single` that returns is in its big-step relation. -/
theorem Scope.match_single_sound {fuel : Nat} {tuple : Tuple} {c c' : Cursor} {b : Bool}
    (h : Scope.match_single fuel tuple c = some (b, c')) : Single tuple c b c' := by
  simp only [Scope.match_single] at h
  split at h
  · cases h
  · rename_i c1 h1
    cases h
    exact Single.matched (Call.run_sound fuel (.alt tuple) c c' true h1)
  · rename_i c1 h1
    exact Single.fallback (Call.run_sound fuel (.alt tuple) c c1 false h1)
      (Call.run_sound fuel (.node any_char) c1 c' b h)

/-- More fuel does not change the result of `match_single`. -/
theorem Scope.match_single_mono {fuel fuel' : Nat} {tuple : Tuple} {c : Cursor}
    {r : Bool × Cursor} (h : Scope.match_single fuel tuple c = some r) (hle : fuel ≤ fuel') :
    Scope.match_single fuel' tuple c = some r := by
  simp only [Scope.match_single] at h ⊢
  split at h
  · cases h
  · rename_i c1 h1
    have := Call.run_mono fuel (.alt tuple) c _ h1 fuel' hle
    simp only [Call.run] at this
    rw [this]
    exact h
  · rename_i c1 h1
    have := Call.run_mono fuel (.alt tuple) c _ h1 fuel' hle
    simp only [Call.run] at this
    rw [this]
    exact Call.run_mono fuel (.node any_char) c1 _ h fuel' hle

/-- A call of `match_single` in the big-step relation returns for some fuel. -/
theorem Scope.match_single_complete {tuple : Tuple} {c c' : Cursor} {b : Bool}
    (h : Single tuple c b c') : ∃ fuel, Scope.match_single fuel tuple c = some (b, c') := by
  cases h with
  | matched h1 =>
    obtain ⟨n, hn⟩ := Call.run_complete h1
    refine ⟨n, ?_⟩
    simp only [Call.run] at hn
    simp [Scope.match_single, hn]
  | fallback h1 h2 =>
    obtain ⟨n1, hn1⟩ := Call.run_complete h1
    obtain ⟨n2, hn2⟩ := Call.run_complete h2
    refine ⟨max n1 n2, ?_⟩
    have h1 := Call.run_mono n1 _ _ _ hn1 (max n1 n2) (le_max_left _ _)
    have h2 := Call.run_mono n2 _ _ _ hn2 (max n1 n2) (le_max_right _ _)
    simp only [Call.run] at h1 h2
    simp [Scope.match_single, h1, h2]

/-- A loop of `Scope::match` that returns is in its big-step relation. -/
theorem Scope.match_loop_sound {tuple : Tuple} : ∀ (fuel : Nat) (c c' : Cursor),
    Scope.match_loop fuel tuple c = some c' → Loop tuple c c' := by
  intro fuel
  induction fuel with
  | zero => intro c c' h; simp [Scope.match_loop] at h
  | succ n ih =>
    intro c c' h
    simp only [Scope.match_loop] at h
    split at h
    · rename_i hb
      split at h
      · cases h
      · rename_i c1 h1
        exact Loop.step hb (Scope.match_single_sound h1) (ih _ _ h)
      · rename_i c1 h1
        cases h
        exact Loop.stuck hb (Scope.match_single_sound h1)
    · rename_i hb
      cases h
      exact Loop.done (by simpa using hb)

/-- More fuel does not change the result of the loop of `Scope::match`. -/
theorem Scope.match_loop_mono {tuple : Tuple} : ∀ (fuel : Nat) (c c' : Cursor),
    Scope.match_loop fuel tuple c = some c' →
    ∀ fuel', fuel ≤ fuel' → Scope.match_loop fuel' tuple c = some c' := by
  intro fuel
  induction fuel with
  | zero => intro c c' h; simp [Scope.match_loop] at h
  | succ n ih =>
    intro c c' h fuel' hle
    obtain ⟨m, rfl⟩ : ∃ m, fuel' = m + 1 := ⟨fuel' - 1, by omega⟩
    simp only [Scope.match_loop] at h ⊢
    split at h
    · rename_i hb
      rw [if_pos hb]
      split at h
      · cases h
      · rename_i c1 h1
        rw [Scope.match_single_mono h1 (by omega : n ≤ m)]
        exact ih _ _ h m (by omega)
      · rename_i c1 h1
        rw [Scope.match_single_mono h1 (by omega : n ≤ m)]
        exact h
    · rename_i hb
      rw [if_neg hb]
      exact h

/-- A loop of `Scope::match` in the big-step relation returns for some fuel. -/
theorem Scope.match_loop_complete {tuple : Tuple} {c c' : Cursor} (h : Loop tuple c c') :
    ∃ fuel, Scope.match_loop fuel tuple c = some c' := by
  induction h with
  | done hb => exact ⟨1, by simp [Scope.match_loop, hb]⟩
  | stuck hb h1 =>
    obtain ⟨n, hn⟩ := Scope.match_single_complete h1
    exact ⟨n + 1, by simp [Scope.match_loop, hb, hn]⟩
  | step hb h1 _ ih =>
    obtain ⟨n1, hn1⟩ := Scope.match_single_complete h1
    obtain ⟨n2, hn2⟩ := ih
    refine ⟨max n1 n2 + 1, ?_⟩
    have h1 := Scope.match_single_mono hn1 (le_max_left n1 n2)
    have h2 := Scope.match_loop_mono n2 _ _ hn2 (max n1 n2) (le_max_right _ _)
    simp [Scope.match_loop, hb, h1, h2]

/-- Two runs of the loop of `Scope::match` that return, return the same cursor. -/
theorem Scope.match_loop_unique {tuple : Tuple} {fuel fuel' : Nat} {c c1 c2 : Cursor}
    (h1 : Scope.match_loop fuel tuple c = some c1)
    (h2 : Scope.match_loop fuel' tuple c = some c2) : c1 = c2 := by
  have e1 := Scope.match_loop_mono fuel c c1 h1 (max fuel fuel') (le_max_left _ _)
  have e2 := Scope.match_loop_mono fuel' c c2 h2 (max fuel fuel') (le_max_right _ _)
  rw [e1] at e2
  exact Option.some.inj e2

/-! ## Elementary facts about the input, the accumulator and the cursor -/

theorem StringInput.advance_data (s : StringInput) : s.advance.data_ = s.data_ := by
  simp only [StringInput.advance]
  split <;> rfl

theorem StringInput.advance_size (s : StringInput) : s.advance.size_ = s.size_ := by
  simp only [StringInput.size_, StringInput.advance_data]

theorem StringInput.advance_i (s : StringInput) :
    s.advance.i = if s.i < s.size_ then s.i + 1 else s.i := by
  simp only [StringInput.advance]
  split <;> rfl

theorem StringInput.le_advance (s : StringInput) : s.i ≤ s.advance.i := by
  rw [StringInput.advance_i]
  split <;> omega

theorem StringInput.advance_le_size (s : StringInput) (h : s.i ≤ s.size_) :
    s.advance.i ≤ s.size_ := by
  rw [StringInput.advance_i]
  split <;> omega

/-- A non-zero current character lies inside the input, so `advance` moves. -/
theorem StringInput.advance_of_get_ne_zero (s : StringInput) (h : s.get ≠ 0) :
    s.advance.i = s.i + 1 := by
  rw [StringInput.advance_i]
  simp only [StringInput.get] at h
  split
  · rfl
  · rename_i hlt
    simp [hlt] at h

theorem Spans.emit_span_style (s : Spans) (end_ : Nat) (window : Range) :
    (s.emit_span end_ window).style = s.style := by
  simp only [Spans.emit_span]
  split
  · rfl
  · split
    · split <;> rfl
    · rfl

theorem Spans.emit_span_start (s : Spans) (end_ : Nat) (window : Range) :
    (s.emit_span end_ window).start = s.start := by
  simp only [Spans.emit_span]
  split
  · rfl
  · split
    · split <;> rfl
    · rfl

theorem Spans.change_style_fst (s : Spans) (pos : Nat) (new_style : Int) (window : Range) :
    (s.change_style pos new_style window).1 = s.style := by
  simp only [Spans.change_style]
  split
  · exact Spans.emit_span_style _ _ _
  · rfl

theorem Spans.change_style_style (s : Spans) (pos : Nat) (new_style : Int) (window : Range) :
    (s.change_style pos new_style window).2.style = new_style := rfl

theorem Spans.change_style_start (s : Spans) (pos : Nat) (new_style : Int) (window : Range) :
    (s.change_style pos new_style window).2.start = pos := by
  simp only [Spans.change_style]
  split
  · rfl
  · rename_i h
    simp only [ne_eq, Decidable.not_not] at h
    exact h.symm

/-- Restoring the save point of the current state changes nothing. -/
theorem Spans.restore_save (s : Spans) : s.restore s.save = s := by
  simp [Spans.restore, Spans.save]

/-- Restoring a save point whose fields are those of the current state. -/
theorem Spans.restore_of_eq (s s0 : Spans) (h : s = s0) : s.restore s0.save = s0 := by
  subst h
  exact Spans.restore_save s

@[simp] theorem Cursor.advance_tree (c : Cursor) : c.advance.tree = c.tree := rfl
@[simp] theorem Cursor.advance_window (c : Cursor) : c.advance.window = c.window := rfl
@[simp] theorem Cursor.advance_max_pos (c : Cursor) : c.advance.max_pos = c.max_pos := rfl
@[simp] theorem Cursor.advance_spans (c : Cursor) : c.advance.spans = c.spans := rfl
@[simp] theorem Cursor.advance_input (c : Cursor) : c.advance.input = c.input.advance := rfl
@[simp] theorem Cursor.restore_tree (c : Cursor) (sp : Cursor.SavePoint) :
    (c.restore sp).tree = c.tree := rfl
@[simp] theorem Cursor.restore_window (c : Cursor) (sp : Cursor.SavePoint) :
    (c.restore sp).window = c.window := rfl
@[simp] theorem Cursor.restore_max_pos (c : Cursor) (sp : Cursor.SavePoint) :
    (c.restore sp).max_pos = max c.max_pos c.input.i := rfl
@[simp] theorem Cursor.restore_spans (c : Cursor) (sp : Cursor.SavePoint) :
    (c.restore sp).spans = c.spans.restore sp.spans := rfl
@[simp] theorem Cursor.restore_data (c : Cursor) (sp : Cursor.SavePoint) :
    (c.restore sp).input.data_ = c.input.data_ := rfl
@[simp] theorem Cursor.restore_size (c : Cursor) (sp : Cursor.SavePoint) :
    (c.restore sp).input.size_ = c.input.size_ := rfl
@[simp] theorem Cursor.restore_i (c : Cursor) (sp : Cursor.SavePoint) :
    (c.restore sp).input.i = sp.input := rfl
@[simp] theorem Cursor.save_input (c : Cursor) : c.save.input = c.input.i := rfl
@[simp] theorem Cursor.save_spans (c : Cursor) : c.save.spans = c.spans.save := rfl
@[simp] theorem Cursor.change_style_tree (c : Cursor) (s : Int) :
    (c.change_style s).2.tree = c.tree := rfl
@[simp] theorem Cursor.change_style_window (c : Cursor) (s : Int) :
    (c.change_style s).2.window = c.window := rfl
@[simp] theorem Cursor.change_style_max_pos (c : Cursor) (s : Int) :
    (c.change_style s).2.max_pos = c.max_pos := rfl
@[simp] theorem Cursor.change_style_input (c : Cursor) (s : Int) :
    (c.change_style s).2.input = c.input := rfl
@[simp] theorem Cursor.change_style_spans (c : Cursor) (s : Int) :
    (c.change_style s).2.spans = (c.spans.change_style c.input.i s c.window).2 := rfl
@[simp] theorem Cursor.change_style_old (c : Cursor) (s : Int) :
    (c.change_style s).1 = c.spans.style :=
  Spans.change_style_fst c.spans c.input.i s c.window
@[simp] theorem Cursor.get_eq (c : Cursor) : c.get = c.input.get := rfl

/-- The loop of `String::match` in terms of `String_scan`: on success the
cursor is the old one on the input where the scan stopped, on failure that
cursor restored to the save point. -/
theorem String_match_loop_eq (sp : Cursor.SavePoint) : ∀ (s : List Nat) (c : Cursor),
    String_match_loop sp s c =
      if (String_scan s c.input).1 then (true, { c with input := (String_scan s c.input).2 })
      else (false, ({ c with input := (String_scan s c.input).2 } : Cursor).restore sp) := by
  intro s
  induction s with
  | nil => intro c; simp [String_match_loop, String_scan]
  | cons a rest ih =>
    intro c
    simp only [String_match_loop, String_scan]
    by_cases h0 : a = 0
    · simp [h0]
    · simp only [h0, if_false, Cursor.get_eq]
      by_cases hg : c.input.get = a
      · simp only [hg, if_true]
        rw [ih c.advance]
        simp [Cursor.advance]
      · simp [hg]

theorem String_scan_data : ∀ (s : List Nat) (input : StringInput),
    (String_scan s input).2.data_ = input.data_ := by
  intro s
  induction s with
  | nil => intro input; rfl
  | cons a rest ih =>
    intro input
    simp only [String_scan]
    split
    · rfl
    · split
      · rw [ih, StringInput.advance_data]
      · rfl

theorem String_scan_le : ∀ (s : List Nat) (input : StringInput),
    input.i ≤ (String_scan s input).2.i := by
  intro s
  induction s with
  | nil => intro input; exact le_refl _
  | cons a rest ih =>
    intro input
    simp only [String_scan]
    split
    · exact le_refl _
    · split
      · exact le_trans (StringInput.le_advance input) (ih _)
      · exact le_refl _

theorem String_scan_le_size : ∀ (s : List Nat) (input : StringInput),
    input.i ≤ input.size_ → (String_scan s input).2.i ≤ input.size_ := by
  intro s
  induction s with
  | nil => intro input h; exact h
  | cons a rest ih =>
    intro input h
    simp only [String_scan]
    split
    · exact h
    · split
      · have := ih input.advance (by
          rw [StringInput.advance_size]; exact StringInput.advance_le_size input h)
        rw [StringInput.advance_size] at this
        exact this
      · exact h

/-- A successful scan of a string with a first character moves the input. -/
theorem String_scan_consumes (a : Nat) (rest : List Nat) (input : StringInput)
    (ha : a ≠ 0) (h : (String_scan (a :: rest) input).1 = true) :
    input.i < (String_scan (a :: rest) input).2.i := by
  simp only [String_scan, ha, if_false] at h ⊢
  split
  · rename_i hg
    have hadv := StringInput.advance_of_get_ne_zero input (by rw [hg]; exact ha)
    have := String_scan_le rest input.advance
    omega
  · rename_i hg
    simp [hg] at h

/-! ## What every match leaves unchanged -/

/-- Method `Repetition::match` never returns `false`. -/
theorem Eval.repetition_true {call : Call} {c c' : Cursor} {b : Bool} (h : Eval call c b c') :
    ∀ t, call = .node (.Repetition t) → b = true := by
  induction h with
  | repetition_stop _ _ => intro _ _; rfl
  | repetition_step _ _ _ ih2 => intro t ht; exact ih2 t ht
  | _ => intro t ht; cases ht

/-- Frame of a match: the tree, the window, the document and the active style
are those before the call; the position does not decrease and is the position
before the call when the result is `false`; the high-water mark does not
decrease; a position inside the document stays inside. -/
theorem Eval.frame {call : Call} {c c' : Cursor} {b : Bool} (h : Eval call c b c') :
    c'.tree = c.tree ∧ c'.window = c.window ∧ c'.input.data_ = c.input.data_ ∧
      c'.spans.style = c.spans.style ∧ c.input.i ≤ c'.input.i ∧
      (b = false → c'.input.i = c.input.i) ∧ c.max_pos ≤ c'.max_pos ∧
      (c.input.i ≤ c.input.data_.length → c'.input.i ≤ c.input.data_.length) := by
  induction h with
  | @char_true f c hf =>
    refine ⟨rfl, rfl, StringInput.advance_data _, rfl, StringInput.le_advance _, by simp,
      le_refl _, StringInput.advance_le_size _⟩
  | char_false hf => simp
  | @string s c =>
    rw [String_match_loop_eq]
    have hd := String_scan_data s c.input
    have hle := String_scan_le s c.input
    have hsz := String_scan_le_size s c.input
    simp only [StringInput.size_] at hsz
    split
    · exact ⟨rfl, rfl, hd, rfl, hle, by simp, le_refl _, hsz⟩
    · refine ⟨rfl, rfl, hd, ?_, ?_, ?_, ?_, ?_⟩
      · simp [Spans.restore, Spans.save]
      · simp
      · simp
      · simp
      · simp
  | sequence _ ih => exact ih
  | choice _ ih => exact ih
  | repetition_stop _ ih =>
    obtain ⟨h1, h2, h3, h4, h5, h6, h7, h8⟩ := ih
    exact ⟨h1, h2, h3, h4, h5, by simp, h7, h8⟩
  | repetition_step _ hrep ih1 ih2 =>
    obtain ⟨h1, h2, h3, h4, h5, h6, h7, h8⟩ := ih1
    obtain ⟨k1, k2, k3, k4, k5, k6, k7, k8⟩ := ih2
    rw [h3] at k8
    refine ⟨k1.trans h1, k2.trans h2, k3.trans h3, k4.trans h4, le_trans h5 k5, ?_,
      le_trans h7 k7, fun hc => k8 (h8 hc)⟩
    intro hb
    have := Eval.repetition_true hrep _ rfl
    rw [hb] at this
    cases this
  | optional _ ih =>
    obtain ⟨h1, h2, h3, h4, h5, h6, h7, h8⟩ := ih
    exact ⟨h1, h2, h3, h4, h5, by simp, h7, h8⟩
  | not_true _ ih =>
    obtain ⟨h1, h2, h3, h4, h5, h6, h7, h8⟩ := ih
    refine ⟨h1, h2, h3, ?_, ?_, ?_, ?_, ?_⟩
    · simp [Spans.restore, Spans.save]
    · simp
    · simp
    · simp only [Cursor.restore_max_pos]
      omega
    · simp
  | not_false _ ih =>
    obtain ⟨h1, h2, h3, h4, h5, h6, h7, h8⟩ := ih
    exact ⟨h1, h2, h3, h4, h5, by simp, h7, h8⟩
  | highlight _ ih =>
    obtain ⟨h1, h2, h3, h4, h5, h6, h7, h8⟩ := ih
    simp only [Cursor.change_style_tree, Cursor.change_style_window, Cursor.change_style_input,
      Cursor.change_style_max_pos, Cursor.change_style_old] at h1 h2 h3 h5 h6 h7 h8 ⊢
    exact ⟨h1, h2, h3, Spans.change_style_style _ _ _ _, h5, h6, h7, h8⟩
  | seq_nil => simp
  | seq_first_fails _ ih => exact ih
  | seq_true _ _ ih1 ih2 =>
    obtain ⟨h1, h2, h3, h4, h5, h6, h7, h8⟩ := ih1
    obtain ⟨k1, k2, k3, k4, k5, k6, k7, k8⟩ := ih2
    rw [h3] at k8
    exact ⟨k1.trans h1, k2.trans h2, k3.trans h3, k4.trans h4, le_trans h5 k5, by simp,
      le_trans h7 k7, fun hc => k8 (h8 hc)⟩
  | seq_rest_fails _ _ ih1 ih2 =>
    obtain ⟨h1, h2, h3, h4, h5, h6, h7, h8⟩ := ih1
    obtain ⟨k1, k2, k3, k4, k5, k6, k7, k8⟩ := ih2
    refine ⟨k1.trans h1, k2.trans h2, k3.trans h3, ?_, ?_, ?_, ?_, ?_⟩
    · simp [Spans.restore, Spans.save]
    · simp
    · simp
    · simp only [Cursor.restore_max_pos]
      omega
    · simp
  | alt_nil => simp
  | alt_first _ ih => exact ih
  | alt_next _ _ ih1 ih2 =>
    obtain ⟨h1, h2, h3, h4, h5, h6, h7, h8⟩ := ih1
    obtain ⟨k1, k2, k3, k4, k5, k6, k7, k8⟩ := ih2
    rw [h3] at k8
    refine ⟨k1.trans h1, k2.trans h2, k3.trans h3, k4.trans h4, le_trans h5 k5, ?_,
      le_trans h7 k7, fun hc => k8 (h8 hc)⟩
    intro hb
    have e1 := h6 rfl
    have e2 := k6 hb
    omega

/-- A match of a node without `Highlight` leaves the accumulator unchanged. -/
theorem Eval.hlfree_spans {call : Call} {c c' : Cursor} {b : Bool} (h : Eval call c b c')
    (hfree : call.hlfree = true) : c'.spans = c.spans := by
  induction h with
  | char_true hf => rfl
  | char_false hf => rfl
  | @string s c =>
    rw [String_match_loop_eq]
    split
    · rfl
    · simp [Spans.restore_save]
  | sequence _ ih => exact ih hfree
  | choice _ ih => exact ih hfree
  | repetition_stop _ ih => exact ih hfree
  | repetition_step _ _ ih1 ih2 => exact (ih2 hfree).trans (ih1 hfree)
  | optional _ ih => exact ih hfree
  | not_true _ ih =>
    have := ih hfree
    simp only [Cursor.restore_spans, Cursor.save_spans]
    exact Spans.restore_of_eq _ _ this
  | not_false _ ih => exact ih hfree
  | highlight _ ih => simp [Call.hlfree, Node.hlfree] at hfree
  | seq_nil => rfl
  | seq_first_fails _ ih =>
    simp only [Call.hlfree, Tuple.hlfree, Bool.and_eq_true] at hfree
    exact ih hfree.1
  | seq_true _ _ ih1 ih2 =>
    simp only [Call.hlfree, Tuple.hlfree, Bool.and_eq_true] at hfree
    exact (ih2 hfree.2).trans (ih1 hfree.1)
  | seq_rest_fails _ _ ih1 ih2 =>
    simp only [Call.hlfree, Tuple.hlfree, Bool.and_eq_true] at hfree
    have := (ih2 hfree.2).trans (ih1 hfree.1)
    simp only [Cursor.restore_spans, Cursor.save_spans]
    exact Spans.restore_of_eq _ _ this
  | alt_nil => rfl
  | alt_first _ ih =>
    simp only [Call.hlfree, Tuple.hlfree, Bool.and_eq_true] at hfree
    exact ih hfree.1
  | alt_next _ _ ih1 ih2 =>
    simp only [Call.hlfree, Tuple.hlfree, Bool.and_eq_true] at hfree
    exact (ih2 hfree.2).trans (ih1 hfree.1)

/-! ## Atomicity of a failed match -/

/-- Claim C2 as stated fails: on the document "ab" at position 1, with an empty
span list and the open run starting at 0, `highlight(COMMENT, 'x')` returns
`false` and leaves an accumulator that differs from the one before the call:
the span `(0, 1, DEFAULT)` is emitted and the open run starts at 1. -/
theorem Highlight.match_false_flushes_counterexample :
    ∃ c' : Cursor,
      Node.match_ 2 (highlight Style.COMMENT (chr 'x'))
          { input := { data_ := lit "ab", i := 1 }, tree := { checkpoints := [] },
            window := { start := 0, end_ := 2 }, max_pos := 0,
            spans := { spans := [], start := 0, style := Style.DEFAULT } } =
        some (false, c') ∧
      c'.spans = { spans := [{ start := 0, end_ := 1, style := Style.DEFAULT }],
                   start := 1, style := Style.DEFAULT } ∧
      c'.spans ≠ { spans := [], start := 0, style := Style.DEFAULT } :=
  ⟨{ input := { data_ := lit "ab", i := 1 }, tree := { checkpoints := [] },
     window := { start := 0, end_ := 2 }, max_pos := 0,
     spans := { spans := [{ start := 0, end_ := 1, style := Style.DEFAULT }],
                start := 1, style := Style.DEFAULT } },
   by decide, by decide, by decide⟩

/-- Claim C2, amended: when `match` returns `false`, the input (document and
position) and the active style are those before the call, and for a node that
contains no `Highlight` the whole accumulator (span list, open-run start,
active style) is the one before the call. -/
theorem Node.match_false_restores (fuel : Nat) (n : Node) (c c' : Cursor)
    (h : Node.match_ fuel n c = some (false, c')) :
    c'.input = c.input ∧ c'.spans.style = c.spans.style ∧
      (n.hlfree = true → c'.spans = c.spans) := by
  have hev := Call.run_sound fuel (.node n) c c' false h
  obtain ⟨_, _, hd, hs, _, hi, _, _⟩ := hev.frame
  refine ⟨?_, hs, fun hfree => hev.hlfree_spans hfree⟩
  have hi' := hi rfl
  cases hc : c.input
  cases hc' : c'.input
  rw [hc, hc'] at hd hi'
  simp only at hd hi'
  rw [hd, hi']

/-- Witness of `Node.match_false_restores`: the sequence `'a' 'x'` fails on
"ab" after consuming `'a'`. -/
theorem Node.match_false_restores_witness :
    ({ input := { data_ := lit "ab", i := 0 }, tree := { checkpoints := [] },
       window := { start := 0, end_ := 2 }, max_pos := 1,
       spans := { spans := [], start := 0, style := Style.DEFAULT } } : Cursor).input =
      { data_ := lit "ab", i := 0 } ∧
    ({ input := { data_ := lit "ab", i := 0 }, tree := { checkpoints := [] },
       window := { start := 0, end_ := 2 }, max_pos := 1,
       spans := { spans := [], start := 0, style := Style.DEFAULT } } : Cursor).spans.style =
      Style.DEFAULT ∧
    ((sequence [chr 'a', chr 'x']).hlfree = true →
      ({ input := { data_ := lit "ab", i := 0 }, tree := { checkpoints := [] },
         window := { start := 0, end_ := 2 }, max_pos := 1,
         spans := { spans := [], start := 0, style := Style.DEFAULT } } : Cursor).spans =
        { spans := [], start := 0, style := Style.DEFAULT }) :=
  Node.match_false_restores 5 (sequence [chr 'a', chr 'x'])
    { input := { data_ := lit "ab", i := 0 }, tree := { checkpoints := [] },
      window := { start := 0, end_ := 2 }, max_pos := 0,
      spans := { spans := [], start := 0, style := Style.DEFAULT } }
    { input := { data_ := lit "ab", i := 0 }, tree := { checkpoints := [] },
      window := { start := 0, end_ := 2 }, max_pos := 1,
      spans := { spans := [], start := 0, style := Style.DEFAULT } }
    (by decide)

/-! ## The scope driver -/

/-- The raw-character fallback: it fails exactly on the character `0`, leaving
the cursor as it was, and otherwise advances. -/
theorem Eval.any_char_inv {c c' : Cursor} {b : Bool} (h : Eval (.node any_char) c b c') :
    (b = false ∧ c' = c ∧ c.input.get = 0) ∨
      (b = true ∧ c' = c.advance ∧ c.input.get ≠ 0) := by
  simp only [any_char] at h
  cases h with
  | char_true hf =>
    right
    exact ⟨rfl, rfl, by simpa using hf⟩
  | char_false hf =>
    left
    exact ⟨rfl, rfl, by simpa using hf⟩

/-- Frame of `match_single`. -/
theorem Single.single_frame {tuple : Tuple} {c c' : Cursor} {b : Bool} (h : Single tuple c b c') :
    c'.tree = c.tree ∧ c'.window = c.window ∧ c'.input.data_ = c.input.data_ ∧
      c'.spans.style = c.spans.style ∧ c.input.i ≤ c'.input.i ∧
      (b = false → c'.input.i = c.input.i) ∧ c.max_pos ≤ c'.max_pos ∧
      (c.input.i ≤ c.input.data_.length → c'.input.i ≤ c.input.data_.length) := by
  cases h with
  | matched h1 => exact h1.frame
  | fallback h1 h2 =>
    obtain ⟨h1, h2', h3, h4, h5, h6, h7, h8⟩ := h1.frame
    obtain ⟨k1, k2, k3, k4, k5, k6, k7, k8⟩ := h2.frame
    rw [h3] at k8
    refine ⟨k1.trans h1, k2.trans h2', k3.trans h3, k4.trans h4, le_trans h5 k5, ?_,
      le_trans h7 k7, fun hc => k8 (h8 hc)⟩
    intro hb
    have e1 := h6 rfl
    have e2 := k6 hb
    omega

/-- When `match_single` returns `false` the current character is `0`. -/
theorem Single.false_get {tuple : Tuple} {c c' : Cursor} (h : Single tuple c false c') :
    c'.input.get = 0 := by
  cases h with
  | fallback h1 h2 =>
    rcases h2.any_char_inv with ⟨_, hc, hg⟩ | ⟨hb, _, _⟩
    · rw [hc]; exact hg
    · cases hb

/-- Frame of the loop of `Scope::match`. -/
theorem Loop.loop_frame {tuple : Tuple} {c c' : Cursor} (h : Loop tuple c c') :
    c'.window = c.window ∧ c'.input.data_ = c.input.data_ ∧ c.input.i ≤ c'.input.i ∧
      c'.spans.style = c.spans.style ∧
      (c.input.i ≤ c.input.data_.length → c'.input.i ≤ c.input.data_.length) := by
  induction h with
  | done _ => simp
  | stuck _ h1 =>
    obtain ⟨_, h2, h3, h4, h5, _, _, h8⟩ := h1.single_frame
    exact ⟨h2, h3, h5, h4, h8⟩
  | step _ h1 _ ih =>
    obtain ⟨_, h2, h3, h4, h5, _, _, h8⟩ := h1.single_frame
    obtain ⟨k2, k3, k5, k4, k8⟩ := ih
    simp only [Cursor.add_checkpoint] at k2 k3 k5 k4 k8
    rw [h3] at k8
    exact ⟨k2.trans h2, k3.trans h3, le_trans h5 k5, k4.trans h4, fun hc => k8 (h8 hc)⟩

/-- When the loop of `Scope::match` returns, the cursor is at or past the
window end, or the current character is `0`. -/
theorem Loop.stops {tuple : Tuple} {c c' : Cursor} (h : Loop tuple c c') :
    c'.window.end_ ≤ c'.input.i ∨ c'.input.get = 0 := by
  induction h with
  | done hb =>
    left
    simpa [Cursor.is_before_window_end, StringInput.get_position] using hb
  | stuck _ h1 => right; exact h1.false_get
  | step _ _ _ ih => exact ih

/-- When `Scope::match` returns on a window that ends inside the input, the
cursor is at or past the window end, or before it at a NUL byte. -/
theorem Loop.stops_in_window {tuple : Tuple} {c c' : Cursor}
    (hloop : Loop tuple c.skip_to_checkpoint c')
    (hlen : c.window.end_ ≤ c.input.data_.length) :
    c.window.end_ ≤ c'.input.i ∨
      (c'.input.i < c.window.end_ ∧ c.input.data_.getD c'.input.i 0 = 0) := by
  obtain ⟨hw, hd, -, -, -⟩ := hloop.loop_frame
  simp only [Cursor.skip_to_checkpoint, StringInput.seek] at hw hd
  rcases hloop.stops with hs | hs
  · left; rw [← hw]; exact hs
  · by_cases hlt : c'.input.i < c.window.end_
    · right
      refine ⟨hlt, ?_⟩
      simp only [StringInput.get, StringInput.size_, hd] at hs
      rw [if_pos (by omega)] at hs
      exact hs
    · left; omega

/-- Claim C4 as stated fails: the scope "c" on the three bytes `'a'`, NUL, `'b'`
with the window `[0, 3)` returns with the cursor at position 1, which is not
greater than or equal to the window end. -/
theorem Scope.match_stops_at_nul_counterexample :
    ∃ c' : Cursor,
      Scope.match_ 40 c_scope
          (Cursor.new { data_ := [97, 0, 98], i := 0 } { checkpoints := [] } 0 3) = some c' ∧
      c'.input.i = 1 ∧ ¬ (3 ≤ c'.input.i) :=
  ⟨{ input := { data_ := [97, 0, 98], i := 1 },
     tree := { checkpoints := [{ pos := 1, max_pos := 1 }] },
     window := { start := 0, end_ := 3 }, max_pos := 1,
     spans := { spans := [{ start := 0, end_ := 1, style := Style.DEFAULT }],
                start := 1, style := Style.DEFAULT } },
   by decide, by decide, by decide⟩

/-- Claim C4, amended: for every scope, input and window that ends inside the
input, when `Scope::match` returns the cursor position is at or past the window
end, or it is before the window end at a NUL byte of the input (the
raw-character fallback rejects the character `0`); so the position is at or
past the window end when no byte before the window end is NUL.  Where every
alternative fails on a non-NUL character, `match_single` consumes exactly that
one character. -/
theorem Scope.match_reaches_window_end (fuel : Nat) (tuple : Tuple) (c c' : Cursor)
    (hlen : c.window.end_ ≤ c.input.data_.length)
    (h : Scope.match_ fuel tuple c = some c') :
    (c.window.end_ ≤ c'.input.i ∨
        (c'.input.i < c.window.end_ ∧ c.input.data_.getD c'.input.i 0 = 0)) ∧
      ((∀ i, i < c.window.end_ → c.input.data_.getD i 0 ≠ 0) → c.window.end_ ≤ c'.input.i) ∧
      (∀ (fuel1 : Nat) (d d1 : Cursor), Tuple.match_choice fuel1 tuple d = some (false, d1) →
        d.input.get ≠ 0 →
        Scope.match_single fuel1.succ tuple d = some (true, d1.advance) ∧
          d1.advance.input.i = d.input.i + 1) := by
  have hloop := Scope.match_loop_sound fuel _ _ h
  have hmain := Loop.stops_in_window hloop hlen
  refine ⟨hmain, ?_, ?_⟩
  · intro hnul
    rcases hmain with hm | ⟨hlt, hz⟩
    · exact hm
    · exact absurd hz (hnul _ hlt)
  · intro fuel1 d d1 hch hget
    have hev := Call.run_sound fuel1 (.alt tuple) d d1 false hch
    obtain ⟨_, _, hdd, _, _, hi, _, _⟩ := hev.frame
    have hi' := hi rfl
    have hin : d1.input = d.input := by
      cases hc : d.input
      cases hc' : d1.input
      rw [hc, hc'] at hdd hi'
      simp only at hdd hi'
      rw [hdd, hi']
    have hget1 : d1.input.get ≠ 0 := by rw [hin]; exact hget
    constructor
    · have hch' := Call.run_mono fuel1 (.alt tuple) d _ hch fuel1.succ (Nat.le_succ _)
      simp only [Call.run] at hch'
      simp only [Scope.match_single, hch', any_char, Node.match_, Cursor.get_eq]
      simp [hget1]
    · rw [Cursor.advance_input, StringInput.advance_of_get_ne_zero _ hget1, hin]

/-- Witness of `Scope.match_reaches_window_end`: the scope "c" over "a b". -/
theorem Scope.match_reaches_window_end_witness :
    (3 ≤ 3 ∨ (3 < 3 ∧ (lit "a b").getD 3 0 = 0)) ∧
      ((∀ i, i < 3 → (lit "a b").getD i 0 ≠ 0) → 3 ≤ 3) ∧
      (∀ (fuel1 : Nat) (d d1 : Cursor), Tuple.match_choice fuel1 c_scope d = some (false, d1) →
        d.input.get ≠ 0 →
        Scope.match_single fuel1.succ c_scope d = some (true, d1.advance) ∧
          d1.advance.input.i = d.input.i + 1) :=
  Scope.match_reaches_window_end 40 c_scope
    (Cursor.new { data_ := lit "a b", i := 0 } { checkpoints := [] } 0 3)
    { input := { data_ := lit "a b", i := 3 },
      tree := { checkpoints := [{ pos := 1, max_pos := 1 }, { pos := 2, max_pos := 2 },
        { pos := 3, max_pos := 3 }] },
      window := { start := 0, end_ := 3 }, max_pos := 3,
      spans :=
        { spans := [{ start := 0, end_ := 2, style := Style.DEFAULT }],
          start := 2,
          style := Style.DEFAULT } }
    (by decide) (by decide)

/-! ## Save and restore of the accumulator -/

/-- Claim C9 at a failing input: the accumulator holds the span `(0, 1, DEFAULT)`
with the open run starting at 1 in style `DEFAULT`; after `save`, the call
`change_style(3, COMMENT)` merges the run into the last span in place, and
`restore` truncates nothing: the last span stays `(0, 3, DEFAULT)` although it
was `(0, 1, DEFAULT)` at `save`. -/
theorem Spans.restore_after_merge :
    (((({ spans := [{ start := 0, end_ := 1, style := Style.DEFAULT }], start := 1,
          style := Style.DEFAULT } : Spans).change_style 3 Style.COMMENT
            { start := 0, end_ := 10 }).2).restore
        ({ spans := [{ start := 0, end_ := 1, style := Style.DEFAULT }], start := 1,
           style := Style.DEFAULT } : Spans).save) =
      { spans := [{ start := 0, end_ := 3, style := Style.DEFAULT }], start := 1,
        style := Style.DEFAULT } ∧
    ({ spans := [{ start := 0, end_ := 3, style := Style.DEFAULT }], start := 1,
       style := Style.DEFAULT } : Spans) ≠
      { spans := [{ start := 0, end_ := 1, style := Style.DEFAULT }], start := 1,
        style := Style.DEFAULT } := by
  decide

/-- Claim C5 at a failing input: the scope with the alternatives
`highlight(COMMENT, "/*")` and `sequence('a', highlight(KEYWORD, 'b'), 'c')` on
the document "xab" with the window `[0, 3)` emits the spans `(0, 2, DEFAULT)`
and `(1, 3, DEFAULT)`, which overlap. -/
theorem Scope.match_overlapping_spans :
    (highlight_pass 20
        (Tuple.ofList [highlight Style.COMMENT (str "/*"),
          sequence [chr 'a', highlight Style.KEYWORD (chr 'b'), chr 'c']])
        (lit "xab") { checkpoints := [] } 0 3).map (fun c => c.spans.spans) =
      some [{ start := 0, end_ := 2, style := Style.DEFAULT },
            { start := 1, end_ := 3, style := Style.DEFAULT }] ∧
    ¬ List.Chain' (fun a b : Span => a.end_ ≤ b.start)
        [{ start := 0, end_ := 2, style := Style.DEFAULT },
         { start := 1, end_ := 3, style := Style.DEFAULT }] :=
  ⟨by decide, fun h => absurd (List.chain'_cons.mp h).1 (by decide)⟩

/-- The same defect with the XML grammar of the repository: on the document
`<a><b` (an unfinished second tag) with the window `[0, 5)` the pass emits
`(0, 5, KEYWORD)` and then `(3, 5, DEFAULT)`, which overlap. -/
theorem Scope.match_overlapping_spans_xml :
    (highlight_pass 30 xml_scope (lit "<a><b") { checkpoints := [] } 0 5).map
        (fun c => c.spans.spans) =
      some [{ start := 0, end_ := 5, style := Style.KEYWORD },
            { start := 3, end_ := 5, style := Style.DEFAULT }] ∧
    ¬ List.Chain' (fun a b : Span => a.end_ ≤ b.start)
        [{ start := 0, end_ := 5, style := Style.KEYWORD },
         { start := 3, end_ := 5, style := Style.DEFAULT }] :=
  ⟨by decide, fun h => absurd (List.chain'_cons.mp h).1 (by decide)⟩

/-! ## Progress and termination -/

/-- A successful match of a `consuming` node moves the position forward. -/
theorem Eval.consumes {call : Call} {c c' : Cursor} {b : Bool} (h : Eval call c b c') :
    b = true → call.consuming = true → c.input.i < c'.input.i := by
  induction h with
  | @char_true f c hf =>
    intro _ hcons
    simp only [Call.consuming, Node.consuming, Bool.not_eq_true'] at hcons
    have hne : c.input.get ≠ 0 := by
      intro h0
      rw [Cursor.get_eq, h0, hcons] at hf
      cases hf
    rw [Cursor.advance_input, StringInput.advance_of_get_ne_zero _ hne]
    exact Nat.lt_succ_self _
  | char_false hf => intro hb; cases hb
  | @string s c =>
    intro hb hcons
    cases s with
    | nil => simp [Call.consuming, Node.consuming] at hcons
    | cons a rest =>
      simp only [Call.consuming, Node.consuming, bne_iff_ne, ne_eq] at hcons
      rw [String_match_loop_eq] at hb ⊢
      split at hb
      · rename_i hscan
        rw [if_pos hscan]
        exact String_scan_consumes a rest c.input hcons hscan
      · cases hb
  | sequence _ ih => intro hb hcons; exact ih hb hcons
  | choice _ ih => intro hb hcons; exact ih hb hcons
  | repetition_stop _ _ => intro _ hcons; simp [Call.consuming, Node.consuming] at hcons
  | repetition_step _ _ _ _ => intro _ hcons; simp [Call.consuming, Node.consuming] at hcons
  | optional _ _ => intro _ hcons; simp [Call.consuming, Node.consuming] at hcons
  | not_true _ _ => intro hb; cases hb
  | not_false _ _ => intro _ hcons; simp [Call.consuming, Node.consuming] at hcons
  | highlight _ ih =>
    intro hb hcons
    exact ih hb hcons
  | seq_nil => intro _ hcons; simp [Call.consuming, Tuple.any_consuming] at hcons
  | seq_first_fails _ _ => intro hb; cases hb
  | seq_true h1 h2 ih1 ih2 =>
    intro _ hcons
    simp only [Call.consuming, Tuple.any_consuming, Bool.or_eq_true] at hcons
    obtain ⟨_, _, _, _, hle1, _, _, _⟩ := h1.frame
    obtain ⟨_, _, _, _, hle2, _, _, _⟩ := h2.frame
    rcases hcons with hc | hc
    · have := ih1 rfl hc
      omega
    · have := ih2 rfl hc
      omega
  | seq_rest_fails _ _ _ _ => intro hb; cases hb
  | alt_nil => intro hb; cases hb
  | alt_first _ ih =>
    intro _ hcons
    simp only [Call.consuming, Tuple.all_consuming, Bool.and_eq_true] at hcons
    exact ih rfl hcons.1
  | alt_next h1 _ _ ih2 =>
    intro hb hcons
    simp only [Call.consuming, Tuple.all_consuming, Bool.and_eq_true] at hcons
    obtain ⟨_, _, _, _, _, heq, _, _⟩ := h1.frame
    have := ih2 hb hcons.2
    have := heq rfl
    omega

/-- Every call on a `productive` node returns: by induction on the number of
characters left, then on the size of the node. -/
theorem Eval.total : ∀ (r k : Nat) (call : Call) (c : Cursor),
    c.input.data_.length - c.input.i ≤ r → call.size ≤ k → call.productive = true →
    c.input.i ≤ c.input.data_.length → ∃ b c', Eval call c b c' := by
  intro r
  induction r using Nat.strong_induction_on with
  | _ r ihr =>
  intro k
  induction k with
  | zero =>
    intro call c _ hk _ _
    cases call with
    | node n => cases n <;> simp [Call.size, Node.size] at hk
    | seq t => cases t <;> simp [Call.size, Tuple.size] at hk
    | alt t => cases t <;> simp [Call.size, Tuple.size] at hk
  | succ k ih =>
    intro call c hr hk hprod hpos
    have sub : ∀ (call1 : Call) (c1 : Cursor), call1.size ≤ k → call1.productive = true →
        c1.input.data_ = c.input.data_ → c.input.i ≤ c1.input.i →
        c1.input.i ≤ c.input.data_.length → ∃ b c', Eval call1 c1 b c' := by
      intro call1 c1 hs hp hd hle hin
      exact ih call1 c1 (by rw [hd]; omega) hs hp (by rw [hd]; exact hin)
    cases call with
    | node n =>
      cases n with
      | Char f =>
        by_cases hf : f c.get = true
        · exact ⟨true, _, Eval.char_true hf⟩
        · exact ⟨false, _, Eval.char_false (by simpa using hf)⟩
      | String s => exact ⟨_, _, Eval.string⟩
      | Sequence t =>
        simp only [Call.size, Node.size, Call.productive, Node.productive] at hk hprod
        obtain ⟨b, c', h⟩ := sub (.seq t) c (by simp only [Call.size]; omega) hprod rfl
          (le_refl _) hpos
        exact ⟨b, c', Eval.sequence h⟩
      | Choice t =>
        simp only [Call.size, Node.size, Call.productive, Node.productive] at hk hprod
        obtain ⟨b, c', h⟩ := sub (.alt t) c (by simp only [Call.size]; omega) hprod rfl
          (le_refl _) hpos
        exact ⟨b, c', Eval.choice h⟩
      | Repetition t =>
        simp only [Call.size, Node.size, Call.productive, Node.productive,
          Bool.and_eq_true] at hk hprod
        obtain ⟨b, c1, h⟩ := sub (.node t) c (by simp only [Call.size]; omega) hprod.2 rfl
          (le_refl _) hpos
        cases b with
        | false => exact ⟨true, c1, Eval.repetition_stop h⟩
        | true =>
          have hlt := h.consumes rfl hprod.1
          obtain ⟨_, _, hd, _, _, _, _, hin⟩ := h.frame
          have hin1 := hin hpos
          obtain ⟨b2, c2, h2⟩ := ihr (c1.input.data_.length - c1.input.i)
            (by rw [hd]; omega) (t.size + 1) (.node (.Repetition t)) c1 (le_refl _)
            (by simp [Call.size, Node.size])
            (by simp [Call.productive, Node.productive, hprod.1, hprod.2])
            (by rw [hd]; exact hin1)
          exact ⟨b2, c2, Eval.repetition_step h h2⟩
      | Optional t =>
        simp only [Call.size, Node.size, Call.productive, Node.productive] at hk hprod
        obtain ⟨b, c1, h⟩ := sub (.node t) c (by simp only [Call.size]; omega) hprod rfl
          (le_refl _) hpos
        exact ⟨true, c1, Eval.optional h⟩
      | Not t =>
        simp only [Call.size, Node.size, Call.productive, Node.productive] at hk hprod
        obtain ⟨b, c1, h⟩ := sub (.node t) c (by simp only [Call.size]; omega) hprod rfl
          (le_refl _) hpos
        cases b with
        | false => exact ⟨true, c1, Eval.not_false h⟩
        | true => exact ⟨false, _, Eval.not_true h⟩
      | Highlight t style =>
        simp only [Call.size, Node.size, Call.productive, Node.productive] at hk hprod
        obtain ⟨b, c1, h⟩ := sub (.node t) (c.change_style style).2
          (by simp only [Call.size]; omega) hprod rfl (le_refl _) hpos
        exact ⟨b, _, Eval.highlight h⟩
    | seq t =>
      cases t with
      | nil => exact ⟨true, c, Eval.seq_nil⟩
      | cons t0 t =>
        simp only [Call.size, Tuple.size, Call.productive, Tuple.productive,
          Bool.and_eq_true] at hk hprod
        obtain ⟨b, c1, h⟩ := sub (.node t0) c (by simp only [Call.size]; omega) hprod.1 rfl
          (le_refl _) hpos
        cases b with
        | false => exact ⟨false, c1, Eval.seq_first_fails h⟩
        | true =>
          obtain ⟨_, _, hd, _, hle, _, _, hin⟩ := h.frame
          obtain ⟨b2, c2, h2⟩ := sub (.seq t) c1 (by simp only [Call.size]; omega) hprod.2 hd
            hle (hin hpos)
          cases b2 with
          | false => exact ⟨false, _, Eval.seq_rest_fails h h2⟩
          | true => exact ⟨true, c2, Eval.seq_true h h2⟩
    | alt t =>
      cases t with
      | nil => exact ⟨false, c, Eval.alt_nil⟩
      | cons t0 t =>
        simp only [Call.size, Tuple.size, Call.productive, Tuple.productive,
          Bool.and_eq_true] at hk hprod
        obtain ⟨b, c1, h⟩ := sub (.node t0) c (by simp only [Call.size]; omega) hprod.1 rfl
          (le_refl _) hpos
        cases b with
        | true => exact ⟨true, c1, Eval.alt_first h⟩
        | false =>
          obtain ⟨_, _, hd, _, hle, _, _, hin⟩ := h.frame
          obtain ⟨b2, c2, h2⟩ := sub (.alt t) c1 (by simp only [Call.size]; omega) hprod.2 hd
            hle (hin hpos)
          exact ⟨b2, c2, Eval.alt_next h h2⟩

/-- On a `productive` scope `match_single` returns. -/
theorem Single.single_total (tuple : Tuple) (c : Cursor) (hprod : tuple.productive = true)
    (hpos : c.input.i ≤ c.input.data_.length) : ∃ b c', Single tuple c b c' := by
  obtain ⟨b, c1, h⟩ := Eval.total _ _ (.alt tuple) c (le_refl _) (le_refl _) hprod hpos
  cases b with
  | true => exact ⟨true, c1, Single.matched h⟩
  | false =>
    by_cases hf : c1.input.get = 0
    · exact ⟨false, c1, Single.fallback h (by
        simp only [any_char]
        exact Eval.char_false (by simp [hf]))⟩
    · exact ⟨true, c1.advance, Single.fallback h (by
        simp only [any_char]
        exact Eval.char_true (by simpa using hf))⟩

/-- A successful `match_single` on a scope whose alternatives are all
`consuming` moves the position forward. -/
theorem Single.single_consumes {tuple : Tuple} {c c' : Cursor} (h : Single tuple c true c')
    (hcons : tuple.all_consuming = true) : c.input.i < c'.input.i := by
  cases h with
  | matched h1 => exact h1.consumes rfl hcons
  | fallback h1 h2 =>
    obtain ⟨_, _, _, _, hle, _, _, _⟩ := h1.frame
    rcases h2.any_char_inv with ⟨hb, _, _⟩ | ⟨_, hc, hg⟩
    · cases hb
    · rw [hc, Cursor.advance_input, StringInput.advance_of_get_ne_zero _ hg]
      omega

/-- On a `productive` scope whose alternatives are all `consuming`, the loop of
`Scope::match` returns from every cursor inside the document. -/
theorem Loop.loop_total (tuple : Tuple) (hprod : tuple.productive = true)
    (hcons : tuple.all_consuming = true) : ∀ (r : Nat) (c : Cursor),
    c.input.data_.length - c.input.i ≤ r → c.input.i ≤ c.input.data_.length →
    ∃ c', Loop tuple c c' := by
  intro r
  induction r using Nat.strong_induction_on with
  | _ r ihr =>
  intro c hr hpos
  by_cases hb : c.is_before_window_end = true
  · obtain ⟨b, c1, h1⟩ := Single.single_total tuple c hprod hpos
    cases b with
    | false => exact ⟨c1, Loop.stuck hb h1⟩
    | true =>
      have hlt := h1.single_consumes hcons
      obtain ⟨_, _, hd, _, _, _, _, hin⟩ := h1.single_frame
      have hin1 := hin hpos
      obtain ⟨c2, h2⟩ := ihr (c1.input.data_.length - c1.input.i) (by rw [hd]; omega)
        c1.add_checkpoint (le_refl _) (by
          show c1.input.i ≤ c1.input.data_.length
          rw [hd]; exact hin1)
      exact ⟨c2, Loop.step hb h1 h2⟩
  · exact ⟨c, Loop.done (by simpa using hb)⟩

/-! ## Chains of spans -/

theorem chain_snoc : ∀ (l : List Span) (s : Span) (a b : Nat),
    Chain (l ++ [s]) a b ↔ Chain l a s.start ∧ s.end_ = b := by
  intro l
  induction l with
  | nil =>
    intro s a b
    simp only [List.nil_append, Chain]
    constructor
    · rintro ⟨h1, h2⟩; exact ⟨h1.symm, h2⟩
    · rintro ⟨h1, h2⟩; exact ⟨h1.symm, h2⟩
  | cons x l ih =>
    intro s a b
    show (x.start = a ∧ Chain (l ++ [s]) x.end_ b) ↔
      ((x.start = a ∧ Chain l x.end_ s.start) ∧ s.end_ = b)
    rw [ih]
    tauto

theorem chain_head : ∀ (l : List Span) (a b : Nat), Chain l a b →
    ∀ s, l.head? = some s → s.start = a := by
  intro l a b h s hs
  cases l with
  | nil => simp at hs
  | cons x l =>
    simp only [List.head?_cons, Option.some.injEq] at hs
    subst hs
    exact h.1

theorem chain_adjacent : ∀ (l : List Span) (a b : Nat), Chain l a b →
    List.Chain' (fun x y : Span => x.end_ = y.start) l := by
  intro l
  induction l with
  | nil => intro a b _; exact List.chain'_nil
  | cons x l ih =>
    intro a b h
    cases l with
    | nil => exact List.chain'_singleton x
    | cons y l =>
      rw [List.chain'_cons]
      exact ⟨h.2.1.symm, ih _ _ h.2⟩

theorem chain_last : ∀ (l : List Span) (a b : Nat), Chain l a b →
    ∀ s, l.getLast? = some s → s.end_ = b := by
  intro l a b h s hs
  obtain ⟨ys, rfl⟩ := List.getLast?_eq_some_iff.mp hs
  exact ((chain_snoc ys s a b).mp h).2

/-- One `change_style` at a position at or after the start of the open run
extends a chain that ends at the clipped start of the open run to a chain that
ends at the clipped position. -/
theorem Spans.change_style_chain (A : Spans) (pos : Nat) (s : Int) (w : Range)
    (hw : w.start ≤ w.end_) (hle : A.start ≤ pos)
    (hch : Chain A.spans w.start (clip w A.start)) :
    Chain (A.change_style pos s w).2.spans w.start (clip w pos) := by
  simp only [Spans.change_style]
  by_cases hp : pos = A.start
  · simp only [hp, ne_eq, not_true_eq_false, if_false]
    exact hch
  · simp only [ne_eq, hp, not_false_eq_true, if_true]
    simp only [Spans.emit_span]
    by_cases hout : (decide (pos ≤ w.start) || decide (A.start ≥ w.end_)) = true
    · rw [if_pos hout]
      simp only [Bool.or_eq_true, decide_eq_true_eq] at hout
      have : clip w pos = clip w A.start := by
        simp only [clip]
        rcases hout with h | h
        · rw [Nat.min_eq_left (by omega : pos ≤ w.end_),
            Nat.min_eq_left (by omega : A.start ≤ w.end_)]
          omega
        · rw [Nat.min_eq_right (by omega : w.end_ ≤ pos),
            Nat.min_eq_right (by omega : w.end_ ≤ A.start)]
      rw [this]
      exact hch
    · rw [if_neg hout]
      simp only [Bool.or_eq_true, decide_eq_true_eq, not_or, not_le, ge_iff_le] at hout
      obtain ⟨h1, h2⟩ := hout
      have hclip_pos : clip w pos = min pos w.end_ := by
        simp only [clip]
        omega
      have hclip_start : clip w A.start = max A.start w.start := by
        simp only [clip]
        omega
      have hpush : Chain (A.spans ++
          [({ start := max A.start w.start, end_ := min pos w.end_, style := A.style } : Span)])
          w.start (clip w pos) := by
        rw [chain_snoc]
        exact ⟨by rw [← hclip_start]; exact hch, hclip_pos.symm⟩
      split
      · rename_i last hlast
        split
        · obtain ⟨ys, hys⟩ := List.getLast?_eq_some_iff.mp hlast
          rw [hys] at hch
          simp only [hys, List.dropLast_concat]
          rw [chain_snoc] at hch ⊢
          exact ⟨hch.1, hclip_pos.symm⟩
        · exact hpush
      · exact hpush

/-- A `change_style` at or before the window start emits nothing. -/
theorem Spans.change_style_before_window (A : Spans) (pos : Nat) (s : Int) (w : Range)
    (h : pos ≤ w.start) : (A.change_style pos s w).2.spans = A.spans := by
  simp only [Spans.change_style]
  split
  · simp only [Spans.emit_span]
    rw [if_pos (by simp [h])]
  · rfl

/-! ## Scopes whose style changes happen at the top level -/

theorem Node.flat_cases (n : Node) (h : n.flat = true) :
    (∃ t s, n = .Highlight t s ∧ t.hlfree = true) ∨ n.hlfree = true := by
  cases n <;> simp_all [Node.flat, Node.hlfree]

/-- A reflexive and transitive relation that holds across the match of every
`flat` node holds across `match_choice` on a `flat` tuple. -/
theorem Eval.alt_flat_induction (R : Cursor → Cursor → Prop) (hrefl : ∀ c, R c c)
    (htrans : ∀ a b c, R a b → R b c → R a c)
    (hnode : ∀ (n : Node) (c c' : Cursor) (b : Bool), n.flat = true →
      Eval (.node n) c b c' → R c c')
    {call : Call} {c c' : Cursor} {b : Bool} (h : Eval call c b c') :
    ∀ tuple, call = .alt tuple → tuple.flat = true → R c c' := by
  induction h with
  | alt_nil => intro _ _ _; exact hrefl _
  | alt_first h1 _ =>
    intro tuple hc hf
    cases hc
    simp only [Tuple.flat, Bool.and_eq_true] at hf
    exact hnode _ _ _ _ hf.1 h1
  | alt_next h1 _ _ ih2 =>
    intro tuple hc hf
    cases hc
    simp only [Tuple.flat, Bool.and_eq_true] at hf
    exact htrans _ _ _ (hnode _ _ _ _ hf.1 h1) (ih2 _ rfl hf.2)
  | _ => intro tuple hc; cases hc

/-- The same for `match_single`. -/
theorem Single.single_flat_induction (R : Cursor → Cursor → Prop) (hrefl : ∀ c, R c c)
    (htrans : ∀ a b c, R a b → R b c → R a c)
    (hnode : ∀ (n : Node) (c c' : Cursor) (b : Bool), n.flat = true →
      Eval (.node n) c b c' → R c c')
    {tuple : Tuple} {c c' : Cursor} {b : Bool} (h : Single tuple c b c')
    (hflat : tuple.flat = true) : R c c' := by
  cases h with
  | matched h1 => exact Eval.alt_flat_induction R hrefl htrans hnode h1 _ rfl hflat
  | fallback h1 h2 =>
    exact htrans _ _ _ (Eval.alt_flat_induction R hrefl htrans hnode h1 _ rfl hflat)
      (hnode any_char _ _ _ rfl h2)

/-- The same for the loop of `Scope::match`, for a relation that also holds
across `add_checkpoint`. -/
theorem Loop.loop_flat_induction (R : Cursor → Cursor → Prop) (hrefl : ∀ c, R c c)
    (htrans : ∀ a b c, R a b → R b c → R a c)
    (hnode : ∀ (n : Node) (c c' : Cursor) (b : Bool), n.flat = true →
      Eval (.node n) c b c' → R c c')
    (hcp : ∀ c : Cursor, R c c.add_checkpoint)
    {tuple : Tuple} {c c' : Cursor} (h : Loop tuple c c')
    (hflat : tuple.flat = true) : R c c' := by
  induction h with
  | done _ => exact hrefl _
  | stuck _ h1 => exact Single.single_flat_induction R hrefl htrans hnode h1 hflat
  | step _ h1 _ ih =>
    exact htrans _ _ _ (Single.single_flat_induction R hrefl htrans hnode h1 hflat)
      (htrans _ _ _ (hcp _) ih)

/-- The same for a sequence of iterations of the loop. -/
theorem Reach.reach_flat_induction (R : Cursor → Cursor → Prop) (hrefl : ∀ c, R c c)
    (htrans : ∀ a b c, R a b → R b c → R a c)
    (hnode : ∀ (n : Node) (c c' : Cursor) (b : Bool), n.flat = true →
      Eval (.node n) c b c' → R c c')
    (hcp : ∀ c : Cursor, R c c.add_checkpoint)
    {tuple : Tuple} {c c' : Cursor} (h : Reach tuple c c')
    (hflat : tuple.flat = true) : R c c' := by
  induction h with
  | refl => exact hrefl _
  | step _ h1 _ ih =>
    exact htrans _ _ _ (Single.single_flat_induction R hrefl htrans hnode h1 hflat)
      (htrans _ _ _ (hcp _) ih)

/-- The match of a `flat` node keeps the accumulator consistent with the
position. -/
theorem Eval.flat_tiled {n : Node} {c c' : Cursor} {b : Bool} (hflat : n.flat = true)
    (h : Eval (.node n) c b c') :
    c'.window = c.window ∧ c.input.i ≤ c'.input.i ∧
      (c.window.start ≤ c.window.end_ → c.tiled → c'.tiled) := by
  obtain ⟨_, hw, _, _, hle, _, _, _⟩ := h.frame
  refine ⟨hw, hle, ?_⟩
  intro hwin hq
  rcases Node.flat_cases n hflat with ⟨t, s, rfl, hfree⟩ | hfree
  · cases h with
    | @highlight _ _ _ c1 _ h1 =>
      obtain ⟨_, hw1, _, _, hle1, _, _, _⟩ := h1.frame
      have hsp := h1.hlfree_spans hfree
      simp only [Cursor.change_style_window, Cursor.change_style_input,
        Cursor.change_style_spans] at hw1 hle1 hsp
      have hch1 := Spans.change_style_chain c.spans c.input.i s c.window hwin hq.1 hq.2
      have hst1 := Spans.change_style_start c.spans c.input.i s c.window
      constructor
      · simp only [Cursor.change_style_spans, Cursor.change_style_input]
        rw [Spans.change_style_start]
      · simp only [Cursor.change_style_spans, Cursor.change_style_window]
        rw [hw1, hsp, Spans.change_style_start]
        apply Spans.change_style_chain _ _ _ _ hwin
        · rw [hst1]; exact hle1
        · rw [hst1]; exact hch1
  · have hsp := h.hlfree_spans hfree
    constructor
    · rw [hsp]; exact le_trans hq.1 hle
    · rw [hsp, hw]; exact hq.2

/-- The loop of `Scope::match` on a `flat` scope keeps the accumulator
consistent with the position. -/
theorem Loop.loop_tiled {tuple : Tuple} {c c' : Cursor} (h : Loop tuple c c')
    (hflat : tuple.flat = true) (hwin : c.window.start ≤ c.window.end_) (hq : c.tiled) :
    c'.tiled := by
  have := Loop.loop_flat_induction
    (fun c c' => c'.window = c.window ∧ c.input.i ≤ c'.input.i ∧
      (c.window.start ≤ c.window.end_ → c.tiled → c'.tiled))
    (fun c => ⟨rfl, le_refl _, fun _ h => h⟩)
    (fun a b c hab hbc => ⟨hbc.1.trans hab.1, le_trans hab.2.1 hbc.2.1,
      fun hw hq => hbc.2.2 (by rw [hab.1]; exact hw) (hab.2.2 hw hq)⟩)
    (fun n c c' b hf he => Eval.flat_tiled hf he)
    (fun c => ⟨rfl, le_refl _, fun _ h => h⟩) h hflat
  exact this.2.2 hwin hq

/-- Method `find_checkpoint` never returns a position after the one asked for,
whatever the tree. -/
theorem Tree.find_checkpoint_le (t : Tree) (p : Nat) : t.find_checkpoint p ≤ p := by
  obtain ⟨_, h2, _⟩ := lower_bound_spec
    (fun (checkpoint : Checkpoint) (pos : Nat) => decide (checkpoint.pos > pos))
    t.checkpoints.reverse p
  simp only [Tree.find_checkpoint]
  rcases h2 with h2 | ⟨c0, hc0, hc0p⟩
  · rw [h2, List.getElem?_eq_none (le_refl _)]
    exact Nat.zero_le _
  · rw [hc0]
    simpa using hc0p

/-- The scope "c" is `flat`, `productive`, and all its alternatives are
`consuming`. -/
theorem c_scope_classes :
    c_scope.flat = true ∧ c_scope.productive = true ∧ c_scope.all_consuming = true := by
  decide

/-! ## Coverage of the window -/

/-- Claim C1 as stated fails: for the bytes `'a'`, NUL, `'b'` and the window
`[0, 3)` the pass of the scope "c" stops at the NUL byte and yields the single
span `(0, 1, DEFAULT)`: the last span does not end at the window end. -/
theorem highlight_pass_nul_counterexample :
    ∃ c : Cursor,
      highlight_pass 40 c_scope [97, 0, 98] { checkpoints := [] } 0 3 = some c ∧
      c.spans.spans = [{ start := 0, end_ := 1, style := Style.DEFAULT }] ∧
      ¬ (∀ s, c.spans.spans.getLast? = some s → s.end_ = 3) :=
  ⟨{ input := { data_ := [97, 0, 98], i := 1 },
     tree := { checkpoints := [{ pos := 1, max_pos := 1 }] },
     window := { start := 0, end_ := 3 }, max_pos := 1,
     spans := { spans := [{ start := 0, end_ := 1, style := Style.DEFAULT }],
                start := 1, style := Style.DEFAULT } },
   by decide, by decide,
   fun h => absurd (h { start := 0, end_ := 1, style := Style.DEFAULT } rfl) (by decide)⟩

/-- Claim C1, amended: for the scope "c", every document, every tree and every
window with `windowStart <= windowEnd <= length(document)` such that no byte
before `windowEnd` is NUL, the pass (`Scope::match`, then the final
`change_style(DEFAULT)`) returns, and its span list tiles the window: the first
span starts at `windowStart`, each next span starts where the previous one
ends, the last span ends at `windowEnd`, and the list is empty only when
`windowStart = windowEnd`. -/
theorem highlight_pass_tiles (data : List Nat) (tree : Tree) (ws we : Nat)
    (hw : ws ≤ we) (hlen : we ≤ data.length) (hnul : ∀ i, i < we → data.getD i 0 ≠ 0) :
    (∃ fuel c, highlight_pass fuel c_scope data tree ws we = some c) ∧
      ∀ fuel c, highlight_pass fuel c_scope data tree ws we = some c →
        (∀ s, c.spans.spans.head? = some s → s.start = ws) ∧
        List.Chain' (fun x y : Span => x.end_ = y.start) c.spans.spans ∧
        (∀ s, c.spans.spans.getLast? = some s → s.end_ = we) ∧
        (c.spans.spans = [] → ws = we) := by
  obtain ⟨hflat, hprod, hcons⟩ := c_scope_classes
  have hstart : (Cursor.new { data_ := data, i := 0 } tree ws we).skip_to_checkpoint.input.i
      ≤ ws := Tree.find_checkpoint_le tree ws
  constructor
  · obtain ⟨c1, h1⟩ := Loop.loop_total c_scope hprod hcons _
      (Cursor.new { data_ := data, i := 0 } tree ws we).skip_to_checkpoint (le_refl _)
      (by
        show (Cursor.new { data_ := data, i := 0 } tree ws we).skip_to_checkpoint.input.i
          ≤ data.length
        omega)
    obtain ⟨fuel, hf⟩ := Scope.match_loop_complete h1
    refine ⟨fuel, (c1.change_style Style.DEFAULT).2, ?_⟩
    simp only [highlight_pass, Scope.match_, hf]
  · intro fuel c hpass
    simp only [highlight_pass] at hpass
    split at hpass
    · cases hpass
    · rename_i c1 hm
      cases hpass
      have hloop := Scope.match_loop_sound fuel _ _ hm
      have htiled : c1.tiled := by
        apply Loop.loop_tiled hloop hflat
        · exact hw
        · constructor
          · exact Nat.zero_le _
          · show ws = clip { start := ws, end_ := we } 0
            simp [clip]
      obtain ⟨hwin, _, _, _, _⟩ := hloop.loop_frame
      have hend : we ≤ c1.input.i := by
        rcases Loop.stops_in_window (c := Cursor.new { data_ := data, i := 0 } tree ws we)
          hloop hlen with hm1 | ⟨hlt, hz⟩
        · exact hm1
        · exact absurd hz (hnul _ hlt)
      have hwin' : c1.window = { start := ws, end_ := we } := hwin
      have hchain := Spans.change_style_chain c1.spans c1.input.i Style.DEFAULT c1.window
        (by rw [hwin']; exact hw) htiled.1 htiled.2
      have hclip : clip c1.window c1.input.i = we := by
        rw [hwin']
        simp only [clip]
        omega
      rw [hclip, hwin'] at hchain
      simp only [Cursor.change_style_spans]
      rw [hwin']
      refine ⟨chain_head _ _ _ hchain, chain_adjacent _ _ _ hchain, chain_last _ _ _ hchain, ?_⟩
      intro hnil
      rw [hnil] at hchain
      exact hchain

/-- Witness of `highlight_pass_tiles`: the document "if (x)" and its whole
extent as window. -/
theorem highlight_pass_tiles_witness :
    (∃ fuel c, highlight_pass fuel c_scope (lit "if (x)") { checkpoints := [] } 0 6 = some c) ∧
      ∀ fuel c, highlight_pass fuel c_scope (lit "if (x)") { checkpoints := [] } 0 6 = some c →
        (∀ s, c.spans.spans.head? = some s → s.start = 0) ∧
        List.Chain' (fun x y : Span => x.end_ = y.start) c.spans.spans ∧
        (∀ s, c.spans.spans.getLast? = some s → s.end_ = 6) ∧
        (c.spans.spans = [] → 0 = 6) :=
  highlight_pass_tiles (lit "if (x)") { checkpoints := [] } 0 6 (by decide) (by decide)
    (by decide)

/-! ## Independence of matching from the tree -/

theorem String_match_loop_with_tree (sp : Cursor.SavePoint) (s : List Nat) (c : Cursor)
    (T : Tree) :
    String_match_loop sp s (c.with_tree T) =
      ((String_match_loop sp s c).1, (String_match_loop sp s c).2.with_tree T) := by
  rw [String_match_loop_eq, String_match_loop_eq]
  simp only [Cursor.with_tree]
  split <;> rfl

/-- Matching neither reads nor writes the tree. -/
theorem Eval.eval_with_tree {call : Call} {c c' : Cursor} {b : Bool} (h : Eval call c b c')
    (T : Tree) : Eval call (c.with_tree T) b (c'.with_tree T) := by
  induction h with
  | @char_true f c hf => exact Eval.char_true (c := c.with_tree T) hf
  | @char_false f c hf => exact Eval.char_false (c := c.with_tree T) hf
  | @string s c =>
    have h := Eval.string (s := s) (c := c.with_tree T)
    have e : (c.with_tree T).save = c.save := rfl
    rw [e, String_match_loop_with_tree] at h
    exact h
  | sequence _ ih => exact Eval.sequence ih
  | choice _ ih => exact Eval.choice ih
  | repetition_stop _ ih => exact Eval.repetition_stop ih
  | repetition_step _ _ ih1 ih2 => exact Eval.repetition_step ih1 ih2
  | optional _ ih => exact Eval.optional ih
  | not_true _ ih => exact Eval.not_true ih
  | not_false _ ih => exact Eval.not_false ih
  | @highlight t style c c1 b _ ih =>
    exact @Eval.highlight t style (c.with_tree T) (c1.with_tree T) b ih
  | seq_nil => exact Eval.seq_nil
  | seq_first_fails _ ih => exact Eval.seq_first_fails ih
  | seq_true _ _ ih1 ih2 => exact Eval.seq_true ih1 ih2
  | seq_rest_fails _ _ ih1 ih2 => exact Eval.seq_rest_fails ih1 ih2
  | alt_nil => exact Eval.alt_nil
  | alt_first _ ih => exact Eval.alt_first ih
  | alt_next _ _ ih1 ih2 => exact Eval.alt_next ih1 ih2

theorem Single.with_tree_single {tuple : Tuple} {c c' : Cursor} {b : Bool}
    (h : Single tuple c b c') (T : Tree) : Single tuple (c.with_tree T) b (c'.with_tree T) := by
  cases h with
  | matched h1 => exact Single.matched (h1.eval_with_tree T)
  | fallback h1 h2 => exact Single.fallback (h1.eval_with_tree T) (h2.eval_with_tree T)

/-- The loop of `Scope::match` on another tree takes the same steps; only the
tree of the resulting cursor differs. -/
theorem Loop.with_tree_loop {tuple : Tuple} {c c' : Cursor} (h : Loop tuple c c') :
    ∀ T : Tree, ∃ T' : Tree, Loop tuple (c.with_tree T) (c'.with_tree T') := by
  induction h with
  | done hb => intro T; exact ⟨T, Loop.done hb⟩
  | stuck hb h1 => intro T; exact ⟨T, Loop.stuck hb (h1.with_tree_single T)⟩
  | @step c c1 c2 hb h1 _ ih =>
    intro T
    obtain ⟨T', hT'⟩ := ih (T.add_checkpoint c1.input.get_position
      (max c1.max_pos c1.input.get_position))
    exact ⟨T', Loop.step (c := c.with_tree T) hb (h1.with_tree_single T) hT'⟩

/-- The loop of `Scope::match` has at most one result. -/
theorem Loop.unique {tuple : Tuple} {c a b : Cursor} (ha : Loop tuple c a)
    (hb : Loop tuple c b) : a = b := by
  obtain ⟨n1, h1⟩ := Scope.match_loop_complete ha
  obtain ⟨n2, h2⟩ := Scope.match_loop_complete hb
  exact Scope.match_loop_unique h1 h2

/-- More fuel does not change the result of a pass. -/
theorem highlight_pass_mono {fuel fuel' : Nat} {scope : Tuple} {data : List Nat} {tree : Tree}
    {ws we : Nat} {c : Cursor} (h : highlight_pass fuel scope data tree ws we = some c)
    (hle : fuel ≤ fuel') : highlight_pass fuel' scope data tree ws we = some c := by
  simp only [highlight_pass] at h ⊢
  split at h
  · cases h
  · rename_i c1 hm
    simp only [Scope.match_] at hm ⊢
    rw [Scope.match_loop_mono fuel _ _ hm fuel' hle]
    exact h

/-- A pass is the loop of `Scope::match` from the resume position followed by
the final `change_style(DEFAULT)`. -/
theorem highlight_pass_iff {fuel : Nat} {scope : Tuple} {data : List Nat} {tree : Tree}
    {ws we : Nat} {c : Cursor} (h : highlight_pass fuel scope data tree ws we = some c) :
    ∃ c1, Loop scope (Cursor.new { data_ := data, i := 0 } tree ws we).skip_to_checkpoint c1 ∧
      c = (c1.change_style Style.DEFAULT).2 := by
  simp only [highlight_pass] at h
  split at h
  · cases h
  · rename_i c1 hm
    cases h
    exact ⟨c1, Scope.match_loop_sound fuel _ _ hm, rfl⟩

theorem highlight_pass_of_loop {scope : Tuple} {data : List Nat} {tree : Tree}
    {ws we : Nat} {c1 : Cursor}
    (h : Loop scope (Cursor.new { data_ := data, i := 0 } tree ws we).skip_to_checkpoint c1) :
    ∃ fuel, highlight_pass fuel scope data tree ws we = some (c1.change_style Style.DEFAULT).2 := by
  obtain ⟨fuel, hf⟩ := Scope.match_loop_complete h
  exact ⟨fuel, by simp only [highlight_pass, Scope.match_, hf]⟩

/-! ## Idempotence of the full-document pass -/

/-- Claim C10: for the scope "c" and every document, the full-document pass from
an empty tree returns, a second full-document pass on the tree left by the
first one returns too, and the two span lists are identical. -/
theorem highlight_pass_idempotent (data : List Nat) :
    (∃ fuel c1 c2,
        highlight_pass fuel c_scope data { checkpoints := [] } 0 data.length = some c1 ∧
        highlight_pass fuel c_scope data c1.tree 0 data.length = some c2) ∧
      ∀ fuel1 fuel2 c1 c2,
        highlight_pass fuel1 c_scope data { checkpoints := [] } 0 data.length = some c1 →
        highlight_pass fuel2 c_scope data c1.tree 0 data.length = some c2 →
        c2.spans.spans = c1.spans.spans := by
  obtain ⟨hflat, hprod, hcons⟩ := c_scope_classes
  have hstart : ∀ T : Tree,
      (Cursor.new { data_ := data, i := 0 } T 0 data.length).skip_to_checkpoint =
        (Cursor.new { data_ := data, i := 0 } { checkpoints := [] } 0
          data.length).skip_to_checkpoint.with_tree T := by
    intro T
    have h0 : T.find_checkpoint 0 = 0 := Nat.le_zero.mp (Tree.find_checkpoint_le T 0)
    have h1 : ({ checkpoints := [] } : Tree).find_checkpoint 0 = 0 :=
      Nat.le_zero.mp (Tree.find_checkpoint_le _ 0)
    simp only [Cursor.skip_to_checkpoint, Cursor.new, StringInput.seek, Cursor.with_tree, h0, h1]
  have second : ∀ e1 : Cursor,
      Loop c_scope (Cursor.new { data_ := data, i := 0 } { checkpoints := [] } 0
        data.length).skip_to_checkpoint e1 →
      ∀ T : Tree, ∃ T' : Tree,
        Loop c_scope (Cursor.new { data_ := data, i := 0 } T 0 data.length).skip_to_checkpoint
          (e1.with_tree T') := by
    intro e1 h1 T
    rw [hstart T]
    exact h1.with_tree_loop T
  constructor
  · obtain ⟨e1, h1⟩ := Loop.loop_total c_scope hprod hcons _
      (Cursor.new { data_ := data, i := 0 } { checkpoints := [] } 0
        data.length).skip_to_checkpoint (le_refl _)
      (by
        have := Tree.find_checkpoint_le { checkpoints := [] } 0
        show ({ checkpoints := [] } : Tree).find_checkpoint 0 ≤ data.length
        omega)
    obtain ⟨T', h2⟩ := second e1 h1 e1.tree
    obtain ⟨n1, hn1⟩ := highlight_pass_of_loop h1
    obtain ⟨n2, hn2⟩ := highlight_pass_of_loop h2
    exact ⟨max n1 n2, _, _, highlight_pass_mono hn1 (le_max_left _ _),
      highlight_pass_mono hn2 (le_max_right _ _)⟩
  · intro fuel1 fuel2 c1 c2 hp1 hp2
    obtain ⟨e1, h1, rfl⟩ := highlight_pass_iff hp1
    obtain ⟨e2, h2, rfl⟩ := highlight_pass_iff hp2
    obtain ⟨T', h2'⟩ := second e1 h1 (e1.change_style Style.DEFAULT).2.tree
    have := Loop.unique h2 h2'
    rw [this]
    rfl

/-! ## Matching depends only on the characters it reads -/

theorem AgreeUpTo.mono {m m' : Nat} {D D' : List Nat} (h : AgreeUpTo m D D') (hle : m' ≤ m) :
    AgreeUpTo m' D D' :=
  fun i hi => h i (le_trans hi hle)

theorem AgreeUpTo.refl (m : Nat) (D : List Nat) : AgreeUpTo m D D :=
  fun _ _ => ⟨rfl, Iff.rfl⟩

/-- Documents that agree before `p` read the same up to every `m < p`. -/
theorem Agree.agreeUpTo {p m : Nat} {D D' : List Nat} (h : Agree p D D') (hm : m < p) :
    AgreeUpTo m D D' := by
  intro i hi
  obtain ⟨h1, h2, h3⟩ := h
  have hi1 : i < D.length := by omega
  have hi2 : i < D'.length := by omega
  refine ⟨?_, by simp [hi1, hi2]⟩
  simp only [StringInput.get, StringInput.size_, hi1, hi2, if_true]
  exact h3 i (by omega)

theorem StringInput.get_agree {m : Nat} {D D' : List Nat} (h : AgreeUpTo m D D')
    (s s' : StringInput) (hs : s.data_ = D) (hs' : s'.data_ = D') (hi : s'.i = s.i)
    (hm : s.i ≤ m) : s'.get = s.get := by
  have := (h s.i hm).1
  cases s
  cases s'
  simp only at hs hs' hi
  subst hs hs' hi
  exact this.symm

theorem StringInput.advance_agree {m : Nat} {D D' : List Nat} (h : AgreeUpTo m D D')
    (s s' : StringInput) (hs : s.data_ = D) (hs' : s'.data_ = D') (hi : s'.i = s.i)
    (hm : s.i ≤ m) : s'.advance.i = s.advance.i := by
  have := (h s.i hm).2
  rw [StringInput.advance_i, StringInput.advance_i, hi]
  simp only [StringInput.size_, hs, hs']
  by_cases hlt : s.i < D.length
  · rw [if_pos hlt, if_pos (this.mp hlt)]
  · rw [if_neg hlt, if_neg (fun h' => hlt (this.mpr h'))]

/-- The scan of `String::match` on two inputs at the same position whose
documents read the same up to the position where the scan stops. -/
theorem String_scan_agree {D D' : List Nat} : ∀ (s : List Nat) (inp inp' : StringInput),
    inp.data_ = D → inp'.data_ = D' → inp'.i = inp.i →
    AgreeUpTo (String_scan s inp).2.i D D' →
    (String_scan s inp').1 = (String_scan s inp).1 ∧
      (String_scan s inp').2.i = (String_scan s inp).2.i := by
  intro s
  induction s with
  | nil => intro inp inp' _ _ hi _; exact ⟨rfl, hi⟩
  | cons a rest ih =>
    intro inp inp' hd hd' hi hag
    have hle := String_scan_le (a :: rest) inp
    have hget := StringInput.get_agree hag inp inp' hd hd' hi hle
    by_cases ha : a = 0
    · have e1 : String_scan (a :: rest) inp = (true, inp) := by simp [String_scan, ha]
      have e2 : String_scan (a :: rest) inp' = (true, inp') := by simp [String_scan, ha]
      rw [e1, e2]
      exact ⟨rfl, hi⟩
    · by_cases hg : inp.get = a
      · have e1 : String_scan (a :: rest) inp = String_scan rest inp.advance := by
          simp [String_scan, ha, hg]
        have e2 : String_scan (a :: rest) inp' = String_scan rest inp'.advance := by
          simp [String_scan, ha, hget, hg]
        rw [e1] at hag
        rw [e1, e2]
        have hle2 := String_scan_le rest inp.advance
        have hadv := StringInput.advance_agree hag inp inp' hd hd' hi
          (le_trans (StringInput.le_advance inp) hle2)
        exact ih inp.advance inp'.advance (by rw [StringInput.advance_data, hd])
          (by rw [StringInput.advance_data, hd']) hadv hag
      · have e1 : String_scan (a :: rest) inp = (false, inp) := by
          simp [String_scan, ha, hg]
        have e2 : String_scan (a :: rest) inp' = (false, inp') := by
          simp [String_scan, ha, hget, hg]
        rw [e1, e2]
        exact ⟨rfl, hi⟩

theorem Eval.mark_le {call : Call} {c c' : Cursor} {b : Bool} (h : Eval call c b c') :
    c.mark ≤ c'.mark := by
  obtain ⟨_, _, _, _, h5, _, h7, _⟩ := h.frame
  simp only [Cursor.mark]
  omega

/-- Simulation: a match on cursor `c` is repeated, with the same result and the
same final position, by every cursor `d` at the same position whose document
reads the same as the document of `c` up to the high-water mark reached by the
match; and with the same final high-water mark if `d` starts with that of
`c`.  Window, accumulator and tree of `d` are arbitrary. -/
theorem Eval.sim {call : Call} {c c' : Cursor} {b : Bool} (h : Eval call c b c') :
    ∀ (D D' : List Nat) (d : Cursor), c.input.data_ = D → d.input.data_ = D' →
      d.input.i = c.input.i → AgreeUpTo c'.mark D D' →
      ∃ d', Eval call d b d' ∧ d'.input.data_ = D' ∧ d'.input.i = c'.input.i ∧
        (d.max_pos = c.max_pos → d'.max_pos = c'.max_pos) := by
  induction h with
  | @char_true f c hf =>
    intro D D' d hD hD' hi hag
    have hm : c.input.i ≤ c.advance.mark := by
      have := StringInput.le_advance c.input
      simp only [Cursor.mark, Cursor.advance_input]
      omega
    have hget := StringInput.get_agree hag c.input d.input hD hD' hi hm
    refine ⟨d.advance, Eval.char_true (by rw [Cursor.get_eq, hget]; exact hf), ?_, ?_, ?_⟩
    · rw [Cursor.advance_input, StringInput.advance_data, hD']
    · exact StringInput.advance_agree hag c.input d.input hD hD' hi hm
    · intro h; exact h
  | @char_false f c hf =>
    intro D D' d hD hD' hi hag
    have hm : c.input.i ≤ c.mark := by simp only [Cursor.mark]; omega
    have hget := StringInput.get_agree hag c.input d.input hD hD' hi hm
    exact ⟨d, Eval.char_false (by rw [Cursor.get_eq, hget]; exact hf), hD', hi, fun h => h⟩
  | @string s c =>
    intro D D' d hD hD' hi hag
    have hsc : AgreeUpTo (String_scan s c.input).2.i D D' := by
      refine hag.mono ?_
      rw [String_match_loop_eq]
      split
      · simp only [Cursor.mark]; omega
      · simp only [Cursor.mark, Cursor.restore_max_pos]; omega
    obtain ⟨hb, hpos⟩ := String_scan_agree s c.input d.input hD hD' hi hsc
    have hd1 : (String_match_loop d.save s d).1 = (String_match_loop c.save s c).1 := by
      rw [String_match_loop_eq, String_match_loop_eq, hb]
      split <;> rfl
    refine ⟨(String_match_loop d.save s d).2, by rw [← hd1]; exact Eval.string, ?_⟩
    rw [String_match_loop_eq, String_match_loop_eq, hb]
    split
    · exact ⟨by rw [String_scan_data, hD'], hpos, fun h => h⟩
    · refine ⟨by simp only [Cursor.restore_data]; rw [String_scan_data, hD'], ?_, ?_⟩
      · simp only [Cursor.restore_i, Cursor.save_input]; exact hi
      · intro hmax
        simp only [Cursor.restore_max_pos]
        rw [hmax, hpos]
  | sequence _ ih =>
    intro D D' d hD hD' hi hag
    obtain ⟨d', h1, h2, h3, h4⟩ := ih D D' d hD hD' hi hag
    exact ⟨d', Eval.sequence h1, h2, h3, h4⟩
  | choice _ ih =>
    intro D D' d hD hD' hi hag
    obtain ⟨d', h1, h2, h3, h4⟩ := ih D D' d hD hD' hi hag
    exact ⟨d', Eval.choice h1, h2, h3, h4⟩
  | repetition_stop _ ih =>
    intro D D' d hD hD' hi hag
    obtain ⟨d', h1, h2, h3, h4⟩ := ih D D' d hD hD' hi hag
    exact ⟨d', Eval.repetition_stop h1, h2, h3, h4⟩
  | repetition_step e1 e2 ih1 ih2 =>
    intro D D' d hD hD' hi hag
    obtain ⟨d1, h1, h2, h3, h4⟩ := ih1 D D' d hD hD' hi (hag.mono e2.mark_le)
    obtain ⟨d2, k1, k2, k3, k4⟩ := ih2 D D' d1 (by rw [e1.frame.2.2.1, hD]) h2 h3 hag
    exact ⟨d2, Eval.repetition_step h1 k1, k2, k3, fun h => k4 (h4 h)⟩
  | optional _ ih =>
    intro D D' d hD hD' hi hag
    obtain ⟨d', h1, h2, h3, h4⟩ := ih D D' d hD hD' hi hag
    exact ⟨d', Eval.optional h1, h2, h3, h4⟩
  | @not_true t c c1 e1 ih =>
    intro D D' d hD hD' hi hag
    have hm : c1.mark ≤ (c1.restore c.save).mark := by
      simp only [Cursor.mark, Cursor.restore_max_pos, Cursor.restore_i]
      omega
    obtain ⟨d1, h1, h2, h3, h4⟩ := ih D D' d hD hD' hi (hag.mono hm)
    refine ⟨d1.restore d.save, Eval.not_true h1, h2, ?_, ?_⟩
    · simp only [Cursor.restore_i, Cursor.save_input]; exact hi
    · intro hmax
      simp only [Cursor.restore_max_pos]
      rw [h4 hmax, h3]
  | not_false _ ih =>
    intro D D' d hD hD' hi hag
    obtain ⟨d', h1, h2, h3, h4⟩ := ih D D' d hD hD' hi hag
    exact ⟨d', Eval.not_false h1, h2, h3, h4⟩
  | @highlight t style c c1 b e1 ih =>
    intro D D' d hD hD' hi hag
    obtain ⟨d1, h1, h2, h3, h4⟩ := ih D D' (d.change_style style).2 hD hD' hi hag
    exact ⟨_, Eval.highlight h1, h2, h3, h4⟩
  | seq_nil =>
    intro D D' d hD hD' hi hag
    exact ⟨d, Eval.seq_nil, hD', hi, fun h => h⟩
  | seq_first_fails _ ih =>
    intro D D' d hD hD' hi hag
    obtain ⟨d', h1, h2, h3, h4⟩ := ih D D' d hD hD' hi hag
    exact ⟨d', Eval.seq_first_fails h1, h2, h3, h4⟩
  | seq_true e1 e2 ih1 ih2 =>
    intro D D' d hD hD' hi hag
    obtain ⟨d1, h1, h2, h3, h4⟩ := ih1 D D' d hD hD' hi (hag.mono e2.mark_le)
    obtain ⟨d2, k1, k2, k3, k4⟩ := ih2 D D' d1 (by rw [e1.frame.2.2.1, hD]) h2 h3 hag
    exact ⟨d2, Eval.seq_true h1 k1, k2, k3, fun h => k4 (h4 h)⟩
  | @seq_rest_fails t0 t c c1 c2 e1 e2 ih1 ih2 =>
    intro D D' d hD hD' hi hag
    have hm : c2.mark ≤ (c2.restore c.save).mark := by
      simp only [Cursor.mark, Cursor.restore_max_pos, Cursor.restore_i]
      omega
    obtain ⟨d1, h1, h2, h3, h4⟩ := ih1 D D' d hD hD' hi
      (hag.mono (le_trans e2.mark_le hm))
    obtain ⟨d2, k1, k2, k3, k4⟩ := ih2 D D' d1 (by rw [e1.frame.2.2.1, hD]) h2 h3
      (hag.mono hm)
    refine ⟨d2.restore d.save, Eval.seq_rest_fails h1 k1, k2, ?_, ?_⟩
    · simp only [Cursor.restore_i, Cursor.save_input]; exact hi
    · intro hmax
      simp only [Cursor.restore_max_pos]
      rw [k4 (h4 hmax), k3]
  | alt_nil =>
    intro D D' d hD hD' hi hag
    exact ⟨d, Eval.alt_nil, hD', hi, fun h => h⟩
  | alt_first _ ih =>
    intro D D' d hD hD' hi hag
    obtain ⟨d', h1, h2, h3, h4⟩ := ih D D' d hD hD' hi hag
    exact ⟨d', Eval.alt_first h1, h2, h3, h4⟩
  | alt_next e1 e2 ih1 ih2 =>
    intro D D' d hD hD' hi hag
    obtain ⟨d1, h1, h2, h3, h4⟩ := ih1 D D' d hD hD' hi (hag.mono e2.mark_le)
    obtain ⟨d2, k1, k2, k3, k4⟩ := ih2 D D' d1 (by rw [e1.frame.2.2.1, hD]) h2 h3 hag
    exact ⟨d2, Eval.alt_next h1 k1, k2, k3, fun h => k4 (h4 h)⟩

/-! ## Checkpoints recorded by a pass -/

theorem Tree.mem_add_checkpoint (t : Tree) (pos m : Nat) (cp : Checkpoint)
    (h : cp ∈ (t.add_checkpoint pos m).checkpoints) :
    cp ∈ t.checkpoints ∨ cp = { pos := pos, max_pos := m } := by
  simp only [Tree.add_checkpoint] at h
  split at h
  · simpa using h
  · split at h
    · simpa using h
    · left; exact h

/-- Appending a checkpoint whose `max_pos` bounds the recorded ones keeps the
`max_pos` values non-decreasing. -/
theorem Tree.add_checkpoint_max_sorted (t : Tree) (pos m : Nat)
    (hp : t.checkpoints.Pairwise (fun a b => a.max_pos ≤ b.max_pos))
    (hb : ∀ cp ∈ t.checkpoints, cp.max_pos ≤ m) :
    (t.add_checkpoint pos m).checkpoints.Pairwise (fun a b => a.max_pos ≤ b.max_pos) := by
  have happ : (t.checkpoints ++ [(⟨pos, m⟩ : Checkpoint)]).Pairwise
      (fun a b => a.max_pos ≤ b.max_pos) := by
    rw [List.pairwise_append]
    refine ⟨hp, by simp, ?_⟩
    intro a ha b hb'
    simp only [List.mem_singleton] at hb'
    rw [hb']
    exact hb a ha
  simp only [Tree.add_checkpoint]
  split
  · exact happ
  · split
    · exact happ
    · exact hp

theorem Single.mark_le_single {tuple : Tuple} {c c' : Cursor} {b : Bool}
    (h : Single tuple c b c') : c.mark ≤ c'.mark := by
  obtain ⟨_, _, _, _, h5, _, h7, _⟩ := h.single_frame
  simp only [Cursor.mark]
  omega

/-- Along iterations of the loop the position and the high-water mark do not
decrease; window and document stay. -/
theorem Reach.mono_reach {tuple : Tuple} {c x : Cursor} (h : Reach tuple c x) :
    c.mark ≤ x.mark ∧ c.input.i ≤ x.input.i ∧ x.window = c.window ∧
      x.input.data_ = c.input.data_ := by
  induction h with
  | refl => exact ⟨le_refl _, le_refl _, rfl, rfl⟩
  | step _ h1 _ ih =>
    obtain ⟨_, hw, hd, _, hle, _, _, _⟩ := h1.single_frame
    have hm := h1.mark_le_single
    obtain ⟨k1, k2, k3, k4⟩ := ih
    simp only [Cursor.add_checkpoint, Cursor.mark] at k1 k2 k3 k4
    simp only [Cursor.mark] at hm ⊢
    exact ⟨by omega, by omega, k3.trans hw, k4.trans hd⟩

/-- Iterations of the loop followed by the rest of the loop are a loop. -/
theorem Reach.then_loop {tuple : Tuple} {c x e : Cursor} (h : Reach tuple c x)
    (hl : Loop tuple x e) : Loop tuple c e := by
  induction h with
  | refl => exact hl
  | step hb h1 _ ih => exact Loop.step hb h1 (ih hl)

/-- Every checkpoint that the loop of `Scope::match` adds was recorded at a
cursor reached by iterations of the loop: its `pos` is the position and its
`max_pos` the high-water mark of that cursor. -/
theorem Loop.checkpoint_origin {tuple : Tuple} {c e : Cursor} (h : Loop tuple c e) :
    ∀ cp ∈ e.tree.checkpoints, cp ∈ c.tree.checkpoints ∨
      ∃ x, Reach tuple c x ∧ x.input.i = cp.pos ∧ x.mark = cp.max_pos := by
  induction h with
  | done _ => intro cp hcp; left; exact hcp
  | stuck _ h1 =>
    intro cp hcp
    left
    rw [h1.single_frame.1] at hcp
    exact hcp
  | @step c c1 c2 hb h1 _ ih =>
    intro cp hcp
    rcases ih cp hcp with hin | ⟨x, hx, hxi, hxm⟩
    · rcases Tree.mem_add_checkpoint _ _ _ _ hin with hold | hnew
      · left
        rw [h1.single_frame.1] at hold
        exact hold
      · right
        refine ⟨c1.add_checkpoint, Reach.step hb h1 Reach.refl, ?_, ?_⟩
        · rw [hnew]; rfl
        · rw [hnew]; rfl
    · right
      exact ⟨x, Reach.step hb h1 hx, hxi, hxm⟩

/-- The loop of `Scope::match` keeps the recorded `max_pos` values
non-decreasing and bounded by the high-water mark of the cursor. -/
theorem Loop.tree_sorted {tuple : Tuple} {c e : Cursor} (h : Loop tuple c e) :
    (c.tree.checkpoints.Pairwise (fun a b => a.max_pos ≤ b.max_pos) ∧
        ∀ cp ∈ c.tree.checkpoints, cp.max_pos ≤ c.mark) →
    (e.tree.checkpoints.Pairwise (fun a b => a.max_pos ≤ b.max_pos) ∧
        ∀ cp ∈ e.tree.checkpoints, cp.max_pos ≤ e.mark) := by
  induction h with
  | done _ => exact fun h => h
  | stuck _ h1 =>
    rintro ⟨hp, hb⟩
    rw [h1.single_frame.1]
    exact ⟨hp, fun cp hcp => le_trans (hb cp hcp) h1.mark_le_single⟩
  | @step c c1 c2 hb h1 _ ih =>
    rintro ⟨hp, hbd⟩
    apply ih
    have hbd1 : ∀ cp ∈ c1.tree.checkpoints, cp.max_pos ≤ c1.mark := by
      intro cp hcp
      rw [h1.single_frame.1] at hcp
      exact le_trans (hbd cp hcp) h1.mark_le_single
    have hp1 : c1.tree.checkpoints.Pairwise (fun a b => a.max_pos ≤ b.max_pos) := by
      rw [h1.single_frame.1]; exact hp
    have hmark : c1.add_checkpoint.mark = c1.mark := rfl
    constructor
    · exact Tree.add_checkpoint_max_sorted _ _ _ hp1 hbd1
    · intro cp hcp
      rw [hmark]
      rcases Tree.mem_add_checkpoint _ _ _ _ hcp with hold | hnew
      · exact hbd1 cp hold
      · rw [hnew]; exact le_refl _

/-- Simulation of `match_single`, as `Eval.sim`. -/
theorem Single.sim_single {tuple : Tuple} {c c' : Cursor} {b : Bool} (h : Single tuple c b c')
    (D D' : List Nat) (d : Cursor) (hD : c.input.data_ = D) (hD' : d.input.data_ = D')
    (hi : d.input.i = c.input.i) (hag : AgreeUpTo c'.mark D D') :
    ∃ d', Single tuple d b d' ∧ d'.input.data_ = D' ∧ d'.input.i = c'.input.i ∧
      (d.max_pos = c.max_pos → d'.max_pos = c'.max_pos) := by
  cases h with
  | matched h1 =>
    obtain ⟨d', k1, k2, k3, k4⟩ := h1.sim D D' d hD hD' hi hag
    exact ⟨d', Single.matched k1, k2, k3, k4⟩
  | fallback h1 h2 =>
    obtain ⟨d1, k1, k2, k3, k4⟩ := h1.sim D D' d hD hD' hi (hag.mono h2.mark_le)
    obtain ⟨d2, j1, j2, j3, j4⟩ := h2.sim D D' d1 (by rw [h1.frame.2.2.1, hD]) k2 k3 hag
    exact ⟨d2, Single.fallback k1 j1, j2, j3, fun h => j4 (k4 h)⟩

/-- Simulation of iterations of the loop: a cursor at the same position with
the same high-water mark, on a document that reads the same up to the
high-water mark reached, and whose window ends after the position reached,
takes the same iterations. -/
theorem Reach.sim_reach {tuple : Tuple} {c x : Cursor} (h : Reach tuple c x) :
    ∀ (D D' : List Nat) (f : Cursor), c.input.data_ = D → f.input.data_ = D' →
      f.input.i = c.input.i → f.max_pos = c.max_pos → AgreeUpTo x.mark D D' →
      x.input.i < f.window.end_ →
      ∃ y, Reach tuple f y ∧ y.input.data_ = D' ∧ y.input.i = x.input.i ∧
        y.max_pos = x.max_pos ∧ y.window = f.window ∧ y.spans.style = f.spans.style := by
  induction h with
  | refl =>
    intro D D' f _ hD' hi hmax _ _
    exact ⟨f, Reach.refl, hD', hi, hmax, rfl, rfl⟩
  | @step c c1 c2 hb h1 h2 ih =>
    intro D D' f hD hD' hi hmax hag hend
    obtain ⟨m1, m2, _, _⟩ := h2.mono_reach
    obtain ⟨f1, k1, k2, k3, k4⟩ := h1.sim_single D D' f hD hD' hi (hag.mono m1)
    obtain ⟨_, hw, _, hst, _, _, _, _⟩ := k1.single_frame
    have hle := h1.single_frame.2.2.2.2.1
    have hm2 : c1.input.i ≤ c2.input.i := m2
    have hfb : f.is_before_window_end = true := by
      simp only [Cursor.is_before_window_end, StringInput.get_position, decide_eq_true_eq]
      omega
    obtain ⟨y, j1, j2, j3, j4, j5, j6⟩ := ih D D' f1.add_checkpoint
      (by show c1.input.data_ = D; rw [h1.single_frame.2.2.1, hD])
      k2 k3 (k4 hmax) hag (by show c2.input.i < f1.window.end_; rw [hw]; exact hend)
    exact ⟨y, Reach.step hfb k1 j1, j2, j3, j4, j5.trans hw, j6.trans hst⟩

/-! ## Resuming from a checkpoint before the window -/

/-- Before the window start the match of a `flat` node emits nothing. -/
theorem Eval.flat_quiet {n : Node} {c c' : Cursor} {b : Bool} (hflat : n.flat = true)
    (h : Eval (.node n) c b c') :
    c'.window = c.window ∧ c.input.i ≤ c'.input.i ∧
      (c.spans.spans = [] → c.spans.start ≤ c.input.i → c'.input.i ≤ c.window.start →
        c'.spans.spans = [] ∧ c'.spans.start ≤ c'.input.i) := by
  obtain ⟨_, hw, _, _, hle, _, _, _⟩ := h.frame
  refine ⟨hw, hle, ?_⟩
  intro hnil hst hpos
  rcases Node.flat_cases n hflat with ⟨t, s, rfl, hfree⟩ | hfree
  · cases h with
    | @highlight _ _ _ c1 _ h1 =>
      obtain ⟨_, hw1, _, _, hle1, _, _, _⟩ := h1.frame
      have hsp := h1.hlfree_spans hfree
      simp only [Cursor.change_style_window, Cursor.change_style_input,
        Cursor.change_style_spans] at hw1 hle1 hsp hpos
      simp only [Cursor.change_style_spans, Cursor.change_style_input]
      constructor
      · rw [Spans.change_style_before_window _ _ _ _ (by rw [hw1]; exact hpos), hsp,
          Spans.change_style_before_window _ _ _ _ (by omega)]
        exact hnil
      · rw [Spans.change_style_start]
  · have hsp := h.hlfree_spans hfree
    rw [hsp]
    exact ⟨hnil, le_trans hst hle⟩

/-- Iterations of the loop on a `flat` scope that end at or before the window
start emit nothing. -/
theorem Reach.quiet {tuple : Tuple} {c x : Cursor} (h : Reach tuple c x)
    (hflat : tuple.flat = true) (hnil : c.spans.spans = [])
    (hst : c.spans.start ≤ c.input.i) (hpos : x.input.i ≤ c.window.start) :
    x.spans.spans = [] ∧ x.spans.start ≤ x.input.i := by
  have := Reach.reach_flat_induction
    (fun c c' => c'.window = c.window ∧ c.input.i ≤ c'.input.i ∧
      (c.spans.spans = [] → c.spans.start ≤ c.input.i → c'.input.i ≤ c.window.start →
        c'.spans.spans = [] ∧ c'.spans.start ≤ c'.input.i))
    (fun c => ⟨rfl, le_refl _, fun h1 h2 _ => ⟨h1, h2⟩⟩)
    (fun a b c hab hbc => ⟨hbc.1.trans hab.1, le_trans hab.2.1 hbc.2.1,
      fun h1 h2 h3 => by
        have hb := hab.2.2 h1 h2 (le_trans hbc.2.1 h3)
        exact hbc.2.2 hb.1 hb.2 (by rw [hab.1]; exact h3)⟩)
    (fun n c c' b hf he => Eval.flat_quiet hf he)
    (fun c => ⟨rfl, le_refl _, fun h1 h2 _ => ⟨h1, h2⟩⟩) h hflat
  exact this.2.2 hnil hst hpos

theorem StringInput.ext_of {a b : StringInput} (hd : a.data_ = b.data_) (hi : a.i = b.i) :
    a = b := by
  cases a
  cases b
  simp only at hd hi
  rw [hd, hi]

/-- With no span emitted and the open run starting at or before the window
start, `change_style` emits nothing at or before the window start and
otherwise the one span from the window start to the clipped position. -/
theorem Spans.change_style_first (A : Spans) (pos : Nat) (s : Int) (w : Range)
    (hw : w.start < w.end_) (hnil : A.spans = []) (hst : A.start ≤ w.start) :
    (A.change_style pos s w).2 =
      { spans := if pos ≤ w.start then []
          else [{ start := w.start, end_ := min pos w.end_, style := A.style }],
        start := pos, style := s } := by
  cases A with
  | mk spans start style =>
    simp only at hnil hst
    subst hnil
    simp only [Spans.change_style, Spans.emit_span]
    by_cases hp : pos = start
    · subst hp
      simp [hst]
    · by_cases hle : pos ≤ w.start
      · simp [hp, hle]
      · have h2 : ¬ (w.end_ ≤ start) := by omega
        have h3 : max start w.start = w.start := by omega
        simp [hp, hle, h2, h3]

/-- Method `change_style` keeps two accumulator states producing the same
spans. -/
theorem Spans.change_style_same_output (w : Range) (hw : w.start < w.end_) (A B : Spans)
    (h : Spans.same_output w A B) (pos : Nat) (s : Int) :
    Spans.same_output w (A.change_style pos s w).2 (B.change_style pos s w).2 := by
  obtain ⟨h1, h2, h3⟩ := h
  rcases h3 with h3 | ⟨hnil, ha, hb⟩
  · have : A = B := by
      cases A
      cases B
      simp only at h1 h2 h3
      rw [h1, h2, h3]
    rw [this]
    exact ⟨rfl, rfl, Or.inl rfl⟩
  · rw [Spans.change_style_first A pos s w hw hnil ha,
      Spans.change_style_first B pos s w hw (by rw [← h1]; exact hnil) hb, h2]
    exact ⟨rfl, rfl, Or.inl rfl⟩

/-- The match of a `flat` node keeps two cursors producing the same spans. -/
theorem Eval.flat_same_output {n : Node} {d d' : Cursor} {b : Bool} (hflat : n.flat = true)
    (h : Eval (.node n) d b d') (f : Cursor) (hrel : d.same_output f)
    (hw : d.window.start < d.window.end_) :
    ∃ f', Eval (.node n) f b f' ∧ d'.same_output f' := by
  obtain ⟨hin, hwin, hsp⟩ := hrel
  rcases Node.flat_cases n hflat with ⟨t, s, rfl, hfree⟩ | hfree
  · cases h with
    | @highlight _ _ _ d1 _ h1 =>
      obtain ⟨f1, k1, k2, k3, _⟩ := h1.sim d.input.data_ d.input.data_ (f.change_style s).2
        rfl (by show f.input.data_ = d.input.data_; rw [hin])
        (by show f.input.i = d.input.i; rw [hin])
        (AgreeUpTo.refl _ _)
      obtain ⟨_, hw1, hd1, _, _, _, _, _⟩ := h1.frame
      obtain ⟨_, hwf1, _, _, _, _, _, _⟩ := k1.frame
      have hsp1 := h1.hlfree_spans hfree
      have hspf1 := k1.hlfree_spans hfree
      simp only [Cursor.change_style_window, Cursor.change_style_input,
        Cursor.change_style_spans] at hw1 hd1 hwf1 hsp1 hspf1
      have hinput : f1.input = d1.input := StringInput.ext_of (by rw [k2, hd1]) k3
      refine ⟨_, Eval.highlight k1, ?_, ?_, ?_⟩
      · simp only [Cursor.change_style_input]; exact hinput.symm
      · simp only [Cursor.change_style_window]; rw [hw1, hwf1]; exact hwin
      · simp only [Cursor.change_style_spans, Cursor.change_style_window,
          Cursor.change_style_old]
        rw [hw1, hwf1, hsp1, hspf1, hinput, ← hin, ← hwin, ← hsp.2.1]
        exact Spans.change_style_same_output _ hw _ _
          (Spans.change_style_same_output _ hw _ _ hsp _ _) _ _
  · obtain ⟨f', k1, k2, k3, _⟩ := h.sim d.input.data_ d.input.data_ f rfl (by rw [hin])
      (by rw [hin]) (AgreeUpTo.refl _ _)
    obtain ⟨_, hw1, hd1, _, _, _, _, _⟩ := h.frame
    obtain ⟨_, hwf1, _, _, _, _, _, _⟩ := k1.frame
    have hsp1 := h.hlfree_spans hfree
    have hspf1 := k1.hlfree_spans hfree
    refine ⟨f', k1, ?_, ?_, ?_⟩
    · exact (StringInput.ext_of (by rw [k2, hd1]) k3).symm
    · rw [hw1, hwf1]; exact hwin
    · rw [hw1, hsp1, hspf1]; exact hsp

/-- Method `match_choice` on a `flat` tuple keeps two cursors producing the same
spans. -/
theorem Eval.alt_same_output {call : Call} {d d' : Cursor} {b : Bool} (h : Eval call d b d') :
    ∀ tuple, call = .alt tuple → tuple.flat = true → ∀ f : Cursor, d.same_output f →
      d.window.start < d.window.end_ →
      ∃ f', Eval (.alt tuple) f b f' ∧ d'.same_output f' := by
  induction h with
  | alt_nil =>
    intro tuple hc _ f hrel _
    cases hc
    exact ⟨f, Eval.alt_nil, hrel⟩
  | alt_first h1 _ =>
    intro tuple hc hf f hrel hw
    cases hc
    simp only [Tuple.flat, Bool.and_eq_true] at hf
    obtain ⟨f', k1, k2⟩ := Eval.flat_same_output hf.1 h1 f hrel hw
    exact ⟨f', Eval.alt_first k1, k2⟩
  | alt_next h1 _ _ ih2 =>
    intro tuple hc hf f hrel hw
    cases hc
    simp only [Tuple.flat, Bool.and_eq_true] at hf
    obtain ⟨f1, k1, k2⟩ := Eval.flat_same_output hf.1 h1 f hrel hw
    obtain ⟨f2, j1, j2⟩ := ih2 _ rfl hf.2 f1 k2 (by rw [h1.frame.2.1]; exact hw)
    exact ⟨f2, Eval.alt_next k1 j1, j2⟩
  | _ => intro tuple hc; cases hc

/-- Method `match_single` on a `flat` scope keeps two cursors producing the
same spans. -/
theorem Single.same_output_single {tuple : Tuple} {d d' : Cursor} {b : Bool}
    (h : Single tuple d b d') (hflat : tuple.flat = true) (f : Cursor)
    (hrel : d.same_output f) (hw : d.window.start < d.window.end_) :
    ∃ f', Single tuple f b f' ∧ d'.same_output f' := by
  cases h with
  | matched h1 =>
    obtain ⟨f', k1, k2⟩ := h1.alt_same_output _ rfl hflat f hrel hw
    exact ⟨f', Single.matched k1, k2⟩
  | fallback h1 h2 =>
    obtain ⟨f1, k1, k2⟩ := h1.alt_same_output _ rfl hflat f hrel hw
    obtain ⟨f2, j1, j2⟩ := Eval.flat_same_output (n := any_char) rfl h2 f1 k2
      (by rw [h1.frame.2.1]; exact hw)
    exact ⟨f2, Single.fallback k1 j1, j2⟩

/-- The loop of `Scope::match` on a `flat` scope, run from two cursors that
produce the same spans, ends in two cursors that produce the same spans. -/
theorem Loop.same_output_loop {tuple : Tuple} {d e : Cursor} (h : Loop tuple d e)
    (hflat : tuple.flat = true) :
    ∀ f : Cursor, d.same_output f → d.window.start < d.window.end_ →
      ∃ e', Loop tuple f e' ∧ e.same_output e' := by
  induction h with
  | @done d hb =>
    intro f hrel _
    refine ⟨f, Loop.done ?_, hrel⟩
    simp only [Cursor.is_before_window_end] at hb ⊢
    rw [← hrel.1, ← hrel.2.1]
    exact hb
  | @stuck d d1 hb h1 =>
    intro f hrel hw
    obtain ⟨f1, k1, k2⟩ := h1.same_output_single hflat f hrel hw
    refine ⟨f1, Loop.stuck ?_ k1, k2⟩
    simp only [Cursor.is_before_window_end] at hb ⊢
    rw [← hrel.1, ← hrel.2.1]
    exact hb
  | @step d d1 d2 hb h1 _ ih =>
    intro f hrel hw
    obtain ⟨f1, k1, k2⟩ := h1.same_output_single hflat f hrel hw
    obtain ⟨e', j1, j2⟩ := ih f1.add_checkpoint k2
      (by show d1.window.start < d1.window.end_; rw [h1.single_frame.2.1]; exact hw)
    refine ⟨e', Loop.step ?_ k1 j1, j2⟩
    simp only [Cursor.is_before_window_end] at hb ⊢
    rw [← hrel.1, ← hrel.2.1]
    exact hb

/-! ## Checkpoint soundness -/

/-- Method `find_checkpoint` returns 0 or a recorded position. -/
theorem Tree.find_checkpoint_mem (t : Tree) (p : Nat) :
    t.find_checkpoint p = 0 ∨ ∃ cp ∈ t.checkpoints, cp.pos = t.find_checkpoint p := by
  simp only [Tree.find_checkpoint]
  split
  · rename_i cp hcp
    right
    exact ⟨cp, List.mem_reverse.mp (List.getElem?_mem hcp), rfl⟩
  · left; rfl

/-- Documents with the same first `p` bytes agree before `p`. -/
theorem Agree.of_take {p : Nat} {D D' : List Nat} (h : D.take p = D'.take p)
    (hp : p ≤ D'.length) : Agree p D D' := by
  have hlen : p ≤ D.length := by
    have := congrArg List.length h
    simp only [List.length_take] at this
    omega
  refine ⟨hlen, hp, ?_⟩
  intro i hi
  have h1 : (D.take p)[i]? = D[i]? := by rw [List.getElem?_take, if_pos hi]
  have h2 : (D'.take p)[i]? = D'[i]? := by rw [List.getElem?_take, if_pos hi]
  rw [h] at h1
  simp only [List.getD_eq_getElem?_getD]
  rw [← h1, ← h2]

/-- The core of checkpoint soundness, for a `flat` scope: if the first pass
over `D` recorded the tree `T1`, a pass over `D'` that resumes from `T1.edit p`
and a pass over `D'` from the empty tree end in cursors that produce the same
spans. -/
theorem Loop.resume_same_output {tuple : Tuple} (hflat : tuple.flat = true)
    (D D' : List Nat) (p ws we : Nat) (hag : Agree p D D') (hws : ws ≤ p) (hp : p < we)
    {e1 e2 e3 : Cursor}
    (h1 : Loop tuple (Cursor.new { data_ := D, i := 0 } { checkpoints := [] } 0
      D.length).skip_to_checkpoint e1)
    (h2 : Loop tuple (Cursor.new { data_ := D', i := 0 } (e1.tree.edit p) ws
      we).skip_to_checkpoint e2)
    (h3 : Loop tuple (Cursor.new { data_ := D', i := 0 } { checkpoints := [] } ws
      we).skip_to_checkpoint e3) :
    e2.same_output e3 := by
  have hz : ∀ q : Nat, ({ checkpoints := [] } : Tree).find_checkpoint q = 0 := fun q => rfl
  -- the tree of the first pass has non-decreasing `max_pos`
  have hsorted := (h1.tree_sorted ⟨by simp [Cursor.skip_to_checkpoint, Cursor.new],
    by simp [Cursor.skip_to_checkpoint, Cursor.new]⟩).1
  have hedit := Tree.edit_all_lt e1.tree p
    (hsorted.imp (fun {a b} hab hb => by omega))
  have hsub : ∀ cp ∈ (e1.tree.edit p).checkpoints, cp ∈ e1.tree.checkpoints :=
    fun cp hcp => List.mem_of_mem_take hcp
  -- the resume position
  have hq_le : (e1.tree.edit p).find_checkpoint ws ≤ ws := Tree.find_checkpoint_le _ _
  -- a cursor of the third pass at the resume position that has emitted nothing
  obtain ⟨y, hy1, hy2, hy3, hy4, hy5, hy6⟩ : ∃ y : Cursor,
      Reach tuple (Cursor.new { data_ := D', i := 0 } { checkpoints := [] } ws
        we).skip_to_checkpoint y ∧
      y.input.data_ = D' ∧ y.input.i = (e1.tree.edit p).find_checkpoint ws ∧
      y.window = { start := ws, end_ := we } ∧ y.spans.style = Style.DEFAULT ∧
      (y.spans.spans = [] ∧ y.spans.start ≤ y.input.i) := by
    rcases Tree.find_checkpoint_mem (e1.tree.edit p) ws with h0 | ⟨cp, hcp, hcpq⟩
    · refine ⟨_, Reach.refl, rfl, ?_, rfl, rfl, rfl, Nat.zero_le _⟩
      rw [h0]
      rfl
    · have hm := hedit cp hcp
      rcases h1.checkpoint_origin cp (hsub cp hcp) with hin | ⟨x, hx, hxi, hxm⟩
      · simp [Cursor.skip_to_checkpoint, Cursor.new] at hin
      · obtain ⟨y, k1, k2, k3, _, k5, k6⟩ := hx.sim_reach D D'
          (Cursor.new { data_ := D', i := 0 } { checkpoints := [] } ws we).skip_to_checkpoint
          rfl rfl rfl rfl (hag.agreeUpTo (by rw [hxm]; exact hm))
          (by
            show x.input.i < we
            rw [hxi, hcpq]
            omega)
        have hquiet := k1.quiet hflat rfl (Nat.zero_le _)
          (by
            show y.input.i ≤ ws
            rw [k3, hxi, hcpq]
            exact hq_le)
        exact ⟨y, k1, k2, by rw [k3, hxi, hcpq], k5, k6, hquiet⟩
  -- the second pass starts in a cursor that produces the same spans as `y`
  have hrel : (Cursor.new { data_ := D', i := 0 } (e1.tree.edit p) ws
      we).skip_to_checkpoint.same_output y := by
    refine ⟨?_, hy4.symm, hy6.1.symm, hy5.symm, ?_⟩
    · exact (StringInput.ext_of hy2 hy3).symm
    · right
      refine ⟨rfl, Nat.zero_le _, ?_⟩
      show y.spans.start ≤ ws
      omega
  obtain ⟨e3', j1, j2⟩ := h2.same_output_loop hflat y hrel (by show ws < we; omega)
  have := Loop.unique h3 (hy1.then_loop j1)
  rw [this]
  exact j2

/-- Claim C3: for the scope "c", let `c1` be the full pass over `D` from the
empty tree, let `D'` have the same bytes as `D` before `p`, and let
`ws <= p < we <= length(D')`.  Then the pass over `D'` with the window
`[ws, we)` that resumes from the tree of `c1` after `edit(p)`, and the pass
over `D'` with the same window from the empty tree, both return and yield
identical span lists. -/
theorem highlight_pass_checkpoint_sound (D D' : List Nat) (p ws we : Nat)
    (hagree : D.take p = D'.take p) (hws : ws ≤ p) (hp : p < we) (hwe : we ≤ D'.length) :
    (∃ fuel c1 c2 c3,
        highlight_pass fuel c_scope D { checkpoints := [] } 0 D.length = some c1 ∧
        highlight_pass fuel c_scope D' (c1.tree.edit p) ws we = some c2 ∧
        highlight_pass fuel c_scope D' { checkpoints := [] } ws we = some c3) ∧
      ∀ fuel1 fuel2 fuel3 c1 c2 c3,
        highlight_pass fuel1 c_scope D { checkpoints := [] } 0 D.length = some c1 →
        highlight_pass fuel2 c_scope D' (c1.tree.edit p) ws we = some c2 →
        highlight_pass fuel3 c_scope D' { checkpoints := [] } ws we = some c3 →
        c2.spans.spans = c3.spans.spans := by
  obtain ⟨hflat, hprod, hcons⟩ := c_scope_classes
  have hag : Agree p D D' := Agree.of_take hagree (by omega)
  have total : ∀ (data : List Nat) (T : Tree) (a b : Nat), a ≤ data.length →
      ∃ e, Loop c_scope (Cursor.new { data_ := data, i := 0 } T a b).skip_to_checkpoint e := by
    intro data T a b hab
    have := Tree.find_checkpoint_le T a
    exact Loop.loop_total c_scope hprod hcons _ _ (le_refl _) (by
      show T.find_checkpoint a ≤ data.length
      omega)
  constructor
  · obtain ⟨e1, h1⟩ := total D { checkpoints := [] } 0 D.length (Nat.zero_le _)
    obtain ⟨e2, h2⟩ := total D' (e1.tree.edit p) ws we (by omega)
    obtain ⟨e3, h3⟩ := total D' { checkpoints := [] } ws we (by omega)
    obtain ⟨n1, hn1⟩ := highlight_pass_of_loop h1
    obtain ⟨n2, hn2⟩ := highlight_pass_of_loop h2
    obtain ⟨n3, hn3⟩ := highlight_pass_of_loop h3
    exact ⟨max n1 (max n2 n3), _, _, _,
      highlight_pass_mono hn1 (le_max_left _ _),
      highlight_pass_mono hn2 (le_trans (le_max_left _ _) (le_max_right _ _)),
      highlight_pass_mono hn3 (le_trans (le_max_right _ _) (le_max_right _ _))⟩
  · intro fuel1 fuel2 fuel3 c1 c2 c3 hp1 hp2 hp3
    obtain ⟨e1, h1, rfl⟩ := highlight_pass_iff hp1
    obtain ⟨e2, h2, rfl⟩ := highlight_pass_iff hp2
    obtain ⟨e3, h3, rfl⟩ := highlight_pass_iff hp3
    have hrel := Loop.resume_same_output hflat D D' p ws we hag hws hp h1 h2 h3
    obtain ⟨hin, hwin, hsp⟩ := hrel
    have hw2 : e2.window = { start := ws, end_ := we } := h2.loop_frame.1
    have := Spans.change_style_same_output e2.window (by rw [hw2]; show ws < we; omega)
      e2.spans e3.spans hsp e2.input.i Style.DEFAULT
    simp only [Cursor.change_style_spans]
    rw [← hin, ← hwin]
    exact this.1

/-- Witness of `highlight_pass_checkpoint_sound`: the document "ab cd" edited
to "ab ce" at position 4, and the window `[3, 5)`. -/
theorem highlight_pass_checkpoint_sound_witness :
    (∃ fuel c1 c2 c3,
        highlight_pass fuel c_scope (lit "ab cd") { checkpoints := [] } 0
          (lit "ab cd").length = some c1 ∧
        highlight_pass fuel c_scope (lit "ab ce") (c1.tree.edit 4) 3 5 = some c2 ∧
        highlight_pass fuel c_scope (lit "ab ce") { checkpoints := [] } 3 5 = some c3) ∧
      ∀ fuel1 fuel2 fuel3 c1 c2 c3,
        highlight_pass fuel1 c_scope (lit "ab cd") { checkpoints := [] } 0
          (lit "ab cd").length = some c1 →
        highlight_pass fuel2 c_scope (lit "ab ce") (c1.tree.edit 4) 3 5 = some c2 →
        highlight_pass fuel3 c_scope (lit "ab ce") { checkpoints := [] } 3 5 = some c3 →
        c2.spans.spans = c3.spans.spans :=
  highlight_pass_checkpoint_sound (lit "ab cd") (lit "ab ce") 4 3 5 (by decide) (by decide)
    (by decide) (by decide)

/-! ## The primitive matchers -/

/-- Claim C16 as stated fails: the predicate that accepts every character,
tried at the end of the document "a", returns `true` (the current character is
the sentinel `0`) and the position stays 1: it has not increased by one. -/
theorem Node.Char_match_at_end_counterexample :
    ∃ c' : Cursor,
      Node.match_ 1 (.Char (fun _ => true))
          { input := { data_ := lit "a", i := 1 }, tree := { checkpoints := [] },
            window := { start := 0, end_ := 1 }, max_pos := 0,
            spans := { spans := [], start := 0, style := Style.DEFAULT } } =
        some (true, c') ∧
      c'.input.i = 1 ∧ ¬ (c'.input.i = 1 + 1) :=
  ⟨{ input := { data_ := lit "a", i := 1 }, tree := { checkpoints := [] },
     window := { start := 0, end_ := 1 }, max_pos := 0,
     spans := { spans := [], start := 0, style := Style.DEFAULT } },
   by decide, by decide, by decide⟩

/-- Claim C16, amended: `Char(f).match` returns, and returns `true` if and only
if `f` holds on the current character, which is `0` at or past the end of the
input.  When it returns `true` before the end of the input the position has
increased by exactly one (this is always so when `f` rejects `0`); when it
returns `true` at or past the end of the input the position is unchanged; when
it returns `false` the cursor is unchanged. -/
theorem Node.Char_match_iff (fuel : Nat) (f : Nat → Bool) (c : Cursor) :
    ∃ b c', Node.match_ (fuel + 1) (.Char f) c = some (b, c') ∧
      (b = true ↔ f c.input.get = true) ∧
      (c.input.size_ ≤ c.input.i → c.input.get = 0) ∧
      (b = true → c.input.i < c.input.size_ → c'.input.i = c.input.i + 1) ∧
      (b = true → f 0 = false → c'.input.i = c.input.i + 1) ∧
      (b = true → c.input.size_ ≤ c.input.i → c'.input.i = c.input.i) ∧
      (b = false → c' = c) := by
  have hend : c.input.size_ ≤ c.input.i → c.input.get = 0 := by
    intro h
    simp only [StringInput.get]
    rw [if_neg (by omega)]
  by_cases hf : f c.input.get = true
  · refine ⟨true, c.advance, by simp [Node.match_, hf], by simp [hf], hend, ?_, ?_, ?_, by simp⟩
    · intro _ hlt
      rw [Cursor.advance_input, StringInput.advance_i, if_pos hlt]
    · intro _ h0
      have hne : c.input.get ≠ 0 := by
        intro hz
        rw [hz, h0] at hf
        cases hf
      rw [Cursor.advance_input, StringInput.advance_of_get_ne_zero _ hne]
    · intro _ hge
      rw [Cursor.advance_input, StringInput.advance_i, if_neg (by omega)]
  · refine ⟨false, c, by simp [Node.match_, hf], by simp [hf], hend, by simp, by simp, by simp,
      fun _ => rfl⟩

/-- The scan of `String::match` succeeds exactly when the input from the
current position on begins with the characters of the string, and then stops
after them. -/
theorem String_scan_iff : ∀ (s : List Nat) (inp : StringInput),
    ((String_scan s inp).1 = true ↔
        (inp.data_.drop inp.i).take (c_str s).length = c_str s) ∧
      ((String_scan s inp).1 = true → (String_scan s inp).2.i = inp.i + (c_str s).length) := by
  intro s
  induction s with
  | nil => intro inp; simp [String_scan, c_str]
  | cons a rest ih =>
    intro inp
    by_cases ha : a = 0
    · simp [String_scan, c_str, ha]
    · have hc : c_str (a :: rest) = a :: c_str rest := by
        have hne : (a != 0) = true := by simpa using ha
        simp only [c_str]
        exact List.takeWhile_cons_of_pos (p := fun ch => ch != 0) hne
      rw [hc]
      by_cases hg : inp.get = a
      · have e1 : String_scan (a :: rest) inp = String_scan rest inp.advance := by
          simp [String_scan, ha, hg]
        have hlt : inp.i < inp.data_.length := by
          by_contra hge
          simp only [StringInput.get, StringInput.size_] at hg
          rw [if_neg hge] at hg
          exact ha hg.symm
        have hget : inp.data_[inp.i] = a := by
          simp only [StringInput.get, StringInput.size_] at hg
          rw [if_pos hlt] at hg
          rw [← hg]
          simp [List.getD_eq_getElem?_getD, List.getElem?_eq_getElem hlt]
        have hadv : inp.advance.i = inp.i + 1 :=
          StringInput.advance_of_get_ne_zero inp (by rw [hg]; exact ha)
        have hdrop : inp.data_.drop inp.i = a :: inp.data_.drop (inp.i + 1) := by
          rw [← hget]
          exact List.drop_eq_getElem_cons hlt
        obtain ⟨ih1, ih2⟩ := ih inp.advance
        rw [StringInput.advance_data, hadv] at ih1
        rw [e1, hdrop]
        constructor
        · rw [ih1]
          simp
        · intro h
          rw [ih2 h, hadv]
          simp only [List.length_cons]
          omega
      · have e1 : String_scan (a :: rest) inp = (false, inp) := by
          simp [String_scan, ha, hg]
        rw [e1]
        refine ⟨?_, by simp⟩
        constructor
        · intro h; cases h
        · intro h
          exfalso
          apply hg
          by_cases hlt : inp.i < inp.data_.length
          · rw [List.drop_eq_getElem_cons hlt] at h
            simp only [List.length_cons, List.take_succ_cons, List.cons.injEq] at h
            simp only [StringInput.get, StringInput.size_]
            rw [if_pos hlt, ← h.1]
            simp [List.getD_eq_getElem?_getD, List.getElem?_eq_getElem hlt]
          · rw [List.drop_eq_nil_of_le (by omega)] at h
            simp at h

/-- Claim C17: `String(s).match` returns, and returns `true` if and only if the
input from the current position on begins with the characters of `s`; on
`true` the position has advanced by exactly the length of `s`, on `false` the
position is the one before the call. -/
theorem Node.String_match_iff (fuel : Nat) (s : List Nat) (c : Cursor) :
    ∃ b c', Node.match_ (fuel + 1) (.String s) c = some (b, c') ∧
      (b = true ↔ (c.input.data_.drop c.input.i).take (c_str s).length = c_str s) ∧
      (b = true → c'.input.i = c.input.i + (c_str s).length) ∧
      (b = false → c'.input.i = c.input.i) := by
  obtain ⟨h1, h2⟩ := String_scan_iff s c.input
  refine ⟨(String_match_loop c.save s c).1, (String_match_loop c.save s c).2,
    by simp [Node.match_], ?_⟩
  rw [String_match_loop_eq]
  by_cases hb : (String_scan s c.input).1 = true
  · rw [if_pos hb]
    exact ⟨by simpa [hb] using h1, fun _ => h2 hb, by simp⟩
  · rw [if_neg hb]
    refine ⟨?_, by simp, fun _ => rfl⟩
    simp only [Bool.false_eq_true, false_iff]
    intro h
    exact hb (h1.mpr h)

/-- Claim C19: when `x.match` returns `b` on a cursor, `Not(x).match` returns
the negation of `b` on that cursor, and the input (document and position)
after the call is the one before the call. -/
theorem Node.Not_match_iff (fuel : Nat) (x : Node) (c c1 : Cursor) (b : Bool)
    (h : Node.match_ fuel x c = some (b, c1)) :
    ∃ c2, Node.match_ (fuel + 1) (.Not x) c = some (!b, c2) ∧
      c2.input.i = c.input.i ∧ c2.input = c.input := by
  have hev := Call.run_sound fuel (.node x) c c1 b h
  obtain ⟨_, _, hd, _, _, hi, _, _⟩ := hev.frame
  cases b with
  | true =>
    refine ⟨c1.restore c.save, by simp [Node.match_, h], rfl, ?_⟩
    exact StringInput.ext_of hd rfl
  | false =>
    refine ⟨c1, by simp [Node.match_, h], hi rfl, ?_⟩
    exact StringInput.ext_of hd (hi rfl)

/-- Witness of `Node.Not_match_iff`: the lookahead `not_('a')` on "ab". -/
theorem Node.Not_match_iff_witness :
    ∃ c2, Node.match_ 2 (.Not (chr 'a'))
        { input := { data_ := lit "ab", i := 0 }, tree := { checkpoints := [] },
          window := { start := 0, end_ := 2 }, max_pos := 0,
          spans := { spans := [], start := 0, style := Style.DEFAULT } } =
        some (!true, c2) ∧
      c2.input.i = 0 ∧ c2.input = { data_ := lit "ab", i := 0 } :=
  Node.Not_match_iff 1 (chr 'a')
    { input := { data_ := lit "ab", i := 0 }, tree := { checkpoints := [] },
      window := { start := 0, end_ := 2 }, max_pos := 0,
      spans := { spans := [], start := 0, style := Style.DEFAULT } }
    { input := { data_ := lit "ab", i := 1 }, tree := { checkpoints := [] },
      window := { start := 0, end_ := 2 }, max_pos := 0,
      spans := { spans := [], start := 0, style := Style.DEFAULT } }
    true (by decide)

/-! ## The instrumented driver loop -/

/-- The instrumented loop returns the cursor of the loop of `Scope::match`. -/
theorem Scope.match_loop_trace_fst {tuple : Tuple} : ∀ (fuel : Nat) (c c' : Cursor)
    (steps : List Cursor), Scope.match_loop_trace fuel tuple c = some (steps, c') →
    Scope.match_loop fuel tuple c = some c' := by
  intro fuel
  induction fuel with
  | zero => intro c c' steps h; simp [Scope.match_loop_trace] at h
  | succ n ih =>
    intro c c' steps h
    simp only [Scope.match_loop_trace] at h
    simp only [Scope.match_loop]
    split at h
    · rename_i hb
      rw [if_pos hb]
      split at h
      · cases h
      · rename_i c1 h1
        split at h
        · cases h
        · rename_i tr c2 h2
          cases h
          exact ih _ _ _ h2
      · rename_i c1 h1
        cases h
        rfl
    · rename_i hb
      rw [if_neg hb]
      cases h
      rfl

/-- Whenever the loop of `Scope::match` returns, the instrumented loop returns
with the same cursor. -/
theorem Scope.match_loop_trace_of_loop {tuple : Tuple} : ∀ (fuel : Nat) (c c' : Cursor),
    Scope.match_loop fuel tuple c = some c' →
    ∃ steps, Scope.match_loop_trace fuel tuple c = some (steps, c') := by
  intro fuel
  induction fuel with
  | zero => intro c c' h; simp [Scope.match_loop] at h
  | succ n ih =>
    intro c c' h
    simp only [Scope.match_loop] at h
    simp only [Scope.match_loop_trace]
    split at h
    · rename_i hb
      rw [if_pos hb]
      split at h
      · cases h
      · rename_i c1 h1
        obtain ⟨tr, htr⟩ := ih _ _ h
        exact ⟨c1 :: tr, by simp [htr]⟩
      · rename_i c1 h1
        cases h
        exact ⟨[], rfl⟩
    · rename_i hb
      rw [if_neg hb]
      cases h
      exact ⟨[], rfl⟩

/-- Invariants of the instrumented loop: a property kept by every
`match_single` and by `add_checkpoint` holds at every recorded step and at the
end. -/
theorem Scope.match_loop_trace_inv {tuple : Tuple} (P : Cursor → Prop)
    (hstep : ∀ (c c1 : Cursor) (b : Bool), P c → c.is_before_window_end = true →
      Single tuple c b c1 → P c1)
    (hcp : ∀ c : Cursor, P c → P c.add_checkpoint) :
    ∀ (fuel : Nat) (c c' : Cursor) (steps : List Cursor),
      Scope.match_loop_trace fuel tuple c = some (steps, c') → P c →
      (∀ x ∈ steps, P x) ∧ P c' := by
  intro fuel
  induction fuel with
  | zero => intro c c' steps h; simp [Scope.match_loop_trace] at h
  | succ n ih =>
    intro c c' steps h hP
    simp only [Scope.match_loop_trace] at h
    split at h
    · rename_i hb
      split at h
      · cases h
      · rename_i c1 h1
        have hP1 := hstep c c1 true hP hb (Scope.match_single_sound h1)
        split at h
        · cases h
        · rename_i tr c2 h2
          cases h
          obtain ⟨k1, k2⟩ := ih _ _ _ h2 (hcp _ hP1)
          refine ⟨?_, k2⟩
          intro x hx
          rcases List.mem_cons.mp hx with rfl | hx
          · exact hP1
          · exact k1 x hx
      · rename_i c1 h1
        cases h
        exact ⟨by simp, hstep c c' false hP hb (Scope.match_single_sound h1)⟩
    · cases h
      exact ⟨by simp, hP⟩

/-! ## The active style -/

/-- Claim C20: when `match` returns on a node, with `true` or with `false`, the
active style of the accumulator is the one before the call; and in a pass of
any scope from a new cursor, the active style is `DEFAULT` on every cursor on
which the driver calls `add_checkpoint`, and at the end of the loop. -/
theorem Node.match_keeps_style :
    (∀ (fuel : Nat) (n : Node) (c c' : Cursor) (b : Bool),
        Node.match_ fuel n c = some (b, c') → c'.spans.style = c.spans.style) ∧
      (∀ (fuel : Nat) (tuple : Tuple) (data : List Nat) (tree : Tree) (ws we : Nat)
        (steps : List Cursor) (c' : Cursor),
        Scope.match_loop_trace fuel tuple
            (Cursor.new { data_ := data, i := 0 } tree ws we).skip_to_checkpoint =
          some (steps, c') →
        (∀ x ∈ steps, x.spans.style = Style.DEFAULT) ∧ c'.spans.style = Style.DEFAULT) := by
  constructor
  · intro fuel n c c' b h
    exact (Call.run_sound fuel (.node n) c c' b h).frame.2.2.2.1
  · intro fuel tuple data tree ws we steps c' h
    exact Scope.match_loop_trace_inv (fun x => x.spans.style = Style.DEFAULT)
      (fun c c1 b hP _ hs => hs.single_frame.2.2.2.1.trans hP)
      (fun c hP => hP) fuel _ _ _ h rfl

/-! ## Termination of a pass -/

theorem String_scan_stay : ∀ (s : List Nat) (inp : StringInput),
    inp.size_ ≤ inp.i → (String_scan s inp).2.i = inp.i := by
  intro s inp h
  cases s with
  | nil => rfl
  | cons a rest =>
    simp only [String_scan]
    split
    · rfl
    · rename_i ha
      have hg : inp.get = 0 := by
        simp only [StringInput.get]
        rw [if_neg (by omega)]
      rw [hg, if_neg (fun h0 => ha h0.symm)]

/-- At or past the end of the document no match moves the position. -/
theorem Eval.stay_past_end {call : Call} {c c' : Cursor} {b : Bool} (h : Eval call c b c') :
    c.input.data_.length ≤ c.input.i → c'.input.i = c.input.i := by
  induction h with
  | @char_true f c hf =>
    intro hge
    rw [Cursor.advance_input, StringInput.advance_i, if_neg (by
      simp only [StringInput.size_]; omega)]
  | char_false _ => intro _; rfl
  | @string s c =>
    intro hge
    rw [String_match_loop_eq]
    split
    · exact String_scan_stay s c.input hge
    · rfl
  | sequence _ ih => exact ih
  | choice _ ih => exact ih
  | repetition_stop _ ih => exact ih
  | repetition_step h1 _ ih1 ih2 =>
    intro hge
    have e1 := ih1 hge
    have e2 := ih2 (by rw [h1.frame.2.2.1, e1]; exact hge)
    omega
  | optional _ ih => exact ih
  | not_true _ _ => intro _; rfl
  | not_false _ ih => exact ih
  | highlight _ ih => exact ih
  | seq_nil => intro _; rfl
  | seq_first_fails _ ih => exact ih
  | seq_true h1 _ ih1 ih2 =>
    intro hge
    have e1 := ih1 hge
    have e2 := ih2 (by rw [h1.frame.2.2.1, e1]; exact hge)
    omega
  | seq_rest_fails _ _ _ _ => intro _; rfl
  | alt_nil => intro _; rfl
  | alt_first _ ih => exact ih
  | alt_next h1 _ ih1 ih2 =>
    intro hge
    have e1 := ih1 hge
    have e2 := ih2 (by rw [h1.frame.2.2.1, e1]; exact hge)
    omega

/-- At or past the end of the document every call on a `productive` node
returns: a repeated node cannot succeed there. -/
theorem Eval.total_past_end : ∀ (k : Nat) (call : Call) (c : Cursor),
    call.size ≤ k → call.productive = true → c.input.data_.length ≤ c.input.i →
    ∃ b c', Eval call c b c' := by
  intro k
  induction k with
  | zero =>
    intro call c hk _ _
    cases call with
    | node n => cases n <;> simp [Call.size, Node.size] at hk
    | seq t => cases t <;> simp [Call.size, Tuple.size] at hk
    | alt t => cases t <;> simp [Call.size, Tuple.size] at hk
  | succ k ih =>
    intro call c hk hprod hge
    have next : ∀ {call1 : Call} {c1 : Cursor} {b1 : Bool}, Eval call1 c b1 c1 →
        c1.input.data_.length ≤ c1.input.i := by
      intro call1 c1 b1 h1
      rw [h1.frame.2.2.1, h1.stay_past_end hge]
      exact hge
    cases call with
    | node n =>
      cases n with
      | Char f =>
        by_cases hf : f c.get = true
        · exact ⟨true, _, Eval.char_true hf⟩
        · exact ⟨false, _, Eval.char_false (by simpa using hf)⟩
      | String s => exact ⟨_, _, Eval.string⟩
      | Sequence t =>
        simp only [Call.size, Node.size, Call.productive, Node.productive] at hk hprod
        obtain ⟨b, c', h⟩ := ih (.seq t) c (by simp only [Call.size]; omega) hprod hge
        exact ⟨b, c', Eval.sequence h⟩
      | Choice t =>
        simp only [Call.size, Node.size, Call.productive, Node.productive] at hk hprod
        obtain ⟨b, c', h⟩ := ih (.alt t) c (by simp only [Call.size]; omega) hprod hge
        exact ⟨b, c', Eval.choice h⟩
      | Repetition t =>
        simp only [Call.size, Node.size, Call.productive, Node.productive,
          Bool.and_eq_true] at hk hprod
        obtain ⟨b, c1, h⟩ := ih (.node t) c (by simp only [Call.size]; omega) hprod.2 hge
        cases b with
        | false => exact ⟨true, c1, Eval.repetition_stop h⟩
        | true =>
          have hlt := h.consumes rfl hprod.1
          have hst := h.stay_past_end hge
          omega
      | Optional t =>
        simp only [Call.size, Node.size, Call.productive, Node.productive] at hk hprod
        obtain ⟨b, c1, h⟩ := ih (.node t) c (by simp only [Call.size]; omega) hprod hge
        exact ⟨true, c1, Eval.optional h⟩
      | Not t =>
        simp only [Call.size, Node.size, Call.productive, Node.productive] at hk hprod
        obtain ⟨b, c1, h⟩ := ih (.node t) c (by simp only [Call.size]; omega) hprod hge
        cases b with
        | false => exact ⟨true, c1, Eval.not_false h⟩
        | true => exact ⟨false, _, Eval.not_true h⟩
      | Highlight t style =>
        simp only [Call.size, Node.size, Call.productive, Node.productive] at hk hprod
        obtain ⟨b, c1, h⟩ := ih (.node t) (c.change_style style).2
          (by simp only [Call.size]; omega) hprod hge
        exact ⟨b, _, Eval.highlight h⟩
    | seq t =>
      cases t with
      | nil => exact ⟨true, c, Eval.seq_nil⟩
      | cons t0 t =>
        simp only [Call.size, Tuple.size, Call.productive, Tuple.productive,
          Bool.and_eq_true] at hk hprod
        obtain ⟨b, c1, h⟩ := ih (.node t0) c (by simp only [Call.size]; omega) hprod.1 hge
        cases b with
        | false => exact ⟨false, c1, Eval.seq_first_fails h⟩
        | true =>
          obtain ⟨b2, c2, h2⟩ := ih (.seq t) c1 (by simp only [Call.size]; omega) hprod.2
            (next h)
          cases b2 with
          | false => exact ⟨false, _, Eval.seq_rest_fails h h2⟩
          | true => exact ⟨true, c2, Eval.seq_true h h2⟩
    | alt t =>
      cases t with
      | nil => exact ⟨false, c, Eval.alt_nil⟩
      | cons t0 t =>
        simp only [Call.size, Tuple.size, Call.productive, Tuple.productive,
          Bool.and_eq_true] at hk hprod
        obtain ⟨b, c1, h⟩ := ih (.node t0) c (by simp only [Call.size]; omega) hprod.1 hge
        cases b with
        | true => exact ⟨true, c1, Eval.alt_first h⟩
        | false =>
          obtain ⟨b2, c2, h2⟩ := ih (.alt t) c1 (by simp only [Call.size]; omega) hprod.2
            (next h)
          exact ⟨b2, c2, Eval.alt_next h h2⟩

/-- On a `productive` scope whose alternatives are all `consuming`, the loop of
`Scope::match` returns from every cursor, also from one past the end of the
document. -/
theorem Loop.loop_total_any (tuple : Tuple) (hprod : tuple.productive = true)
    (hcons : tuple.all_consuming = true) (c : Cursor) : ∃ c', Loop tuple c c' := by
  by_cases hpos : c.input.i ≤ c.input.data_.length
  · exact Loop.loop_total tuple hprod hcons _ c (le_refl _) hpos
  · by_cases hb : c.is_before_window_end = true
    · obtain ⟨b, c1, h⟩ := Eval.total_past_end _ (.alt tuple) c (le_refl _) hprod (by omega)
      cases b with
      | true =>
        have := h.consumes rfl hcons
        have := h.stay_past_end (by omega)
        omega
      | false =>
        have hi := h.frame.2.2.2.2.2.1 rfl
        have hd := h.frame.2.2.1
        have hg : c1.input.get = 0 := by
          simp only [StringInput.get, StringInput.size_]
          rw [if_neg (by rw [hd, hi]; omega)]
        exact ⟨c1, Loop.stuck hb (Single.fallback h (by
          simp only [any_char]
          exact Eval.char_false (by simp [hg])))⟩
    · exact ⟨c, Loop.done (by simpa using hb)⟩

/-- The number of completed steps of the instrumented loop, on a scope whose
steps all move the position forward, is at most the distance covered. -/
theorem Scope.match_loop_trace_length {tuple : Tuple} (hcons : tuple.all_consuming = true) :
    ∀ (fuel : Nat) (c c' : Cursor) (steps : List Cursor),
      Scope.match_loop_trace fuel tuple c = some (steps, c') →
      steps.length + c.input.i ≤ c'.input.i := by
  intro fuel
  induction fuel with
  | zero => intro c c' steps h; simp [Scope.match_loop_trace] at h
  | succ n ih =>
    intro c c' steps h
    simp only [Scope.match_loop_trace] at h
    split at h
    · split at h
      · cases h
      · rename_i c1 h1
        have hlt := (Scope.match_single_sound h1).single_consumes hcons
        split at h
        · cases h
        · rename_i tr c2 h2
          cases h
          have := ih _ _ _ h2
          simp only [List.length_cons]
          have e : c1.add_checkpoint.input.i = c1.input.i := rfl
          omega
      · rename_i c1 h1
        cases h
        have := (Scope.match_single_sound h1).single_frame.2.2.2.2.1
        simpa using this
    · cases h
      simp

/-- From a position at or past the end of the document the instrumented loop
completes no step. -/
theorem Scope.match_loop_trace_past_end {tuple : Tuple} (hcons : tuple.all_consuming = true)
    (fuel : Nat) (c c' : Cursor) (steps : List Cursor)
    (h : Scope.match_loop_trace fuel tuple c = some (steps, c'))
    (hge : c.input.data_.length ≤ c.input.i) : steps = [] := by
  cases fuel with
  | zero => simp [Scope.match_loop_trace] at h
  | succ n =>
    simp only [Scope.match_loop_trace] at h
    split at h
    · split at h
      · cases h
      · rename_i c1 h1
        exfalso
        have hs := Scope.match_single_sound h1
        have hlt := hs.single_consumes hcons
        cases hs with
        | matched h2 =>
          have := h2.stay_past_end hge
          omega
        | fallback h2 h3 =>
          have e1 := h2.stay_past_end hge
          have e2 := h3.stay_past_end (by rw [h2.frame.2.2.1, e1]; exact hge)
          omega
      · cases h
        rfl
    · cases h
      rfl

/-- Claim C11: for the scope "c" and every cursor (every input, window and
tree), `Scope::match` returns; every completed step (`match_single` returning
`true`) strictly increases the position; and the number of completed steps is
at most the length of the input minus the resume position. -/
theorem Scope.match_terminates (c : Cursor) :
    (∃ fuel steps c',
        Scope.match_loop_trace fuel c_scope c.skip_to_checkpoint = some (steps, c') ∧
        Scope.match_ fuel c_scope c = some c') ∧
      (∀ (fuel : Nat) (d d1 : Cursor),
        Scope.match_single fuel c_scope d = some (true, d1) → d.input.i < d1.input.i) ∧
      (∀ (fuel : Nat) (steps : List Cursor) (c' : Cursor),
        Scope.match_loop_trace fuel c_scope c.skip_to_checkpoint = some (steps, c') →
        steps.length ≤ c.input.data_.length - c.skip_to_checkpoint.input.i) := by
  obtain ⟨hflat, hprod, hcons⟩ := c_scope_classes
  refine ⟨?_, ?_, ?_⟩
  · obtain ⟨c', hl⟩ := Loop.loop_total_any c_scope hprod hcons c.skip_to_checkpoint
    obtain ⟨fuel, hf⟩ := Scope.match_loop_complete hl
    obtain ⟨steps, hs⟩ := Scope.match_loop_trace_of_loop fuel _ _ hf
    exact ⟨fuel, steps, c', hs, hf⟩
  · intro fuel d d1 h
    exact (Scope.match_single_sound h).single_consumes hcons
  · intro fuel steps c' h
    have hlen := Scope.match_loop_trace_length hcons fuel _ _ _ h
    have hloop := Scope.match_loop_sound fuel _ _ (Scope.match_loop_trace_fst fuel _ _ _ h)
    obtain ⟨_, hd, _, _, hin⟩ := hloop.loop_frame
    have hd0 : c.skip_to_checkpoint.input.data_ = c.input.data_ := rfl
    rw [hd0] at hin
    by_cases hpos : c.skip_to_checkpoint.input.i ≤ c.input.data_.length
    · have := hin hpos
      omega
    · have := Scope.match_loop_trace_past_end hcons fuel _ _ _ h (by rw [hd0]; omega)
      rw [this]
      simp

/-! ## Choice -/

/-- A call has at most one outcome. -/
theorem Eval.deterministic {call : Call} {c a b : Cursor} {x y : Bool}
    (ha : Eval call c x a) (hb : Eval call c y b) : x = y ∧ a = b := by
  obtain ⟨n1, h1⟩ := Call.run_complete ha
  obtain ⟨n2, h2⟩ := Call.run_complete hb
  have k1 := Call.run_mono n1 call c _ h1 (max n1 n2) (le_max_left _ _)
  have k2 := Call.run_mono n2 call c _ h2 (max n1 n2) (le_max_right _ _)
  rw [k1] at k2
  cases k2
  exact ⟨rfl, rfl⟩

/-- The result of a call and the input it leaves depend on the input alone. -/
theorem Eval.transfer {call : Call} {c c' : Cursor} {b : Bool} (h : Eval call c b c')
    (d : Cursor) (hd : d.input = c.input) : ∃ d', Eval call d b d' ∧ d'.input = c'.input := by
  obtain ⟨d', k1, k2, k3, _⟩ := h.sim c.input.data_ c.input.data_ d rfl (by rw [hd])
    (by rw [hd]) (AgreeUpTo.refl _ _)
  exact ⟨d', k1, StringInput.ext_of (by rw [k2, h.frame.2.2.1]) k3⟩

/-- Function form of `Eval.transfer` for a node. -/
theorem Node.match_transfer {fuel : Nat} {n : Node} {c c' : Cursor} {b : Bool}
    (h : Node.match_ fuel n c = some (b, c')) (d : Cursor) (hd : d.input = c.input) :
    ∃ fuel1 d', Node.match_ fuel1 n d = some (b, d') ∧ d'.input = c'.input := by
  obtain ⟨d', k1, k2⟩ := (Call.run_sound fuel (.node n) c c' b h).transfer d hd
  obtain ⟨fuel1, k3⟩ := Call.run_complete k1
  exact ⟨fuel1, d', k3, k2⟩

/-- A failed match leaves the input where it was. -/
theorem Node.match_false_input {fuel : Nat} {n : Node} {c c' : Cursor}
    (h : Node.match_ fuel n c = some (false, c')) : c'.input = c.input := by
  have hf := (Call.run_sound fuel (.node n) c c' false h).frame
  exact StringInput.ext_of hf.2.2.1 (hf.2.2.2.2.2.1 rfl)

/-- A successful `match_choice` splits its children into those that failed, the
one that succeeded, and the rest, which plays no part in the result. -/
theorem Tuple.match_choice_true : ∀ (ns : List Node) (fuel : Nat) (c c' : Cursor),
    Tuple.match_choice fuel (Tuple.ofList ns) c = some (true, c') →
    ∃ pre n post d k, ns = pre ++ n :: post ∧ d.input = c.input ∧
      (∀ m ∈ pre, ∃ k0 d0 d1, d0.input = c.input ∧ Node.match_ k0 m d0 = some (false, d1)) ∧
      Node.match_ k n d = some (true, c') ∧
      ∀ post1, Tuple.match_choice fuel (Tuple.ofList (pre ++ n :: post1)) c = some (true, c') := by
  intro ns
  induction ns with
  | nil =>
    intro fuel c c' h
    cases fuel <;> simp [Tuple.ofList, Tuple.match_choice] at h
  | cons n0 ns ih =>
    intro fuel c c' h
    cases fuel with
    | zero => simp [Tuple.match_choice] at h
    | succ fuel =>
      simp only [Tuple.ofList, Tuple.match_choice] at h
      split at h
      · cases h
      · rename_i c1 h1
        cases h
        refine ⟨[], n0, ns, c, fuel, rfl, rfl, ?_, h1, ?_⟩
        · intro m hm
          cases hm
        · intro post1
          simp [Tuple.ofList, Tuple.match_choice, h1]
      · rename_i c1 h1
        obtain ⟨pre, n, post, d, k, hns, hd, hpre, hn, hpost⟩ := ih fuel c1 c' h
        have hin := Node.match_false_input h1
        refine ⟨n0 :: pre, n, post, d, k, by rw [hns]; rfl, hd.trans hin, ?_, hn, ?_⟩
        · intro m hm
          rcases List.mem_cons.mp hm with rfl | hm
          · exact ⟨fuel, c, c1, rfl, h1⟩
          · obtain ⟨k0, d0, d1, e0, e1⟩ := hpre m hm
            exact ⟨k0, d0, d1, e0.trans hin, e1⟩
        · intro post1
          have := hpost post1
          simp only [List.cons_append, Tuple.ofList, Tuple.match_choice, h1]
          exact this

/-- A failed `match_choice` has seen every child fail. -/
theorem Tuple.match_choice_false : ∀ (ns : List Node) (fuel : Nat) (c c' : Cursor),
    Tuple.match_choice fuel (Tuple.ofList ns) c = some (false, c') →
    c'.input = c.input ∧
      ∀ m ∈ ns, ∃ k0 d0 d1, d0.input = c.input ∧ Node.match_ k0 m d0 = some (false, d1) := by
  intro ns
  induction ns with
  | nil =>
    intro fuel c c' h
    cases fuel with
    | zero => simp [Tuple.match_choice] at h
    | succ fuel =>
      simp only [Tuple.ofList, Tuple.match_choice] at h
      cases h
      exact ⟨rfl, fun m hm => by cases hm⟩
  | cons n0 ns ih =>
    intro fuel c c' h
    cases fuel with
    | zero => simp [Tuple.match_choice] at h
    | succ fuel =>
      simp only [Tuple.ofList, Tuple.match_choice] at h
      split at h
      · cases h
      · cases h
      · rename_i c1 h1
        obtain ⟨e, hall⟩ := ih fuel c1 c' h
        have hin := Node.match_false_input h1
        refine ⟨e.trans hin, ?_⟩
        intro m hm
        rcases List.mem_cons.mp hm with rfl | hm
        · exact ⟨fuel, c, c1, rfl, h1⟩
        · obtain ⟨k0, d0, d1, e0, e1⟩ := hall m hm
          exact ⟨k0, d0, d1, e0.trans hin, e1⟩

/-- If the children before `n` fail at the cursor and `n` succeeds there, then
`match_choice` returns `true`. -/
theorem Tuple.match_choice_of_first : ∀ (pre : List Node) (n : Node) (post : List Node)
    (c : Cursor),
    (∀ m ∈ pre, ∃ k d1, Node.match_ k m c = some (false, d1)) →
    (∃ k c1, Node.match_ k n c = some (true, c1)) →
    ∃ fuel c', Tuple.match_choice fuel (Tuple.ofList (pre ++ n :: post)) c = some (true, c') := by
  intro pre
  induction pre with
  | nil =>
    intro n post c _ hn
    obtain ⟨k, c1, hk⟩ := hn
    exact ⟨k + 1, c1, by simp [Tuple.ofList, Tuple.match_choice, hk]⟩
  | cons m pre ih =>
    intro n post c hpre hn
    obtain ⟨k, d1, hk⟩ := hpre m (List.mem_cons_self _ _)
    have hin := Node.match_false_input hk
    obtain ⟨kn, c1, hkn⟩ := hn
    obtain ⟨f, c', hf⟩ := ih n post d1
      (fun m1 hm1 => by
        obtain ⟨k1, e1, hk1⟩ := hpre m1 (List.mem_cons_of_mem _ hm1)
        obtain ⟨k2, e2, hk2, _⟩ := Node.match_transfer hk1 d1 hin
        exact ⟨k2, e2, hk2⟩)
      (by
        obtain ⟨k2, e2, hk2, _⟩ := Node.match_transfer hkn d1 hin
        exact ⟨k2, e2, hk2⟩)
    have a1 := Call.run_mono k (.node m) c _ hk (max k f) (le_max_left _ _)
    have a2 := Call.run_mono f (.alt (Tuple.ofList (pre ++ n :: post))) d1 _ hf (max k f)
      (le_max_right _ _)
    simp only [Call.run] at a1 a2
    exact ⟨max k f + 1, c', by
      simp only [List.cons_append, Tuple.ofList, Tuple.match_choice, a1]
      exact a2⟩

/-- If every child fails at the cursor, then `match_choice` returns `false`. -/
theorem Tuple.match_choice_of_all_fail : ∀ (ns : List Node) (c : Cursor),
    (∀ m ∈ ns, ∃ k d1, Node.match_ k m c = some (false, d1)) →
    ∃ fuel c', Tuple.match_choice fuel (Tuple.ofList ns) c = some (false, c') := by
  intro ns
  induction ns with
  | nil =>
    intro c _
    exact ⟨1, c, by simp [Tuple.ofList, Tuple.match_choice]⟩
  | cons m ns ih =>
    intro c hall
    obtain ⟨k, d1, hk⟩ := hall m (List.mem_cons_self _ _)
    have hin := Node.match_false_input hk
    obtain ⟨f, c', hf⟩ := ih d1 (fun m1 hm1 => by
      obtain ⟨k1, e1, hk1⟩ := hall m1 (List.mem_cons_of_mem _ hm1)
      obtain ⟨k2, e2, hk2, _⟩ := Node.match_transfer hk1 d1 hin
      exact ⟨k2, e2, hk2⟩)
    have a1 := Call.run_mono k (.node m) c _ hk (max k f) (le_max_left _ _)
    have a2 := Call.run_mono f (.alt (Tuple.ofList ns)) d1 _ hf (max k f) (le_max_right _ _)
    simp only [Call.run] at a1 a2
    exact ⟨max k f + 1, c', by
      simp only [Tuple.ofList, Tuple.match_choice, a1]
      exact a2⟩

/-- A node has at most one result at a cursor, whatever the fuel. -/
theorem Node.match_unique {k1 k2 : Nat} {n : Node} {c : Cursor} {r1 r2 : Bool × Cursor}
    (h1 : Node.match_ k1 n c = some r1) (h2 : Node.match_ k2 n c = some r2) : r1 = r2 := by
  have a1 := Call.run_mono k1 (.node n) c _ h1 (max k1 k2) (le_max_left _ _)
  have a2 := Call.run_mono k2 (.node n) c _ h2 (max k1 k2) (le_max_right _ _)
  rw [a1] at a2
  exact Option.some.inj a2

/-- Claim C18: `Choice` is first-match-wins.  The empty choice fails.  When
`choice(n1..nk)` returns, it returns `true` if and only if some child succeeds
at the cursor; when it returns `true`, the children split into those before the
winner, which all fail at the cursor, the winner, which succeeds at the cursor
and leaves the position of the result, and the later children, which can be
replaced by any others without changing the result (they are not attempted).
Conversely, when the children before a child fail and the child succeeds, the
choice returns `true`, and when all children fail the choice returns `false`.
On "ab" the choice of "a" and "ab" stops after "a" although "ab" matches
more. -/
theorem Node.Choice_match_first :
    (∀ (fuel : Nat) (c : Cursor), Node.match_ (fuel + 2) (choice []) c = some (false, c)) ∧
    (∀ (fuel : Nat) (ns : List Node) (c c' : Cursor) (b : Bool),
      Node.match_ fuel (choice ns) c = some (b, c') →
      (b = true ↔ ∃ n ∈ ns, ∃ k c1, Node.match_ k n c = some (true, c1)) ∧
      (b = true → ∃ pre n post k c1, ns = pre ++ n :: post ∧
        (∀ m ∈ pre, ∃ k0 d1, Node.match_ k0 m c = some (false, d1)) ∧
        Node.match_ k n c = some (true, c1) ∧ c'.input = c1.input ∧
        ∀ post1, Node.match_ fuel (choice (pre ++ n :: post1)) c = some (true, c'))) ∧
    (∀ (pre : List Node) (n : Node) (post : List Node) (c : Cursor),
      (∀ m ∈ pre, ∃ k d1, Node.match_ k m c = some (false, d1)) →
      (∃ k c1, Node.match_ k n c = some (true, c1)) →
      ∃ fuel c', Node.match_ fuel (choice (pre ++ n :: post)) c = some (true, c')) ∧
    (∀ (ns : List Node) (c : Cursor),
      (∀ m ∈ ns, ∃ k d1, Node.match_ k m c = some (false, d1)) →
      ∃ fuel c', Node.match_ fuel (choice ns) c = some (false, c')) ∧
    ((Node.match_ 3 (choice [str "a", str "ab"])
          (Cursor.new { data_ := lit "ab", i := 0 } { checkpoints := [] } 0 2)).map
        (fun r => (r.1, r.2.input.i)) = some (true, 1) ∧
      (Node.match_ 3 (str "ab")
          (Cursor.new { data_ := lit "ab", i := 0 } { checkpoints := [] } 0 2)).map
        (fun r => (r.1, r.2.input.i)) = some (true, 2)) := by
  refine ⟨?_, ?_, ?_, ?_, ?_⟩
  · intro fuel c
    simp [choice, Tuple.ofList, Node.match_, Tuple.match_choice]
  · intro fuel ns c c' b h
    cases fuel with
    | zero => simp [Node.match_] at h
    | succ fuel =>
      simp only [choice, Node.match_] at h
      have split_true : b = true → ∃ pre n post k c1, ns = pre ++ n :: post ∧
          (∀ m ∈ pre, ∃ k0 d1, Node.match_ k0 m c = some (false, d1)) ∧
          Node.match_ k n c = some (true, c1) ∧ c'.input = c1.input ∧
          ∀ post1, Node.match_ (fuel + 1) (choice (pre ++ n :: post1)) c = some (true, c') := by
        intro hb
        subst hb
        obtain ⟨pre, n, post, d, k, hns, hd, hpre, hn, hpost⟩ :=
          Tuple.match_choice_true ns fuel c c' h
        obtain ⟨k1, c1, hk1, hc1⟩ := Node.match_transfer hn c hd.symm
        refine ⟨pre, n, post, k1, c1, hns, ?_, hk1, hc1.symm, ?_⟩
        · intro m hm
          obtain ⟨k0, d0, d1, e0, e1⟩ := hpre m hm
          obtain ⟨k2, e2, hk2, _⟩ := Node.match_transfer e1 c e0.symm
          exact ⟨k2, e2, hk2⟩
        · intro post1
          simp only [choice, Node.match_]
          exact hpost post1
      refine ⟨⟨?_, ?_⟩, split_true⟩
      · intro hb
        obtain ⟨pre, n, post, k, c1, hns, _, hn, _⟩ := split_true hb
        exact ⟨n, by rw [hns]; simp, k, c1, hn⟩
      · rintro ⟨n, hn, k, c1, hk⟩
        cases b with
        | true => rfl
        | false =>
          obtain ⟨_, hall⟩ := Tuple.match_choice_false ns fuel c c' h
          obtain ⟨k0, d0, d1, e0, e1⟩ := hall n hn
          obtain ⟨k2, e2, hk2, _⟩ := Node.match_transfer e1 c e0.symm
          have := Node.match_unique hk hk2
          simp at this
  · intro pre n post c hpre hn
    obtain ⟨fuel, c', h⟩ := Tuple.match_choice_of_first pre n post c hpre hn
    exact ⟨fuel + 1, c', by simpa only [choice, Node.match_] using h⟩
  · intro ns c hall
    obtain ⟨fuel, c', h⟩ := Tuple.match_choice_of_all_fail ns c hall
    exact ⟨fuel + 1, c', by simpa only [choice, Node.match_] using h⟩
  · exact ⟨by decide, by decide⟩

/-! ## Merging of adjacent runs of one style -/

/-- Closing a non-empty open run that lies inside the window: the run is added
to the last span when that span ends where the run starts and has its style,
and is appended as a new span otherwise. -/
theorem Spans.change_style_close (B : Spans) (q : Nat) (s0 : Int) (w : Range)
    (h1 : B.start < q) (h2 : w.start ≤ B.start) (h3 : q ≤ w.end_) :
    (B.change_style q s0 w).2.start = q ∧ (B.change_style q s0 w).2.style = s0 ∧
      (((¬ ∃ l, B.spans.getLast? = some l ∧ l.end_ = B.start ∧ l.style = B.style) ∧
          (B.change_style q s0 w).2.spans =
            B.spans ++ [{ start := B.start, end_ := q, style := B.style }]) ∨
        (∃ l, B.spans.getLast? = some l ∧ l.end_ = B.start ∧ l.style = B.style ∧
          (B.change_style q s0 w).2.spans = B.spans.dropLast ++ [{ l with end_ := q }])) := by
  refine ⟨Spans.change_style_start _ _ _ _, rfl, ?_⟩
  have hne : q ≠ B.start := by omega
  have hc : ¬ (q ≤ w.start ∨ B.start ≥ w.end_) := by omega
  have hmax : max B.start w.start = B.start := by omega
  have hmin : min q w.end_ = q := by omega
  simp only [Spans.change_style, if_pos hne, Spans.emit_span, Bool.or_eq_true, decide_eq_true_eq,
    if_neg hc, hmax, hmin]
  cases hl : B.spans.getLast? with
  | none =>
    left
    exact ⟨by simp, by simp⟩
  | some l =>
    by_cases hm : l.end_ = B.start ∧ l.style = B.style
    · right
      exact ⟨l, rfl, hm.1, hm.2, by simp [hm]⟩
    · left
      refine ⟨?_, by simp [hm]⟩
      rintro ⟨l1, e1, e2, e3⟩
      cases e1
      exact hm ⟨e2, e3⟩

/-- A change of style at the start of the open run emits nothing. -/
theorem Spans.change_style_at_start (B : Spans) (s : Int) (w : Range) :
    (B.change_style B.start s w).2 = { B with style := s } := by
  simp [Spans.change_style]

/-- Flushing the open run of a well-formed accumulator at a position inside
the window keeps the spans well-formed. -/
theorem Spans.change_style_wf (A : Spans) (pos : Nat) (s : Int) (w : Range)
    (hwf : ∀ sp ∈ A.spans, sp.start ≤ sp.end_ ∧ sp.end_ ≤ A.start)
    (hst : A.start ≤ pos) (hww : w.start ≤ w.end_) :
    ∀ sp ∈ (A.change_style pos s w).2.spans, sp.start ≤ sp.end_ ∧ sp.end_ ≤ pos := by
  have keep : ∀ sp ∈ A.spans, sp.start ≤ sp.end_ ∧ sp.end_ ≤ pos := fun sp hsp =>
    ⟨(hwf sp hsp).1, (hwf sp hsp).2.trans hst⟩
  simp only [Spans.change_style]
  split
  · simp only [Spans.emit_span]
    split
    · exact keep
    · rename_i hc
      simp only [Bool.or_eq_true, decide_eq_true_eq, not_or, not_le] at hc
      split
      · rename_i l hl
        have hlm : l ∈ A.spans := List.mem_of_getLast?_eq_some hl
        split
        · intro sp hsp
          rcases List.mem_append.mp hsp with hsp | hsp
          · exact keep sp (List.dropLast_subset _ hsp)
          · simp only [List.mem_singleton] at hsp
            subst hsp
            have := hwf l hlm
            simp only
            omega
        · intro sp hsp
          rcases List.mem_append.mp hsp with hsp | hsp
          · exact keep sp hsp
          · simp only [List.mem_singleton] at hsp
            subst hsp
            simp only
            omega
      · intro sp hsp
        rcases List.mem_append.mp hsp with hsp | hsp
        · exact keep sp hsp
        · simp only [List.mem_singleton] at hsp
          subst hsp
          simp only
          omega
  · exact keep

/-- A successful `Highlight` around a node without `Highlight`, as a
computation on the accumulator. -/
theorem Eval.highlight_spans {x : Node} {s : Int} {c c1 : Cursor} {b : Bool}
    (hx : x.hlfree = true) (h : Eval (.node (.Highlight x s)) c b c1) :
    c1.spans = (((c.change_style s).2.spans).change_style c1.input.i c.spans.style c.window).2 := by
  cases h with
  | @highlight _ _ _ cx _ hx1 =>
    have hsp := hx1.hlfree_spans hx
    have hw := hx1.frame.2.1
    simp only [Cursor.change_style, StringInput.get_position] at hsp hw ⊢
    rw [hsp, hw, Spans.change_style_fst]

/-- Claim C14: for every style `s` and nodes `x`, `y` without `Highlight`, if
`highlight(s, x)` succeeds from position `p` to `q > p` and then
`highlight(s, y)` succeeds from `q` to `r > q`, with `p` and `r` inside the
window, then after the flush the two matches have contributed one span `L` of
style `s` ending at `r`: it is appended to the spans reported before `p` and
starts at `p`, or it is the last of those spans, extended, when that one ends at
`p` in style `s`.  On an accumulator whose spans are well-formed and lie before
the open run, `L` starts at or before `p` and no span starts or ends at `q`. -/
theorem Highlight.match_merges (s : Int) (x y : Node) (k1 k2 : Nat) (c c1 c2 : Cursor)
    (hx : x.hlfree = true) (hy : y.hlfree = true)
    (h1 : Node.match_ k1 (highlight s x) c = some (true, c1))
    (h2 : Node.match_ k2 (highlight s y) c1 = some (true, c2))
    (hpq : c.input.i < c1.input.i) (hqr : c1.input.i < c2.input.i)
    (hws : c.window.start ≤ c.input.i) (hwe : c2.input.i ≤ c.window.end_) :
    ∃ L : Span, L.style = s ∧ L.end_ = c2.input.i ∧
      (((c2.change_style Style.DEFAULT).2.spans.spans =
            (c.change_style s).2.spans.spans ++ [L] ∧ L.start = c.input.i) ∨
        (∃ l, (c.change_style s).2.spans.spans.getLast? = some l ∧ l.end_ = c.input.i ∧
          l.style = s ∧
          (c2.change_style Style.DEFAULT).2.spans.spans =
            (c.change_style s).2.spans.spans.dropLast ++ [L] ∧ L.start = l.start)) ∧
      ((∀ sp ∈ c.spans.spans, sp.start ≤ sp.end_ ∧ sp.end_ ≤ c.spans.start) →
        c.spans.start ≤ c.input.i →
        L.start ≤ c.input.i ∧
          ∀ sp ∈ (c2.change_style Style.DEFAULT).2.spans.spans,
            sp.start ≠ c1.input.i ∧ sp.end_ ≠ c1.input.i) := by
  have E1 := Call.run_sound k1 (.node (.Highlight x s)) c c1 true h1
  have E2 := Call.run_sound k2 (.node (.Highlight y s)) c1 c2 true h2
  have hw1 : c1.window = c.window := E1.frame.2.1
  have hB : (c.change_style s).2.spans = (c.spans.change_style c.input.i s c.window).2 := rfl
  have hBst : (c.change_style s).2.spans.start = c.input.i := by
    rw [hB]; exact Spans.change_style_start _ _ _ _
  have hBsy : (c.change_style s).2.spans.style = s := rfl
  -- the first match
  have e1 := E1.highlight_spans hx
  obtain ⟨a1, a2, a3⟩ := Spans.change_style_close (c.change_style s).2.spans c1.input.i
    c.spans.style c.window (by omega) (by omega) (by omega)
  rw [← e1] at a1 a2 a3
  rw [hBst, hBsy] at a3
  -- the second match
  have e2 := E2.highlight_spans hy
  have hB2 : (c1.change_style s).2.spans =
      { spans := c1.spans.spans, start := c1.input.i, style := s } := by
    have := Spans.change_style_at_start c1.spans s c1.window
    rw [a1] at this
    exact this
  rw [hB2, hw1] at e2
  obtain ⟨b1, b2, b3⟩ := Spans.change_style_close
    { spans := c1.spans.spans, start := c1.input.i, style := s } c2.input.i
    c1.spans.style c.window (by simp only; omega) (by simp only; omega) hwe
  rw [← e2] at b1 b2 b3
  simp only at b3
  -- the flush
  have hF : (c2.change_style Style.DEFAULT).2.spans.spans = c2.spans.spans := by
    have := Spans.change_style_at_start c2.spans Style.DEFAULT c2.window
    rw [b1] at this
    show (c2.spans.change_style c2.input.i Style.DEFAULT c2.window).2.spans = _
    rw [this]
  rw [hF]
  rcases a3 with ⟨hno, hsp1⟩ | ⟨l, hl, hle, hls, hsp1⟩
  · -- a new span was appended by the first match
    rcases b3 with ⟨hno2, _⟩ | ⟨l2, hl2, _, _, hsp2⟩
    · exact absurd ⟨{ start := c.input.i, end_ := c1.input.i, style := s },
        by rw [hsp1]; exact List.getLast?_concat _, rfl, rfl⟩ hno2
    · rw [hsp1] at hl2 hsp2
      rw [List.getLast?_concat] at hl2
      cases hl2
      simp only [List.dropLast_concat] at hsp2
      refine ⟨_, rfl, rfl, Or.inl ⟨hsp2, rfl⟩, ?_⟩
      intro hwf hst
      refine ⟨le_refl _, ?_⟩
      have hS1 := Spans.change_style_wf c.spans c.input.i s c.window hwf hst (by omega)
      intro sp hsp
      rw [hsp2] at hsp
      rcases List.mem_append.mp hsp with hsp | hsp
      · have := hS1 sp hsp
        omega
      · simp only [List.mem_singleton] at hsp
        subst hsp
        simp only
        omega
  · -- the first match extended the last span
    rcases b3 with ⟨hno2, _⟩ | ⟨l2, hl2, _, _, hsp2⟩
    · exact absurd ⟨{ l with end_ := c1.input.i },
        by rw [hsp1]; exact List.getLast?_concat _, rfl, hls⟩ hno2
    · rw [hsp1] at hl2 hsp2
      rw [List.getLast?_concat] at hl2
      cases hl2
      simp only [List.dropLast_concat] at hsp2
      refine ⟨{ start := l.start, end_ := c2.input.i, style := l.style }, hls, rfl,
        Or.inr ⟨l, hl, hle, hls, hsp2, rfl⟩, ?_⟩
      intro hwf hst
      have hS1 := Spans.change_style_wf c.spans c.input.i s c.window hwf hst (by omega)
      have hlm := hS1 l (List.mem_of_getLast?_eq_some hl)
      refine ⟨by show l.start ≤ c.input.i; omega, ?_⟩
      intro sp hsp
      rw [hsp2] at hsp
      rcases List.mem_append.mp hsp with hsp | hsp
      · have := hS1 sp (List.dropLast_subset _ hsp)
        omega
      · simp only [List.mem_singleton] at hsp
        subst hsp
        simp only
        omega

/-- Witness of `Highlight.match_merges`: two digits of "12", each matched by its
own `highlight(LITERAL, range('0', '9'))`, from a new cursor. -/
theorem Highlight.match_merges_witness :
    ∃ L : Span, L.style = Style.LITERAL ∧ L.end_ = 2 ∧ L.start ≤ 0 ∧
      ∀ sp ∈ (Cursor.change_style
          { input := { data_ := lit "12", i := 2 }, tree := { checkpoints := [] },
            window := { start := 0, end_ := 2 }, max_pos := 0,
            spans := { spans := [{ start := 0, end_ := 2, style := Style.LITERAL }],
                       start := 2, style := Style.DEFAULT } }
          Style.DEFAULT).2.spans.spans, sp.start ≠ 1 ∧ sp.end_ ≠ 1 := by
  obtain ⟨L, h1, h2, _, h4⟩ := Highlight.match_merges Style.LITERAL (range 48 57) (range 48 57)
    2 2 (Cursor.new { data_ := lit "12", i := 0 } { checkpoints := [] } 0 2)
    { input := { data_ := lit "12", i := 1 }, tree := { checkpoints := [] },
      window := { start := 0, end_ := 2 }, max_pos := 0,
      spans := { spans := [{ start := 0, end_ := 1, style := Style.LITERAL }],
                 start := 1, style := Style.DEFAULT } }
    { input := { data_ := lit "12", i := 2 }, tree := { checkpoints := [] },
      window := { start := 0, end_ := 2 }, max_pos := 0,
      spans := { spans := [{ start := 0, end_ := 2, style := Style.LITERAL }],
                 start := 2, style := Style.DEFAULT } }
    (by decide) (by decide) (by decide) (by decide) (by decide) (by decide) (by decide)
    (by decide)
  exact ⟨L, h1, h2, (h4 (by decide) (by decide)).1, (h4 (by decide) (by decide)).2⟩

/-! ## First characters -/

/-- A failed call leaves the input where it was. -/
theorem Eval.false_input {call : Call} {c c' : Cursor} (h : Eval call c false c') :
    c'.input = c.input :=
  StringInput.ext_of h.frame.2.2.1 (h.frame.2.2.2.2.2.1 rfl)

theorem String_scan_first (s : List Nat) (inp : StringInput)
    (h : (String_scan s inp).1 = true) : String_first s inp.get = true := by
  cases s with
  | nil => rfl
  | cons a rest =>
    simp only [String_scan] at h
    simp only [String_first]
    by_cases ha : a = 0
    · simp [ha]
    · rw [if_neg ha] at h
      by_cases hg : inp.get = a
      · simp [hg]
      · rw [if_neg hg] at h
        cases h

/-- A call that succeeds passes the first-character filter. -/
theorem Eval.first {call : Call} {c c' : Cursor} {b : Bool} (h : Eval call c b c') :
    b = true → call.first c.input.get = true := by
  induction h with
  | @char_true f c hf => intro _; exact hf
  | char_false _ => intro hb; cases hb
  | @string s c =>
    intro hb
    rw [String_match_loop_eq] at hb
    split at hb
    · rename_i hs
      exact String_scan_first s c.input hs
    · cases hb
  | sequence _ ih => exact ih
  | choice _ ih => exact ih
  | repetition_stop _ _ => intro _; rfl
  | repetition_step _ _ _ _ => intro _; rfl
  | optional _ _ => intro _; rfl
  | not_true _ _ => intro hb; cases hb
  | not_false _ _ => intro _; rfl
  | highlight _ ih => exact ih
  | seq_nil => intro _; rfl
  | seq_first_fails _ _ => intro hb; cases hb
  | seq_true _ _ ih1 _ => intro _; exact ih1 rfl
  | seq_rest_fails _ _ _ _ => intro hb; cases hb
  | alt_nil => intro hb; cases hb
  | alt_first _ ih =>
    intro _
    simp only [Call.first, Tuple.first_alt, Bool.or_eq_true]
    exact Or.inl (ih rfl)
  | alt_next h1 _ _ ih2 =>
    intro hb
    have := ih2 hb
    rw [h1.false_input] at this
    simp only [Call.first, Tuple.first_alt, Bool.or_eq_true]
    exact Or.inr this

/-- A call that does not pass the first-character filter fails. -/
theorem Eval.fails_of_first {call : Call} {c c' : Cursor} {b : Bool} (h : Eval call c b c')
    (hf : call.first c.input.get = false) : b = false := by
  cases b with
  | false => rfl
  | true =>
    have := h.first rfl
    rw [hf] at this
    cases this

/-- A choice of character predicates succeeds exactly when one of them accepts
the current character; then it has advanced, otherwise it has not moved. -/
theorem Eval.char_choice : ∀ (fs : List (Nat → Bool)) (c c' : Cursor) (b : Bool),
    Eval (.alt (Tuple.ofList (fs.map Node.Char))) c b c' →
    b = fs.any (fun f => f c.input.get) ∧
      c'.input = if b then c.input.advance else c.input := by
  intro fs
  induction fs with
  | nil =>
    intro c c' b h
    simp only [List.map, Tuple.ofList] at h
    cases h
    exact ⟨rfl, rfl⟩
  | cons f fs ih =>
    intro c c' b h
    simp only [List.map, Tuple.ofList] at h
    cases h with
    | alt_first h1 =>
      cases h1 with
      | char_true hf =>
        rw [Cursor.get_eq] at hf
        exact ⟨by simp [hf], rfl⟩
    | alt_next h1 h2 =>
      cases h1 with
      | char_false hf =>
        rw [Cursor.get_eq] at hf
        obtain ⟨e1, e2⟩ := ih _ _ _ h2
        exact ⟨by simp [hf, e1], e2⟩

/-- The node `c_identifier_char` as a predicate on the current character. -/
theorem Eval.c_identifier_char_iff {c c' : Cursor} {b : Bool}
    (h : Eval (.node c_identifier_char) c b c') :
    b = is_identifier_char c.input.get ∧
      c'.input = if b then c.input.advance else c.input := by
  cases h with
  | choice h1 =>
    obtain ⟨e1, e2⟩ := Eval.char_choice
      [fun c => c >= 'a'.toNat && c <= 'z'.toNat, fun c => c >= 'A'.toNat && c <= 'Z'.toNat,
        fun i => i == '_'.toNat, fun c => c >= '0'.toNat && c <= '9'.toNat] _ _ _ h1
    refine ⟨?_, e2⟩
    rw [e1]
    simp [is_identifier_char, List.any, Bool.or_assoc]

/-- The node `c_identifier_begin_char` as a predicate on the current
character. -/
theorem Eval.c_identifier_begin_char_iff {c c' : Cursor} {b : Bool}
    (h : Eval (.node c_identifier_begin_char) c b c') :
    b = is_identifier_begin_char c.input.get ∧
      c'.input = if b then c.input.advance else c.input := by
  cases h with
  | choice h1 =>
    obtain ⟨e1, e2⟩ := Eval.char_choice
      [fun c => c >= 'a'.toNat && c <= 'z'.toNat, fun c => c >= 'A'.toNat && c <= 'Z'.toNat,
        fun i => i == '_'.toNat] _ _ _ h1
    refine ⟨?_, e2⟩
    rw [e1]
    simp [is_identifier_begin_char, List.any, Bool.or_assoc]

/-- A repetition ends where its child fails: the child has failed at a cursor
with the input of the result, reached through successful matches of the child,
across which every reflexive and transitive relation of the child holds. -/
theorem Eval.repetition_last (t : Node) (R : StringInput → StringInput → Prop)
    (hrefl : ∀ a, R a a) (htrans : ∀ a b c, R a b → R b c → R a c)
    (hstep : ∀ d d1 : Cursor, Eval (.node t) d true d1 → R d.input d1.input)
    {call : Call} {c c' : Cursor} {b : Bool} (h : Eval call c b c') :
    call = .node (.Repetition t) →
      R c.input c'.input ∧ ∃ d d1, d.input = c'.input ∧ Eval (.node t) d false d1 := by
  induction h with
  | @repetition_stop t1 c c1 h1 _ =>
    intro ht
    cases ht
    exact ⟨by rw [h1.false_input]; exact hrefl _, c, c1, h1.false_input.symm, h1⟩
  | @repetition_step t1 c c1 c2 b h1 _ _ ih2 =>
    intro ht
    cases ht
    obtain ⟨r, d, d1, e, hd⟩ := ih2 rfl
    exact ⟨htrans _ _ _ (hstep _ _ h1) r, d, d1, e, hd⟩
  | _ => intro ht; cases ht

/-! ## Clipping to the window -/

/-- Claim C15 as stated fails when the child contains a `Highlight`: on "ab"
with the window `[1, 2)` and a new cursor, `highlight(STRING, sequence('a',
highlight(COMMENT, 'b')))` succeeds over `[0, 2)` and reports the span
`(1, 2, COMMENT)`, not `(1, 2, STRING)`. -/
theorem Highlight.match_nested_clip_counterexample :
    (Node.match_ 8 (highlight Style.STRING (sequence [chr 'a', highlight Style.COMMENT (chr 'b')]))
        (Cursor.new { data_ := lit "ab", i := 0 } { checkpoints := [] } 1 2)).map
      (fun r => (r.1, r.2.input.i, r.2.spans.spans)) =
      some (true, 2, [{ start := 1, end_ := 2, style := Style.COMMENT }]) ∧
    ([{ start := 1, end_ := 2, style := Style.COMMENT }] : List Span) ≠
      [{ start := 1, end_ := 2, style := Style.STRING }] := by
  constructor
  · decide
  · decide

/-- A successful `Highlight` around a node without `Highlight` that begins
before the window, with nothing reported yet, and ends inside the window
reports exactly its part inside the window. -/
theorem Eval.highlight_clips {x : Node} {s : Int} {c c' : Cursor} {b : Bool}
    (hx : x.hlfree = true) (h : Eval (.node (.Highlight x s)) c b c')
    (hnil : c.spans.spans = []) (hst : c.spans.start ≤ c.input.i)
    (ha : c.input.i < c.window.start) (hb : c.window.start < c'.input.i)
    (hwe : c'.input.i ≤ c.window.end_) :
    c'.spans.spans = [{ start := c.window.start, end_ := c'.input.i, style := s }] ∧
      c'.spans.start = c'.input.i := by
  have e := h.highlight_spans hx
  have hw : c.window.start < c.window.end_ := by omega
  have hB : (c.change_style s).2.spans = (c.spans.change_style c.input.i s c.window).2 := rfl
  rw [hB, Spans.change_style_first c.spans c.input.i s c.window hw hnil (by omega),
    if_pos (by omega)] at e
  rw [Spans.change_style_first _ c'.input.i c.spans.style c.window hw rfl
    (by show c.input.i ≤ c.window.start; omega), if_neg (by omega)] at e
  rw [e]
  refine ⟨?_, rfl⟩
  simp only
  rw [min_eq_left hwe]

/-- The string rule of the scope "c" cannot fail at a double quote. -/
theorem c_string_rule_succeeds {d d' : Cursor} {b : Bool}
    (h : Eval (.node (highlight Style.STRING (sequence [
      chr '"', repetition (but (choice [chr '"', chr '\n'])), optional (chr '"')]))) d b d')
    (hq : d.input.get = 34) : b = true := by
  cases b with
  | true => rfl
  | false =>
    exfalso
    simp only [highlight, sequence, Tuple.ofList] at h
    cases h with
    | highlight h1 =>
      cases h1 with
      | sequence h2 =>
        cases h2 with
        | seq_first_fails h3 =>
          cases h3 with
          | char_false hf =>
            rw [Cursor.get_eq, Cursor.change_style_input, hq] at hf
            exact absurd hf (by decide)
        | seq_rest_fails h3 h4 =>
          cases h4 with
          | seq_first_fails h5 =>
            have := h5.repetition_true _ rfl
            cases this
          | seq_rest_fails h5 h6 =>
            cases h6 with
            | seq_first_fails h7 => cases h7
            | seq_rest_fails h7 h8 => cases h8

/-- Claim C15, amended: for every successful match of `highlight(s, x)` where
`x` contains no `Highlight`, begun at a position `a` before the window start
on an accumulator that has reported nothing (a fresh one in particular) and
ended at `b` with `windowStart < b <= windowEnd`, the spans reported are exactly
`[(windowStart, b, s)]`, with the cursor at `b`.  In the scope "c", at every
cursor on a double quote, `match_single` succeeds through the string rule, and
when the quote lies before the window start and the literal ends inside the
window the spans reported are exactly `[(windowStart, end, STRING)]`.  For
example, the pass over `"abc" x` with the window `[2, 7)` reports
`(2, 5, STRING)` first. -/
theorem Highlight.match_clips :
    (∀ (s : Int) (x : Node) (k : Nat) (c c' : Cursor), x.hlfree = true →
      Node.match_ k (highlight s x) c = some (true, c') →
      c.spans.spans = [] → c.spans.start ≤ c.input.i →
      c.input.i < c.window.start → c.window.start < c'.input.i →
      c'.input.i ≤ c.window.end_ →
      c'.spans.spans = [{ start := c.window.start, end_ := c'.input.i, style := s }] ∧
        c'.spans.start = c'.input.i) ∧
    (∀ c : Cursor, c.input.get = 34 → c.spans.spans = [] → c.spans.start ≤ c.input.i →
      ∃ fuel c', Scope.match_single fuel c_scope c = some (true, c') ∧
        c.input.i < c'.input.i ∧
        (∃ k d d', d.input = c.input ∧
          Node.match_ k (highlight Style.STRING (sequence [
            chr '"', repetition (but (choice [chr '"', chr '\n'])), optional (chr '"')])) d =
            some (true, d') ∧ d'.input = c'.input) ∧
        (c.input.i < c.window.start → c.window.start < c'.input.i →
          c'.input.i ≤ c.window.end_ →
          c'.spans.spans =
            [{ start := c.window.start, end_ := c'.input.i, style := Style.STRING }])) ∧
    ((highlight_pass 40 c_scope (lit "\"abc\" x") { checkpoints := [] } 2 7).map
        (fun c => c.spans.spans.head?) =
      some (some { start := 2, end_ := 5, style := Style.STRING })) := by
  refine ⟨?_, ?_, by decide⟩
  · intro s x k c c' hx h hnil hst ha hb hwe
    exact (Call.run_sound k (.node (.Highlight x s)) c c' true h).highlight_clips hx hnil hst ha
      hb hwe
  · intro c hq hnil hst
    obtain ⟨hflat, hprod, hcons⟩ := c_scope_classes
    have hlt : c.input.i < c.input.data_.length := by
      by_contra hge
      simp only [StringInput.get, StringInput.size_] at hq
      rw [if_neg hge] at hq
      cases hq
    obtain ⟨b, c1, h⟩ := Eval.total _ _ (.alt c_scope) c (le_refl _) (le_refl _) hprod
      (le_of_lt hlt)
    have hall := h
    simp only [c_scope, Tuple.ofList] at h
    cases h with
    | alt_first h1 =>
      have := h1.first rfl
      rw [hq] at this
      exact absurd this (by decide)
    | alt_next h1 h2 =>
      have hin1 := h1.false_input
      have hsp1 : _ = c.spans := h1.hlfree_spans (by decide)
      cases h2 with
      | alt_first h3 =>
        have := h3.first rfl
        rw [hin1, hq] at this
        exact absurd this (by decide)
      | alt_next h3 h4 =>
        have hin2 := h3.false_input
        have hq3 := Eval.flat_quiet
          (n := highlight Style.COMMENT (choice [
            sequence [str "/*", repetition (but (str "*/")), optional (str "*/")],
            sequence [str "//", repetition (but (chr '\n'))]])) (by decide) h3
        cases h4 with
        | alt_next h5 h6 =>
          have := c_string_rule_succeeds h5 (by rw [hin2, hin1]; exact hq)
          cases this
        | @alt_first _ _ _ c3 h5 =>
          have hS := Single.matched hall
          obtain ⟨fuel, hfuel⟩ := Scope.match_single_complete hS
          obtain ⟨k, hk⟩ := Call.run_complete h5
          refine ⟨fuel, _, hfuel, hS.single_consumes hcons, ⟨k, _, _, hin2.trans hin1, hk, rfl⟩,
            ?_⟩
          intro ha hb hwe
          have hw1 := h1.frame.2.1
          have hw2 := h3.frame.2.1
          have hw : _ = c.window := hw2.trans hw1
          have hi : _ = c.input.i := congrArg StringInput.i (hin2.trans hin1)
          obtain ⟨q1, q2⟩ := hq3.2.2 (by rw [hsp1]; exact hnil)
            (by rw [hsp1, congrArg StringInput.i hin1]; exact hst)
            (by rw [congrArg StringInput.i hin2, hw1, congrArg StringInput.i hin1]; omega)
          have := h5.highlight_clips (by decide) q1 q2 (by rw [hw, hi]; exact ha)
            (by rw [hw]; exact hb) (by rw [hw]; exact hwe)
          rw [hw] at this
          exact this.1

/-! ## Passes that report default text only -/

/-- No alternative of the scope "c" passes the first-character filter at an
unrecognised byte. -/
theorem c_scope_first_unrecognised (ch : Nat) (h : is_unrecognised_byte ch = true) :
    Tuple.first_alt c_scope ch = false := by
  simp only [is_unrecognised_byte, is_identifier_char, Bool.and_eq_true, Bool.not_eq_true',
    Bool.or_eq_false_iff, bne_iff_ne, ne_eq, beq_eq_false_iff_ne, decide_eq_false_iff_not,
    Bool.and_eq_false_iff, Bool.or_eq_true, beq_iff_eq, decide_eq_true_eq] at h
  simp only [c_scope, Tuple.ofList, Tuple.first_alt, Node.first, Tuple.first_seq, one_or_more,
    sequence, choice, highlight, c_whitespace_char, chr, str, get_language_node_char,
    get_language_node_string, range, c_keywords, c_keyword, List.map, c_identifier,
    c_identifier_begin_char, String_first, lit, repetition, optional, but, not_]
  simp
  omega

/-- Flushing the open run of a `plain` accumulator at a position inside a
window that starts at 0 leaves one run of default text up to that position. -/
theorem Spans.change_style_plain (A : Spans) (pos : Nat) (s : Int) (w : Range)
    (hA : A.plain) (hw : w.start = 0) (hst : A.start ≤ pos) (hpos : pos ≤ w.end_) :
    (A.change_style pos s w).1 = Style.DEFAULT ∧
      ({ spans := (A.change_style pos s w).2.spans, start := pos,
         style := Style.DEFAULT } : Spans).plain ∧
      (A.change_style pos s w).2.start = pos := by
  obtain ⟨hsty, hcases⟩ := hA
  refine ⟨by rw [Spans.change_style_fst]; exact hsty, ?_, Spans.change_style_start _ _ _ _⟩
  cases A with
  | mk spans start style =>
    simp only at hsty hcases hst
    subst hsty
    by_cases hp : pos = start
    · subst hp
      simp only [Spans.change_style, ne_eq, not_true_eq_false, if_false]
      exact ⟨rfl, hcases⟩
    · have hlt : start < pos := by omega
      have hmin : min pos w.end_ = pos := by omega
      refine ⟨rfl, Or.inr ⟨?_, by show 0 < pos; omega⟩⟩
      simp only [Spans.change_style, ne_eq, hp, not_false_eq_true, if_true, Spans.emit_span,
        Bool.or_eq_true, decide_eq_true_eq, hmin, hw]
      split
      · rename_i hc
        exfalso
        omega
      · rcases hcases with ⟨hnil, h0⟩ | ⟨hone, h0⟩
        · subst hnil
          subst h0
          simp
        · subst hone
          simp

/-- A `flat` node that fails, or that contains no `Highlight`, keeps the cursor
`plain`. -/
theorem Eval.flat_plain {n : Node} {c c' : Cursor} {b : Bool} (hflat : n.flat = true)
    (h : Eval (.node n) c b c') (hok : b = false ∨ n.hlfree = true) (hc : c.plain) :
    c'.plain := by
  obtain ⟨hw0, hlen, hpos, hst, hpl⟩ := hc
  obtain ⟨_, hw, hd, hsty, hle, hfalse, _, hin⟩ := h.frame
  have base : c'.window.start = 0 ∧ c'.input.data_.length ≤ c'.window.end_ ∧
      c'.input.i ≤ c'.input.data_.length := by
    rw [hw, hd]
    exact ⟨hw0, hlen, hin hpos⟩
  have hfree : n.hlfree = true → c'.plain := by
    intro hf
    have hsp := h.hlfree_spans hf
    refine ⟨base.1, base.2.1, base.2.2, ?_, ?_⟩
    · rw [hsp]; omega
    · rw [hsp]; exact hpl
  rcases Node.flat_cases n hflat with ⟨t, s, rfl, hfr⟩ | hfr
  · rcases hok with hb | hf
    · subst hb
      have hi := hfalse rfl
      have e := h.highlight_spans hfr
      have hB : (c.change_style s).2.spans = (c.spans.change_style c.input.i s c.window).2 := rfl
      obtain ⟨p1, p2, p3⟩ := Spans.change_style_plain c.spans c.input.i s c.window hpl hw0 hst
        (by omega)
      rw [hB, hi] at e
      have e2 := Spans.change_style_at_start (c.spans.change_style c.input.i s c.window).2
        c.spans.style c.window
      rw [p3] at e2
      rw [e2, hpl.1] at e
      refine ⟨base.1, base.2.1, base.2.2, ?_, ?_⟩
      · rw [e, hi]
      · rw [e]
        exact p2
    · exact hfree hf
  · exact hfree hfr

/-- If no alternative that contains a `Highlight` can succeed at the input of
the cursor, `match_choice` on `flat` alternatives keeps the cursor `plain`. -/
theorem Eval.alt_plain : ∀ (ns : List Node) (c c' : Cursor) (b : Bool),
    (Tuple.ofList ns).flat = true → Eval (.alt (Tuple.ofList ns)) c b c' →
    (∀ n ∈ ns, n.hlfree = false →
      ∀ d d1 : Cursor, d.input = c.input → ¬ Eval (.node n) d true d1) →
    c.plain → c'.plain := by
  intro ns
  induction ns with
  | nil =>
    intro c c' b _ h _ hc
    simp only [Tuple.ofList] at h
    cases h
    exact hc
  | cons n ns ih =>
    intro c c' b hflat h hno hc
    simp only [Tuple.ofList, Tuple.flat, Bool.and_eq_true] at hflat h
    cases h with
    | alt_first h1 =>
      refine h1.flat_plain hflat.1 (Or.inr ?_) hc
      by_contra hf
      exact hno n (List.mem_cons_self _ _) (by simpa using hf) c _ rfl h1
    | alt_next h1 h2 =>
      have hc1 := h1.flat_plain hflat.1 (Or.inl rfl) hc
      have hin := h1.false_input
      exact ih _ _ _ hflat.2 h2
        (fun m hm hf d d1 hd => hno m (List.mem_cons_of_mem _ hm) hf d d1 (hd.trans hin)) hc1

/-- Every child of a choice that does not pass the first-character filter
fails the filter. -/
theorem Tuple.first_alt_false : ∀ (ns : List Node) (ch : Nat),
    (Tuple.ofList ns).first_alt ch = false → ∀ n ∈ ns, n.first ch = false := by
  intro ns
  induction ns with
  | nil => intro ch _ n hn; cases hn
  | cons m ns ih =>
    intro ch h n hn
    simp only [Tuple.ofList, Tuple.first_alt, Bool.or_eq_false_iff] at h
    rcases List.mem_cons.mp hn with rfl | hn
    · exact h.1
    · exact ih ch h.2 n hn

/-- At a byte of the document the current character is that byte. -/
theorem StringInput.get_mem (inp : StringInput) (h : inp.i < inp.data_.length) :
    inp.get ∈ inp.data_ := by
  simp only [StringInput.get, StringInput.size_, if_pos h]
  rw [List.getD_eq_getElem _ _ h]
  exact List.getElem_mem _

/-- One step of the driver of the scope "c" at an unrecognised byte: no
alternative matches, the fallback consumes the byte, and the cursor stays
`plain`. -/
theorem Single.unrecognised_step {d d2 : Cursor} {b : Bool} (h : Single c_scope d b d2)
    (hd : d.plain) (hlt : d.input.i < d.input.data_.length)
    (hch : is_unrecognised_byte d.input.get = true) :
    b = true ∧ d2.input.i = d.input.i + 1 ∧ d2.input.data_ = d.input.data_ ∧
      d2.window = d.window ∧ d2.plain := by
  have hfirst := c_scope_first_unrecognised _ hch
  have hne : d.input.get ≠ 0 := by
    intro h0
    rw [h0] at hch
    exact absurd hch (by decide)
  cases h with
  | matched h1 =>
    have := h1.first rfl
    simp only [Call.first] at this
    rw [hfirst] at this
    cases this
  | fallback h1 h2 =>
    rename_i c1
    have hin := h1.false_input
    have hc1 : c1.plain := by
      refine Eval.alt_plain _ _ _ _ c_scope_classes.1 h1 ?_ hd
      intro n hn _ e e1 he hev
      have := hev.first rfl
      simp only [Call.first] at this
      rw [he, Tuple.first_alt_false _ _ hfirst n hn] at this
      cases this
    rcases h2.any_char_inv with ⟨_, _, hg⟩ | ⟨hb, hc, _⟩
    · rw [hin] at hg
      exact absurd hg hne
    · subst hb
      subst hc
      obtain ⟨q1, q2, q3, q4, q5⟩ := hc1
      have hi : c1.advance.input.i = d.input.i + 1 := by
        rw [Cursor.advance_input, StringInput.advance_of_get_ne_zero _ (by rw [hin]; exact hne),
          hin]
      refine ⟨rfl, hi, ?_, h1.frame.2.1, q1, ?_, ?_, ?_, q5⟩
      · rw [Cursor.advance_input, StringInput.advance_data, hin]
      · rw [Cursor.advance_input, StringInput.advance_data]
        exact q2
      · rw [hi, Cursor.advance_input, StringInput.advance_data, hin]
        omega
      · rw [hi]
        show c1.spans.start ≤ d.input.i + 1
        have : c1.input.i = d.input.i := congrArg StringInput.i hin
        omega

/-- The instrumented loop of the scope "c" over a document of unrecognised
bytes: every step advances by one byte, up to the end of the document. -/
theorem Scope.match_loop_trace_unrecognised : ∀ (fuel : Nat) (d c' : Cursor)
    (steps : List Cursor),
    Scope.match_loop_trace fuel c_scope d = some (steps, c') →
    d.plain → d.window.end_ = d.input.data_.length →
    (∀ ch ∈ d.input.data_, is_unrecognised_byte ch = true) →
    steps.map (fun x => x.input.i) =
        List.range' (d.input.i + 1) (d.input.data_.length - d.input.i) ∧
      c'.input.i = d.input.data_.length ∧ c'.plain := by
  intro fuel
  induction fuel with
  | zero => intro d c' steps h; simp [Scope.match_loop_trace] at h
  | succ n ih =>
    intro d c' steps h hd hwe hall
    simp only [Scope.match_loop_trace] at h
    split at h
    · rename_i hb
      have hlt : d.input.i < d.input.data_.length := by
        simp only [Cursor.is_before_window_end, StringInput.get_position,
          decide_eq_true_eq] at hb
        omega
      have hch := hall _ (StringInput.get_mem d.input hlt)
      split at h
      · cases h
      · rename_i c1 h1
        obtain ⟨_, hi, hdat, hw, hpl⟩ :=
          (Scope.match_single_sound h1).unrecognised_step hd hlt hch
        split at h
        · cases h
        · rename_i tr c2 h2
          cases h
          have hpl1 : c1.add_checkpoint.plain := hpl
          obtain ⟨e1, e2, e3⟩ := ih c1.add_checkpoint _ _ h2 hpl1
            (by
              show c1.window.end_ = c1.input.data_.length
              rw [hw, hdat]; exact hwe)
            (by
              show ∀ ch ∈ c1.input.data_, is_unrecognised_byte ch = true
              rw [hdat]; exact hall)
          have e0 : c1.add_checkpoint.input = c1.input := rfl
          rw [e0, hi, hdat] at e1
          rw [e0, hdat] at e2
          refine ⟨?_, e2, e3⟩
          simp only [List.map_cons, e1, hi]
          have : d.input.data_.length - d.input.i =
              (d.input.data_.length - (d.input.i + 1)) + 1 := by omega
          rw [this, List.range'_succ]
      · rename_i c1 h1
        have := ((Scope.match_single_sound h1).unrecognised_step hd hlt hch).1
        cases this
    · rename_i hb
      cases h
      have hge : ¬ d.input.i < d.input.data_.length := by
        simp only [Cursor.is_before_window_end, StringInput.get_position,
          decide_eq_true_eq] at hb
        omega
      have hle := hd.2.2.1
      have heq : d.input.i = d.input.data_.length := by omega
      refine ⟨?_, heq, hd⟩
      rw [heq]
      simp

/-- Claim C13: for the scope "c" and every non-empty document of unrecognised
bytes (non-NUL, not whitespace, `/`, `"`, a digit, a letter, `_` or `#`), the
pass over the whole document returns; each completed step of the driver loop
ends one byte further (the positions after the steps are 1, 2, ..., length), the
loop ends at the end of the document, and the pass yields exactly the span
`(0, length, DEFAULT)`. -/
theorem highlight_pass_fallback (data : List Nat) (tree : Tree) (hne : data ≠ [])
    (hall : ∀ ch ∈ data, is_unrecognised_byte ch = true) :
    (∃ fuel steps c',
      Scope.match_loop_trace fuel c_scope
          (Cursor.new { data_ := data, i := 0 } tree 0 data.length).skip_to_checkpoint =
        some (steps, c') ∧
      steps.map (fun x => x.input.i) = List.range' 1 data.length ∧
      c'.input.i = data.length ∧
      highlight_pass fuel c_scope data tree 0 data.length =
        some (c'.change_style Style.DEFAULT).2) ∧
    ∀ fuel c, highlight_pass fuel c_scope data tree 0 data.length = some c →
      c.spans.spans = [{ start := 0, end_ := data.length, style := Style.DEFAULT }] := by
  obtain ⟨hflat, hprod, hcons⟩ := c_scope_classes
  have h0 : (Cursor.new { data_ := data, i := 0 } tree 0 data.length).skip_to_checkpoint.input.i
      = 0 := Nat.le_zero.mp (Tree.find_checkpoint_le tree 0)
  have hplain : (Cursor.new { data_ := data, i := 0 } tree 0 data.length).skip_to_checkpoint.plain :=
    ⟨rfl, le_refl _, by rw [h0]; exact Nat.zero_le _, by rw [h0]; exact le_refl _, rfl,
      Or.inl ⟨rfl, rfl⟩⟩
  have hlen : 0 < data.length := List.length_pos.mpr hne
  have key : ∀ fuel steps c',
      Scope.match_loop_trace fuel c_scope
          (Cursor.new { data_ := data, i := 0 } tree 0 data.length).skip_to_checkpoint =
        some (steps, c') →
      steps.map (fun x => x.input.i) = List.range' 1 data.length ∧ c'.input.i = data.length ∧
        (c'.change_style Style.DEFAULT).2.spans.spans =
          [{ start := 0, end_ := data.length, style := Style.DEFAULT }] := by
    intro fuel steps c' h
    obtain ⟨e1, e2, e3⟩ := Scope.match_loop_trace_unrecognised fuel _ _ _ h hplain rfl hall
    rw [h0] at e1
    have e2' : c'.input.i = data.length := e2
    refine ⟨e1, e2', ?_⟩
    obtain ⟨q1, q2, q3, q4, q5⟩ := e3
    obtain ⟨_, p2, _⟩ := Spans.change_style_plain c'.spans c'.input.i Style.DEFAULT c'.window q5 q1
      q4 (by omega)
    rcases p2.2 with ⟨_, hz⟩ | ⟨hs, _⟩
    · simp only at hz
      omega
    · simp only at hs
      rw [← e2']
      exact hs
  constructor
  · obtain ⟨c1, hl⟩ := Loop.loop_total c_scope hprod hcons _
      (Cursor.new { data_ := data, i := 0 } tree 0 data.length).skip_to_checkpoint (le_refl _)
      (by rw [h0]; exact Nat.zero_le _)
    obtain ⟨fuel, hf⟩ := Scope.match_loop_complete hl
    obtain ⟨steps, hs⟩ := Scope.match_loop_trace_of_loop fuel _ _ hf
    obtain ⟨k1, k2, _⟩ := key fuel steps c1 hs
    exact ⟨fuel, steps, c1, hs, k1, k2, by simp only [highlight_pass, Scope.match_, hf]⟩
  · intro fuel c hpass
    simp only [highlight_pass, Scope.match_] at hpass
    split at hpass
    · cases hpass
    · rename_i c1 hm
      cases hpass
      obtain ⟨steps, hs⟩ := Scope.match_loop_trace_of_loop fuel _ _ hm
      exact (key fuel steps c1 hs).2.2

/-- Witness of `highlight_pass_fallback`: the three UTF-8 bytes of the euro
sign. -/
theorem highlight_pass_fallback_witness :
    (∃ fuel steps c',
      Scope.match_loop_trace fuel c_scope
          (Cursor.new { data_ := [226, 130, 172], i := 0 } { checkpoints := [] } 0
            [226, 130, 172].length).skip_to_checkpoint =
        some (steps, c') ∧
      steps.map (fun x => x.input.i) = List.range' 1 [226, 130, 172].length ∧
      c'.input.i = [226, 130, 172].length ∧
      highlight_pass fuel c_scope [226, 130, 172] { checkpoints := [] } 0
          [226, 130, 172].length =
        some (c'.change_style Style.DEFAULT).2) ∧
    ∀ fuel c, highlight_pass fuel c_scope [226, 130, 172] { checkpoints := [] } 0
        [226, 130, 172].length = some c →
      c.spans.spans =
        [{ start := 0, end_ := [226, 130, 172].length, style := Style.DEFAULT }] :=
  highlight_pass_fallback [226, 130, 172] { checkpoints := [] } (by decide) (by decide)

/-! ## Identifiers and keywords -/

/-- A successful `match_choice` has seen one of its children succeed, at a
cursor with the input of the start. -/
theorem Eval.alt_true_mem {call : Call} {c c' : Cursor} {b : Bool} (h : Eval call c b c') :
    ∀ t, call = .alt t → b = true →
      ∃ n ∈ t.toList, ∃ d, d.input = c.input ∧ Eval (.node n) d true c' := by
  induction h with
  | alt_nil => intro t _ hb; cases hb
  | @alt_first t0 t1 c c1 h1 _ =>
    intro t ht _
    cases ht
    exact ⟨t0, by simp [Tuple.toList], c, rfl, h1⟩
  | @alt_next t0 t1 c c1 c2 b h1 _ _ ih2 =>
    intro t ht hb
    cases ht
    obtain ⟨n, hn, d, hd, he⟩ := ih2 t1 rfl hb
    exact ⟨n, by simp [Tuple.toList, hn], d, hd.trans h1.false_input, he⟩
  | _ => intro t ht; cases ht

/-- A failed `match_choice` has seen every child fail, at cursors with the
input of the start. -/
theorem Eval.alt_false_mem {call : Call} {c c' : Cursor} {b : Bool} (h : Eval call c b c') :
    ∀ t, call = .alt t → b = false →
      ∀ n ∈ t.toList, ∃ d d1, d.input = c.input ∧ Eval (.node n) d false d1 := by
  induction h with
  | alt_nil =>
    intro t ht _ n hn
    cases ht
    simp [Tuple.toList] at hn
  | alt_first _ _ => intro t _ hb; cases hb
  | @alt_next t0 t1 c c1 c2 b h1 _ _ ih2 =>
    intro t ht hb n hn
    cases ht
    simp only [Tuple.toList, List.mem_cons] at hn
    rcases hn with rfl | hn
    · exact ⟨c, c1, rfl, h1⟩
    · obtain ⟨d, d1, hd, he⟩ := ih2 t1 rfl hb n hn
      exact ⟨d, d1, hd.trans h1.false_input, he⟩
  | _ => intro t ht; cases ht

/-- The outcome of a literal is that of `String_scan` on the input. -/
theorem Eval.string_inv {s : List Nat} {c c' : Cursor} {b : Bool}
    (h : Eval (.node (.String s)) c b c') :
    b = (String_scan s c.input).1 ∧ (b = true → c'.input = (String_scan s c.input).2) := by
  obtain ⟨fuel, hf⟩ := Call.run_complete h
  cases fuel with
  | zero => simp [Call.run, Node.match_] at hf
  | succ k =>
    simp only [Call.run, Node.match_, Option.some.injEq] at hf
    rw [String_match_loop_eq] at hf
    split at hf
    · rename_i hs
      cases hf
      exact ⟨hs.symm, fun _ => rfl⟩
    · rename_i hs
      cases hf
      exact ⟨by simpa using hs, fun hb => by cases hb⟩

/-- The current character before the end of the document. -/
theorem StringInput.get_of_lt (inp : StringInput) (h : inp.i < inp.data_.length) :
    inp.get = inp.data_.getD inp.i 0 := by
  simp only [StringInput.get, StringInput.size_, if_pos h]

/-- A keyword rule that succeeds has read its keyword and stands at a
character that is not an identifier character. -/
theorem c_keyword_inv {s : List Nat} {d d' : Cursor}
    (h : Eval (.node (c_keyword (.String s))) d true d') :
    (d.input.data_.drop d.input.i).take (c_str s).length = c_str s ∧
      d'.input.data_ = d.input.data_ ∧ d'.input.i = d.input.i + (c_str s).length ∧
      is_identifier_char d'.input.get = false := by
  simp only [c_keyword, sequence, Tuple.ofList, not_] at h
  cases h with
  | sequence h1 =>
    cases h1 with
    | seq_true h2 h3 =>
      obtain ⟨e1, e2⟩ := h2.string_inv
      have e3 := e2 rfl
      obtain ⟨k1, k2⟩ := String_scan_iff s d.input
      have hpre := k1.mp e1.symm
      have hpos := k2 e1.symm
      cases h3 with
      | seq_true h4 h5 =>
        cases h5
        cases h4 with
        | not_false h6 =>
          obtain ⟨q1, _⟩ := h6.c_identifier_char_iff
          have hin := h6.false_input
          refine ⟨hpre, ?_, ?_, ?_⟩
          · rw [hin, e3]; exact String_scan_data s d.input
          · rw [hin, e3]; exact hpos
          · rw [hin]; exact q1.symm

/-- The identifier rule at an identifier-begin character followed by
identifier characters up to the end of the document succeeds and reaches the
end of the document. -/
theorem c_identifier_matches {d d' : Cursor} {b : Bool} (h : Eval (.node c_identifier) d b d')
    (hlt : d.input.i < d.input.data_.length)
    (hbeg : is_identifier_begin_char d.input.get = true)
    (hrest : ∀ ch ∈ d.input.data_, is_identifier_char ch = true) :
    b = true ∧ d'.input.i = d.input.data_.length := by
  have stop : ∀ (c1 c2 : Cursor) (b1 : Bool), c1.input.data_ = d.input.data_ →
      c1.input.i ≤ d.input.data_.length →
      Eval (.node (.Repetition c_identifier_char)) c1 b1 c2 →
      c2.input.i = d.input.data_.length := by
    intro c1 c2 b1 hdat hle hrep
    obtain ⟨_, e, e1, he, hfail⟩ := Eval.repetition_last c_identifier_char (fun _ _ => True)
      (fun _ => trivial) (fun _ _ _ _ _ => trivial) (fun _ _ _ => trivial) hrep rfl
    obtain ⟨q1, _⟩ := hfail.c_identifier_char_iff
    have hf := hrep.frame
    have hd2 : c2.input.data_ = d.input.data_ := hf.2.2.1.trans hdat
    have hle2 : c2.input.i ≤ d.input.data_.length := by
      have := hf.2.2.2.2.2.2.2 (by rw [hdat]; exact hle)
      rw [hdat] at this
      exact this
    by_contra hne
    have hlt2 : c2.input.i < c2.input.data_.length := by rw [hd2]; omega
    have := hrest _ (by rw [← hd2]; exact StringInput.get_mem c2.input hlt2)
    rw [← he, ← q1] at this
    cases this
  simp only [c_identifier, sequence, zero_or_more, repetition, Tuple.ofList] at h
  cases h with
  | sequence h1 =>
    cases h1 with
    | seq_first_fails h2 =>
      obtain ⟨q1, _⟩ := h2.c_identifier_begin_char_iff
      rw [hbeg] at q1
      cases q1
    | seq_true h2 h3 =>
      refine ⟨rfl, ?_⟩
      have hf := h2.frame
      cases h3 with
      | seq_true h4 h5 =>
        cases h5
        exact stop _ _ _ hf.2.2.1 (hf.2.2.2.2.2.2.2 (le_of_lt hlt)) h4
    | seq_rest_fails h2 h3 =>
      exfalso
      cases h3 with
      | seq_first_fails h4 =>
        have := h4.repetition_true _ rfl
        cases this
      | seq_rest_fails h4 h5 => cases h5

theorem Tuple.toList_ofList : ∀ ns : List Node, (Tuple.ofList ns).toList = ns := by
  intro ns
  induction ns with
  | nil => rfl
  | cons n ns ih => simp only [Tuple.ofList, Tuple.toList, ih]

/-- A keyword list that succeeds at the start of a document made of identifier
characters only has read the whole document: the document is one of the
keywords. -/
theorem c_keywords_inv (names : List String) (style : Int) {d d' : Cursor}
    (h : Eval (.node (highlight style (c_keywords (names.map str)))) d true d')
    (h0 : d.input.i = 0) (hid : ∀ ch ∈ d.input.data_, is_identifier_char ch = true)
    (hz : ∀ name ∈ names, c_str (lit name) = lit name) :
    d.input.data_ ∈ names.map lit := by
  simp only [highlight, c_keywords, choice] at h
  cases h with
  | highlight h1 =>
    cases h1 with
    | choice h2 =>
      obtain ⟨n, hn, e, he, hev⟩ := h2.alt_true_mem _ rfl rfl
      rw [Tuple.toList_ofList] at hn
      simp only [List.map_map, List.mem_map, Function.comp] at hn
      obtain ⟨name, hname, rfl⟩ := hn
      have hin : e.input = d.input := he
      obtain ⟨k1, k2, k3, k4⟩ := c_keyword_inv (s := lit name) hev
      rw [hz name hname, hin, h0] at k1 k3
      rw [hin] at k2
      simp only [List.drop_zero, Nat.zero_add] at k1 k3
      have hge : d.input.data_.length ≤ (lit name).length := by
        by_contra hlt
        have hlt3 : (lit name).length < d.input.data_.length := by omega
        rw [← k3, ← k2] at hlt3
        have := hid _ (by rw [← k2]; exact StringInput.get_mem _ hlt3)
        rw [k4] at this
        cases this
      rw [List.take_of_length_le hge] at k1
      exact List.mem_map.mpr ⟨name, hname, k1.symm⟩

/-- At the start of a document that is an identifier and not a listed keyword
or type name, the only alternative of the scope "c" that can succeed contains
no `Highlight` and reads the whole document. -/
theorem c_scope_identifier_only {n : Node} {d d1 : Cursor} (hn : n ∈ c_scope.toList)
    (h : Eval (.node n) d true d1) (h0 : d.input.i = 0)
    (hlt : d.input.i < d.input.data_.length)
    (hbeg : is_identifier_begin_char d.input.get = true)
    (hid : ∀ ch ∈ d.input.data_, is_identifier_char ch = true)
    (hkw : d.input.data_ ∉ (c_keyword_names ++ c_type_names).map lit) :
    n.hlfree = true ∧ d1.input.i = d.input.data_.length := by
  have hfirst := h.first rfl
  simp only [is_identifier_begin_char, Bool.or_eq_true, Bool.and_eq_true, decide_eq_true_eq,
    beq_iff_eq] at hbeg
  simp only [c_scope, Tuple.ofList, Tuple.toList, List.mem_cons, List.mem_singleton,
    List.mem_nil_iff, or_false] at hn
  rcases hn with rfl | rfl | rfl | rfl | rfl | rfl | rfl | rfl
  · exfalso
    simp [Call.first, Node.first, Tuple.first_seq, Tuple.first_alt, one_or_more, sequence, choice,
      c_whitespace_char, chr, get_language_node_char, Tuple.ofList] at hfirst
    omega
  · exfalso
    simp [Call.first, Node.first, Tuple.first_seq, Tuple.first_alt, highlight, sequence, choice,
      str, lit, get_language_node_string, String_first, Tuple.ofList] at hfirst
    omega
  · exfalso
    simp [Call.first, Node.first, Tuple.first_seq, Tuple.first_alt, highlight, sequence, choice,
      chr, get_language_node_char, Tuple.ofList] at hfirst
    omega
  · exfalso
    simp [Call.first, Node.first, Tuple.first_seq, Tuple.first_alt, highlight, one_or_more,
      sequence, range, Tuple.ofList] at hfirst
    omega
  · exfalso
    have := c_keywords_inv c_keyword_names Style.KEYWORD h h0 hid (by decide)
    exact hkw (by rw [List.map_append]; exact List.mem_append_left _ this)
  · exfalso
    have := c_keywords_inv c_type_names Style.TYPE h h0 hid (by decide)
    exact hkw (by rw [List.map_append]; exact List.mem_append_right _ this)
  · exfalso
    simp [Call.first, Node.first, Tuple.first_seq, Tuple.first_alt, highlight, sequence, choice,
      chr, get_language_node_char, Tuple.ofList] at hfirst
    omega
  · exact ⟨by decide, (c_identifier_matches h hlt (by
      simp only [is_identifier_begin_char, Bool.or_eq_true, Bool.and_eq_true, decide_eq_true_eq,
        beq_iff_eq]
      exact hbeg) hid).2⟩

/-- The first step of the driver of the scope "c" at the start of a document
that is an identifier and not a listed keyword or type name: an alternative
without `Highlight` matches the whole document. -/
theorem Single.identifier_step {d d2 : Cursor} {b : Bool} (h : Single c_scope d b d2)
    (hd : d.plain) (h0 : d.input.i = 0) (hlt : d.input.i < d.input.data_.length)
    (hbeg : is_identifier_begin_char d.input.get = true)
    (hid : ∀ ch ∈ d.input.data_, is_identifier_char ch = true)
    (hkw : d.input.data_ ∉ (c_keyword_names ++ c_type_names).map lit) :
    b = true ∧ d2.input.i = d.input.data_.length ∧ d2.plain ∧ d2.window = d.window := by
  have transfer : ∀ (n : Node) (e e1 : Cursor), n ∈ c_scope.toList → e.input = d.input →
      Eval (.node n) e true e1 → n.hlfree = true ∧ e1.input.i = d.input.data_.length := by
    intro n e e1 hn he hev
    have := c_scope_identifier_only hn hev (by rw [he]; exact h0) (by rw [he]; exact hlt)
      (by rw [he]; exact hbeg) (by rw [he]; exact hid) (by rw [he]; exact hkw)
    rw [he] at this
    exact this
  cases h with
  | matched h1 =>
    obtain ⟨n, hn, e, he, hev⟩ := h1.alt_true_mem _ rfl rfl
    have h1' : Eval (.alt (Tuple.ofList c_scope.toList)) d true d2 := h1
    refine ⟨rfl, (transfer n e d2 hn he hev).2, ?_, h1.frame.2.1⟩
    refine Eval.alt_plain _ _ _ _ c_scope_classes.1 h1' ?_ hd
    intro m hm hf e2 e3 he2 hev2
    have := (transfer m e2 e3 hm he2 hev2).1
    rw [hf] at this
    cases this
  | fallback h1 h2 =>
    exfalso
    obtain ⟨e, e1, he, hev⟩ := h1.alt_false_mem _ rfl rfl c_identifier
      (by simp [c_scope, Tuple.ofList, Tuple.toList])
    have := (c_identifier_matches hev (by rw [he]; exact hlt) (by rw [he]; exact hbeg)
      (by rw [he]; exact hid)).1
    cases this

/-- Claim C12: for the scope "c" and every non-empty document made only of
identifier characters (letters, digits, `_`) that starts with a letter or `_`
and is not one of the listed keywords or type names, the pass over the whole
document returns and yields exactly the span `(0, length, DEFAULT)`; no span has
the style KEYWORD or TYPE. -/
theorem highlight_pass_identifier (data : List Nat) (tree : Tree) (hne : data ≠ [])
    (hbeg : is_identifier_begin_char (data.headD 0) = true)
    (hid : ∀ ch ∈ data, is_identifier_char ch = true)
    (hkw : data ∉ (c_keyword_names ++ c_type_names).map lit) :
    (∃ fuel c, highlight_pass fuel c_scope data tree 0 data.length = some c) ∧
    ∀ fuel c, highlight_pass fuel c_scope data tree 0 data.length = some c →
      c.spans.spans = [{ start := 0, end_ := data.length, style := Style.DEFAULT }] ∧
      ∀ sp ∈ c.spans.spans, sp.style ≠ Style.KEYWORD ∧ sp.style ≠ Style.TYPE := by
  obtain ⟨hflat, hprod, hcons⟩ := c_scope_classes
  have h0 : (Cursor.new { data_ := data, i := 0 } tree 0 data.length).skip_to_checkpoint.input.i
      = 0 := Nat.le_zero.mp (Tree.find_checkpoint_le tree 0)
  have hplain : (Cursor.new { data_ := data, i := 0 } tree 0 data.length).skip_to_checkpoint.plain :=
    ⟨rfl, le_refl _, by rw [h0]; exact Nat.zero_le _, by rw [h0]; exact le_refl _, rfl,
      Or.inl ⟨rfl, rfl⟩⟩
  have hlen : 0 < data.length := List.length_pos.mpr hne
  have hget : (Cursor.new { data_ := data, i := 0 } tree 0 data.length).skip_to_checkpoint.input.get
      = data.headD 0 := by
    rw [StringInput.get_of_lt _ (by rw [h0]; exact hlen), h0]
    cases data with
    | nil => rfl
    | cons a rest => rfl
  have key : ∀ c1, Loop c_scope
      (Cursor.new { data_ := data, i := 0 } tree 0 data.length).skip_to_checkpoint c1 →
      (c1.change_style Style.DEFAULT).2.spans.spans =
        [{ start := 0, end_ := data.length, style := Style.DEFAULT }] := by
    intro c1 hloop
    have fin : ∀ cA : Cursor, cA.input.i = data.length → cA.plain →
        (cA.change_style Style.DEFAULT).2.spans.spans =
          [{ start := 0, end_ := data.length, style := Style.DEFAULT }] := by
      intro cA hi ⟨q1, q2, q3, q4, q5⟩
      obtain ⟨_, p2, _⟩ := Spans.change_style_plain cA.spans cA.input.i Style.DEFAULT cA.window
        q5 q1 q4 (by omega)
      rcases p2.2 with ⟨_, hz⟩ | ⟨hs, _⟩
      · simp only at hz
        omega
      · simp only at hs
        rw [← hi]
        exact hs
    cases hloop with
    | done hb =>
      exfalso
      simp only [Cursor.is_before_window_end, StringInput.get_position,
        decide_eq_false_iff_not] at hb
      rw [h0] at hb
      exact hb hlen
    | stuck hb hs =>
      have := (hs.identifier_step hplain h0 (by rw [h0]; exact hlen) (by rw [hget]; exact hbeg)
        hid hkw).1
      cases this
    | @step _ cA _ hb hs hrest =>
      obtain ⟨_, hi, hpl, hw⟩ := hs.identifier_step hplain h0 (by rw [h0]; exact hlen)
        (by rw [hget]; exact hbeg) hid hkw
      have hi' : cA.input.i = data.length := hi
      have hend : cA.add_checkpoint.is_before_window_end = false := by
        simp only [Cursor.is_before_window_end, Cursor.add_checkpoint,
          StringInput.get_position, decide_eq_false_iff_not, hw, hi']
        show ¬ data.length < data.length
        omega
      cases hrest with
      | done _ => exact fin cA.add_checkpoint hi' hpl
      | stuck hb2 _ => rw [hend] at hb2; cases hb2
      | step hb2 _ _ => rw [hend] at hb2; cases hb2
  constructor
  · obtain ⟨c1, hl⟩ := Loop.loop_total c_scope hprod hcons _
      (Cursor.new { data_ := data, i := 0 } tree 0 data.length).skip_to_checkpoint (le_refl _)
      (by rw [h0]; exact Nat.zero_le _)
    obtain ⟨fuel, hf⟩ := Scope.match_loop_complete hl
    exact ⟨fuel, (c1.change_style Style.DEFAULT).2, by
      simp only [highlight_pass, Scope.match_, hf]⟩
  · intro fuel c hpass
    simp only [highlight_pass, Scope.match_] at hpass
    split at hpass
    · cases hpass
    · rename_i c1 hm
      cases hpass
      have hsp := key c1 (Scope.match_loop_sound fuel _ _ hm)
      refine ⟨hsp, ?_⟩
      intro sp hmem
      rw [hsp, List.mem_singleton] at hmem
      subst hmem
      have e : ({ start := 0, end_ := data.length, style := Style.DEFAULT } : Span).style =
          Style.DEFAULT := rfl
      rw [e]
      exact ⟨by decide, by decide⟩

/-- Witness of `highlight_pass_identifier`: the document "iffy", of which the
keyword "if" is a proper prefix. -/
theorem highlight_pass_identifier_witness :
    (∃ fuel c, highlight_pass fuel c_scope (lit "iffy") { checkpoints := [] } 0
        (lit "iffy").length = some c) ∧
    ∀ fuel c, highlight_pass fuel c_scope (lit "iffy") { checkpoints := [] } 0
        (lit "iffy").length = some c →
      c.spans.spans = [{ start := 0, end_ := (lit "iffy").length, style := Style.DEFAULT }] ∧
      ∀ sp ∈ c.spans.spans, sp.style ≠ Style.KEYWORD ∧ sp.style ≠ Style.TYPE :=
  highlight_pass_identifier (lit "iffy") { checkpoints := [] } (by decide) (by decide)
    (by decide) (by decide)

/-! ## Independence from the window and the output state -/

/-- Claim C21: for every node and every two cursors on the same input (the
same document and position; the window, the accumulator, the tree and the
high-water mark are arbitrary in both), if `match` returns on one cursor then
it returns on the other with the same boolean and the same input position,
and any two results of the two runs agree in the boolean and in the input
position. -/
theorem Node.match_independent (n : Node) (c d : Cursor) (h : d.input = c.input) :
    (∀ (fuel : Nat) (b : Bool) (c' : Cursor), Node.match_ fuel n c = some (b, c') →
      ∃ fuel1 d', Node.match_ fuel1 n d = some (b, d') ∧ d'.input.i = c'.input.i) ∧
    (∀ (fuel : Nat) (b : Bool) (d' : Cursor), Node.match_ fuel n d = some (b, d') →
      ∃ fuel1 c', Node.match_ fuel1 n c = some (b, c') ∧ c'.input.i = d'.input.i) ∧
    (∀ (fuel1 fuel2 : Nat) (b1 b2 : Bool) (c' d' : Cursor),
      Node.match_ fuel1 n c = some (b1, c') → Node.match_ fuel2 n d = some (b2, d') →
      b1 = b2 ∧ d'.input.i = c'.input.i) := by
  refine ⟨?_, ?_, ?_⟩
  · intro fuel b c' hc
    obtain ⟨fuel1, d', k1, k2⟩ := Node.match_transfer hc d h
    exact ⟨fuel1, d', k1, congrArg StringInput.i k2⟩
  · intro fuel b d' hd
    obtain ⟨fuel1, c', k1, k2⟩ := Node.match_transfer hd c h.symm
    exact ⟨fuel1, c', k1, congrArg StringInput.i k2⟩
  · intro fuel1 fuel2 b1 b2 c' d' hc hd
    obtain ⟨fuel3, d1, k1, k2⟩ := Node.match_transfer hc d h
    have := Node.match_unique k1 hd
    cases this
    exact ⟨rfl, congrArg StringInput.i k2⟩

/-- Witness of `Node.match_independent`: `highlight(COMMENT, "ab")` on "abc",
from a new cursor with the window `[0, 3)` and from a cursor with the window
`[1, 2)`, a checkpoint in its tree, a span already reported and the style
KEYWORD active. -/
theorem Node.match_independent_witness :
    (Node.match_ 3 (highlight Style.COMMENT (str "ab"))
        (Cursor.new { data_ := lit "abc", i := 0 } { checkpoints := [] } 0 3)).map
      (fun r => (r.1, r.2.input.i)) = some (true, 2) ∧
    (Node.match_ 3 (highlight Style.COMMENT (str "ab"))
        { input := { data_ := lit "abc", i := 0 },
          tree := { checkpoints := [{ pos := 1, max_pos := 2 }] },
          window := { start := 1, end_ := 2 }, max_pos := 7,
          spans := { spans := [{ start := 0, end_ := 0, style := Style.TYPE }],
                     start := 0, style := Style.KEYWORD } }).map
      (fun r => (r.1, r.2.input.i)) = some (true, 2) ∧
    ∀ (fuel1 fuel2 : Nat) (b1 b2 : Bool) (c' d' : Cursor),
      Node.match_ fuel1 (highlight Style.COMMENT (str "ab"))
          (Cursor.new { data_ := lit "abc", i := 0 } { checkpoints := [] } 0 3) =
        some (b1, c') →
      Node.match_ fuel2 (highlight Style.COMMENT (str "ab"))
          { input := { data_ := lit "abc", i := 0 },
            tree := { checkpoints := [{ pos := 1, max_pos := 2 }] },
            window := { start := 1, end_ := 2 }, max_pos := 7,
            spans := { spans := [{ start := 0, end_ := 0, style := Style.TYPE }],
                       start := 0, style := Style.KEYWORD } } =
        some (b2, d') →
      b1 = b2 ∧ d'.input.i = c'.input.i :=
  ⟨by decide, by decide,
   (Node.match_independent (highlight Style.COMMENT (str "ab"))
    (Cursor.new { data_ := lit "abc", i := 0 } { checkpoints := [] } 0 3)
    { input := { data_ := lit "abc", i := 0 },
      tree := { checkpoints := [{ pos := 1, max_pos := 2 }] },
      window := { start := 1, end_ := 2 }, max_pos := 7,
      spans := { spans := [{ start := 0, end_ := 0, style := Style.TYPE }],
                 start := 0, style := Style.KEYWORD } }
    rfl).2.2⟩

/-! ## Position after a failed match -/

/-- Claim C22: for every node (with or without `Highlight`) and every cursor,
if `match` returns `false` then the input position is the one before the
call. -/
theorem Node.match_false_position (fuel : Nat) (n : Node) (c c' : Cursor)
    (h : Node.match_ fuel n c = some (false, c')) : c'.input.i = c.input.i :=
  congrArg StringInput.i (Node.match_false_input h)

/-- Witness of `Node.match_false_position`: the sequence
`highlight(KEYWORD, 'a') 'x'` fails on "ab" after the `Highlight` has consumed
`'a'` and reported a span. -/
theorem Node.match_false_position_witness :
    Node.match_ 5 (sequence [highlight Style.KEYWORD (chr 'a'), chr 'x'])
        (Cursor.new { data_ := lit "ab", i := 0 } { checkpoints := [] } 0 2) =
      some (false,
        { input := { data_ := lit "ab", i := 0 }, tree := { checkpoints := [] },
          window := { start := 0, end_ := 2 }, max_pos := 1,
          spans := { spans := [], start := 0, style := Style.DEFAULT } }) ∧
    ({ input := { data_ := lit "ab", i := 0 }, tree := { checkpoints := [] },
       window := { start := 0, end_ := 2 }, max_pos := 1,
       spans := { spans := [], start := 0, style := Style.DEFAULT } } : Cursor).input.i =
      (Cursor.new { data_ := lit "ab", i := 0 } { checkpoints := [] } 0 2).input.i :=
  ⟨by decide,
   Node.match_false_position 5 (sequence [highlight Style.KEYWORD (chr 'a'), chr 'x'])
    (Cursor.new { data_ := lit "ab", i := 0 } { checkpoints := [] } 0 2)
    { input := { data_ := lit "ab", i := 0 }, tree := { checkpoints := [] },
      window := { start := 0, end_ := 2 }, max_pos := 1,
      spans := { spans := [], start := 0, style := Style.DEFAULT } }
    (by decide)⟩

/-! ## Order of the lookahead bounds recorded by a pass -/

/-- Claim C24: for every scope, document and window, the checkpoints that one
pass of `Scope::match` with a new cursor has inserted into an initially empty
tree each satisfy `max_pos >= pos`, their `max_pos` values are non-decreasing
in insertion order, and so for every `p` no checkpoint with `max_pos >= p`
precedes one with `max_pos < p`: the sequence is partitioned as the binary
search of `Tree::edit` requires. -/
theorem Scope.match_checkpoints_ordered (tuple : Tuple) (data : List Nat) (ws we fuel : Nat)
    (c' : Cursor)
    (h : Scope.match_ fuel tuple
      (Cursor.new { data_ := data, i := 0 } { checkpoints := [] } ws we) = some c') :
    (∀ cp ∈ c'.tree.checkpoints, cp.pos ≤ cp.max_pos) ∧
      c'.tree.checkpoints.Pairwise (fun a b => a.max_pos ≤ b.max_pos) ∧
      ∀ p, c'.tree.checkpoints.Pairwise (fun a b => b.max_pos < p → a.max_pos < p) := by
  have hloop := Scope.match_loop_sound fuel _ _ h
  have hsorted := (Loop.tree_sorted hloop ⟨List.Pairwise.nil, fun cp hcp => by cases hcp⟩).1
  refine ⟨?_, hsorted, ?_⟩
  · intro cp hcp
    rcases Loop.checkpoint_origin hloop cp hcp with hin | ⟨x, _, hxi, hxm⟩
    · cases hin
    · rw [← hxi, ← hxm]
      exact le_max_right _ _
  · intro p
    exact hsorted.imp (fun hab hb => lt_of_le_of_lt hab hb)

/-- Witness of `Scope.match_checkpoints_ordered`: the scope with the
alternatives `"abcd"` and `'a'` on "abcx"; the failed literal has read up to
position 3, so the checkpoints are (1, 3), (2, 3), (3, 3), (4, 4). -/
theorem Scope.match_checkpoints_ordered_witness :
    (Scope.match_ 20 (Tuple.ofList [str "abcd", chr 'a'])
        (Cursor.new { data_ := lit "abcx", i := 0 } { checkpoints := [] } 0 4)).map
      (fun c => c.tree.checkpoints) =
      some [{ pos := 1, max_pos := 3 }, { pos := 2, max_pos := 3 }, { pos := 3, max_pos := 3 },
        { pos := 4, max_pos := 4 }] ∧
    ∃ c' : Cursor,
      Scope.match_ 20 (Tuple.ofList [str "abcd", chr 'a'])
          (Cursor.new { data_ := lit "abcx", i := 0 } { checkpoints := [] } 0 4) = some c' ∧
      (∀ cp ∈ c'.tree.checkpoints, cp.pos ≤ cp.max_pos) ∧
      c'.tree.checkpoints.Pairwise (fun a b => a.max_pos ≤ b.max_pos) ∧
      ∀ p, c'.tree.checkpoints.Pairwise (fun a b => b.max_pos < p → a.max_pos < p) :=
  have hs : (Scope.match_ 20 (Tuple.ofList [str "abcd", chr 'a'])
      (Cursor.new { data_ := lit "abcx", i := 0 } { checkpoints := [] } 0 4)).isSome = true := by
    decide
  ⟨by decide, _, (Option.some_get hs).symm,
    Scope.match_checkpoints_ordered (Tuple.ofList [str "abcd", chr 'a']) (lit "abcx") 0 4 20 _
      (Option.some_get hs).symm⟩

/-! ## Styles of the reported spans -/

/-- `emit_span` does not shorten the span list and keeps the styles in the
theme. -/
theorem Spans.emit_span_styled (A : Spans) (e : Nat) (w : Range) :
    A.spans.length ≤ (A.emit_span e w).spans.length ∧
      (A.styled → (A.emit_span e w).styled) := by
  simp only [Spans.emit_span]
  split
  · exact ⟨le_refl _, fun h => h⟩
  · split
    · rename_i l hl
      have hmem : l ∈ A.spans := List.mem_of_getLast?_eq_some hl
      have hne : A.spans ≠ [] := List.ne_nil_of_mem hmem
      split
      · constructor
        · simp only [List.length_append, List.length_dropLast, List.length_singleton]
          have := List.length_pos.mpr hne
          omega
        · rintro ⟨h1, h2⟩
          refine ⟨h1, ?_⟩
          intro sp hsp
          rcases List.mem_append.mp hsp with hsp | hsp
          · exact h2 sp (List.dropLast_subset _ hsp)
          · simp only [List.mem_singleton] at hsp
            subst hsp
            exact h2 l hmem
      · constructor
        · simp
        · rintro ⟨h1, h2⟩
          refine ⟨h1, ?_⟩
          intro sp hsp
          rcases List.mem_append.mp hsp with hsp | hsp
          · exact h2 sp hsp
          · simp only [List.mem_singleton] at hsp
            subst hsp
            exact h1
    · constructor
      · simp
      · rintro ⟨h1, h2⟩
        refine ⟨h1, ?_⟩
        intro sp hsp
        rcases List.mem_append.mp hsp with hsp | hsp
        · exact h2 sp hsp
        · simp only [List.mem_singleton] at hsp
          subst hsp
          exact h1

/-- `change_style` to a style of the theme does not shorten the span list and
keeps the styles in the theme. -/
theorem Spans.change_style_styled (A : Spans) (pos : Nat) (s : Int) (w : Range) :
    A.spans.length ≤ (A.change_style pos s w).2.spans.length ∧
      (A.styled → Style.in_theme s = true → (A.change_style pos s w).2.styled) := by
  obtain ⟨h1, h2⟩ := Spans.emit_span_styled A pos w
  simp only [Spans.change_style]
  split
  · exact ⟨h1, fun hA hs => ⟨hs, (h2 hA).2⟩⟩
  · exact ⟨le_refl _, fun hA hs => ⟨hs, hA.2⟩⟩

/-- Restoring a save point taken when the span list was not longer truncates
the list and brings back the saved style. -/
theorem Spans.restore_styled (A B : Spans) (hlen : A.spans.length ≤ B.spans.length) :
    (B.restore A.save).spans.length = A.spans.length ∧
      (A.styled → B.styled → (B.restore A.save).styled) := by
  have hz : A.spans.length - B.spans.length = 0 := by omega
  simp only [Spans.restore, Spans.save, hz, List.replicate_zero, List.append_nil]
  constructor
  · simp only [List.length_take]
    omega
  · rintro ⟨a1, _⟩ ⟨_, b2⟩
    exact ⟨a1, fun sp hsp => b2 sp (List.mem_of_mem_take hsp)⟩

/-- A call whose `Highlight` styles are in the theme does not shorten the span
list and keeps the styles in the theme. -/
theorem Eval.styled {call : Call} {c c' : Cursor} {b : Bool} (h : Eval call c b c') :
    call.styles_in_theme = true →
    c.spans.spans.length ≤ c'.spans.spans.length ∧ (c.spans.styled → c'.spans.styled) := by
  induction h with
  | char_true _ => intro _; exact ⟨le_refl _, fun h => h⟩
  | char_false _ => intro _; exact ⟨le_refl _, fun h => h⟩
  | @string s c =>
    intro _
    have e : (String_match_loop c.save s c).2.spans = c.spans := by
      rw [String_match_loop_eq]
      split
      · rfl
      · simp [Spans.restore_save]
    rw [e]
    exact ⟨le_refl _, fun h => h⟩
  | sequence _ ih => exact ih
  | choice _ ih => exact ih
  | repetition_stop _ ih => exact ih
  | repetition_step _ _ ih1 ih2 =>
    intro hs
    obtain ⟨a1, a2⟩ := ih1 (by
      simpa only [Call.styles_in_theme, Node.styles_in_theme] using hs)
    obtain ⟨b1, b2⟩ := ih2 hs
    exact ⟨le_trans a1 b1, fun h => b2 (a2 h)⟩
  | optional _ ih => exact ih
  | @not_true t c c1 _ ih =>
    intro hs
    obtain ⟨a1, a2⟩ := ih hs
    obtain ⟨r1, r2⟩ := Spans.restore_styled c.spans c1.spans a1
    have e : (c1.restore c.save).spans = c1.spans.restore c.spans.save := rfl
    rw [e]
    exact ⟨le_of_eq r1.symm, fun h => r2 h (a2 h)⟩
  | not_false _ ih => exact ih
  | @highlight t style c c1 b _ ih =>
    intro hs
    simp only [Call.styles_in_theme, Node.styles_in_theme, Bool.and_eq_true] at hs
    obtain ⟨a1, a2⟩ := ih hs.2
    obtain ⟨p1, p2⟩ := Spans.change_style_styled c.spans c.input.i style c.window
    obtain ⟨q1, q2⟩ := Spans.change_style_styled c1.spans c1.input.i (c.change_style style).1
      c1.window
    have e0 : (c.change_style style).2.spans = (c.spans.change_style c.input.i style c.window).2 :=
      rfl
    have e1 : (c1.change_style (c.change_style style).1).2.spans =
        (c1.spans.change_style c1.input.i (c.change_style style).1 c1.window).2 := rfl
    rw [e0] at a1 a2
    rw [e1]
    refine ⟨le_trans p1 (le_trans a1 q1), ?_⟩
    intro hc
    refine q2 (a2 (p2 hc hs.1)) ?_
    rw [Cursor.change_style_old]
    exact hc.1
  | seq_nil => intro _; exact ⟨le_refl _, fun h => h⟩
  | seq_first_fails _ ih =>
    intro hs
    simp only [Call.styles_in_theme, Tuple.styles_in_theme, Bool.and_eq_true] at hs
    exact ih hs.1
  | seq_true _ _ ih1 ih2 =>
    intro hs
    simp only [Call.styles_in_theme, Tuple.styles_in_theme, Bool.and_eq_true] at hs
    obtain ⟨a1, a2⟩ := ih1 hs.1
    obtain ⟨b1, b2⟩ := ih2 hs.2
    exact ⟨le_trans a1 b1, fun h => b2 (a2 h)⟩
  | @seq_rest_fails t0 t c c1 c2 _ _ ih1 ih2 =>
    intro hs
    simp only [Call.styles_in_theme, Tuple.styles_in_theme, Bool.and_eq_true] at hs
    obtain ⟨a1, a2⟩ := ih1 hs.1
    obtain ⟨b1, b2⟩ := ih2 hs.2
    obtain ⟨r1, r2⟩ := Spans.restore_styled c.spans c2.spans (le_trans a1 b1)
    have e : (c2.restore c.save).spans = c2.spans.restore c.spans.save := rfl
    rw [e]
    exact ⟨le_of_eq r1.symm, fun h => r2 h (b2 (a2 h))⟩
  | alt_nil => intro _; exact ⟨le_refl _, fun h => h⟩
  | alt_first _ ih =>
    intro hs
    simp only [Call.styles_in_theme, Tuple.styles_in_theme, Bool.and_eq_true] at hs
    exact ih hs.1
  | alt_next _ _ ih1 ih2 =>
    intro hs
    simp only [Call.styles_in_theme, Tuple.styles_in_theme, Bool.and_eq_true] at hs
    obtain ⟨a1, a2⟩ := ih1 hs.1
    obtain ⟨b1, b2⟩ := ih2 hs.2
    exact ⟨le_trans a1 b1, fun h => b2 (a2 h)⟩

/-- One step of the driver keeps the styles in the theme. -/
theorem Single.styled_single {tuple : Tuple} {c c' : Cursor} {b : Bool}
    (h : Single tuple c b c') (hs : tuple.styles_in_theme = true) :
    c.spans.styled → c'.spans.styled := by
  cases h with
  | matched h1 => exact (h1.styled hs).2
  | fallback h1 h2 => exact fun hc => (h2.styled rfl).2 ((h1.styled hs).2 hc)

/-- The loop of `Scope::match` keeps the styles in the theme. -/
theorem Loop.styled_loop {tuple : Tuple} {c c' : Cursor} (h : Loop tuple c c')
    (hs : tuple.styles_in_theme = true) : c.spans.styled → c'.spans.styled := by
  induction h with
  | done _ => exact fun h => h
  | stuck _ h1 => exact h1.styled_single hs
  | step _ h1 _ ih => exact fun hc => ih (h1.styled_single hs hc)

/-- Claim C25: for the scope "c", every document, every tree and every window,
the pass returns, and every span of the produced list has a style between
`Style::DEFAULT` (2) and `Style::FUNCTION` (9), so the index
`span.style - Style::DEFAULT` that `print` computes is at least 0 and less
than 8, the length of `Theme::styles`. -/
theorem highlight_pass_styles_in_theme (data : List Nat) (tree : Tree) (ws we : Nat) :
    (∃ fuel c, highlight_pass fuel c_scope data tree ws we = some c) ∧
    ∀ fuel c, highlight_pass fuel c_scope data tree ws we = some c →
      ∀ sp ∈ c.spans.spans,
        Style.DEFAULT ≤ sp.style ∧ sp.style ≤ Style.FUNCTION ∧
          0 ≤ print_index sp ∧ print_index sp < Theme.styles_size := by
  obtain ⟨_, hprod, hcons⟩ := c_scope_classes
  constructor
  · obtain ⟨c1, hl⟩ := Loop.loop_total_any c_scope hprod hcons
      (Cursor.new { data_ := data, i := 0 } tree ws we).skip_to_checkpoint
    obtain ⟨fuel, hf⟩ := highlight_pass_of_loop hl
    exact ⟨fuel, _, hf⟩
  · intro fuel c hpass sp hsp
    obtain ⟨c1, hl, rfl⟩ := highlight_pass_iff hpass
    have h0 : (Cursor.new { data_ := data, i := 0 } tree ws we).skip_to_checkpoint.spans.styled :=
      ⟨by show Style.in_theme Style.DEFAULT = true; decide, fun sp hsp => by cases hsp⟩
    have h1 := hl.styled_loop (by decide) h0
    have h2 := (Spans.change_style_styled c1.spans c1.input.i Style.DEFAULT c1.window).2 h1
      (by decide)
    have h3 := h2.2 sp hsp
    simp only [Style.in_theme, Bool.and_eq_true, decide_eq_true_eq] at h3
    have hd : Style.DEFAULT = 2 := rfl
    have hf : Style.FUNCTION = 9 := rfl
    have hz : Theme.styles_size = 8 := rfl
    simp only [print_index]
    rw [hd, hf] at h3
    rw [hd, hf, hz]
    omega

/-! ## Tiling of the part of the window that was lexed -/

/-- Claim C23 as stated fails for an empty window inside a token: on "abc" with
the window `[1, 1)` the pass of the scope "c" ends at position 3 and reports
the span `(1, 1, DEFAULT)`, which is empty. -/
theorem highlight_pass_empty_span_counterexample :
    (highlight_pass 40 c_scope (lit "abc") { checkpoints := [] } 1 1).map
        (fun c => (c.input.i, c.spans.spans)) =
      some (3, [{ start := 1, end_ := 1, style := Style.DEFAULT }]) ∧
    ¬ (∀ sp ∈ ([{ start := 1, end_ := 1, style := Style.DEFAULT }] : List Span),
        sp.start < sp.end_) := by
  constructor
  · decide
  · intro h
    exact absurd (h _ (List.mem_singleton.mpr rfl)) (by decide)

/-- With a non-empty window, `change_style` at a position at or after the
start of the open run keeps all reported spans non-empty. -/
theorem Spans.change_style_nonempty (A : Spans) (pos : Nat) (s : Int) (w : Range)
    (hw : w.start < w.end_) (hle : A.start ≤ pos)
    (hN : ∀ sp ∈ A.spans, sp.start < sp.end_) :
    ∀ sp ∈ (A.change_style pos s w).2.spans, sp.start < sp.end_ := by
  simp only [Spans.change_style]
  split
  · rename_i hp
    simp only [Spans.emit_span]
    split
    · exact hN
    · rename_i hc
      simp only [Bool.or_eq_true, decide_eq_true_eq, not_or, not_le] at hc
      split
      · rename_i l hl
        have hlm : l ∈ A.spans := List.mem_of_getLast?_eq_some hl
        split
        · rename_i hm
          intro sp hsp
          rcases List.mem_append.mp hsp with hsp | hsp
          · exact hN sp (List.dropLast_subset _ hsp)
          · simp only [List.mem_singleton] at hsp
            subst hsp
            have := hN l hlm
            simp only
            omega
        · intro sp hsp
          rcases List.mem_append.mp hsp with hsp | hsp
          · exact hN sp hsp
          · simp only [List.mem_singleton] at hsp
            subst hsp
            simp only
            omega
      · intro sp hsp
        rcases List.mem_append.mp hsp with hsp | hsp
        · exact hN sp hsp
        · simp only [List.mem_singleton] at hsp
          subst hsp
          simp only
          omega
  · exact hN

/-- With a non-empty window, the match of a `flat` node on a cursor whose open
run starts at or before the position keeps all reported spans non-empty. -/
theorem Eval.flat_nonempty {n : Node} {c c' : Cursor} {b : Bool} (hflat : n.flat = true)
    (h : Eval (.node n) c b c') (hw : c.window.start < c.window.end_)
    (hst : c.spans.start ≤ c.input.i) (hN : ∀ sp ∈ c.spans.spans, sp.start < sp.end_) :
    ∀ sp ∈ c'.spans.spans, sp.start < sp.end_ := by
  rcases Node.flat_cases n hflat with ⟨t, s, rfl, hfree⟩ | hfree
  · have e := h.highlight_spans hfree
    have hi := h.frame.2.2.2.2.1
    rw [e]
    apply Spans.change_style_nonempty _ _ _ _ hw
    · show (c.spans.change_style c.input.i s c.window).2.start ≤ c'.input.i
      rw [Spans.change_style_start]
      exact hi
    · exact Spans.change_style_nonempty c.spans c.input.i s c.window hw hst hN
  · rw [h.hlfree_spans hfree]
    exact hN

/-- The loop of `Scope::match` on a `flat` scope keeps the accumulator
consistent with the position and, with a non-empty window, all reported spans
non-empty. -/
theorem Loop.loop_nonempty {tuple : Tuple} {c c' : Cursor} (h : Loop tuple c c')
    (hflat : tuple.flat = true) (hw : c.window.start < c.window.end_) (hq : c.tiled)
    (hN : ∀ sp ∈ c.spans.spans, sp.start < sp.end_) :
    ∀ sp ∈ c'.spans.spans, sp.start < sp.end_ := by
  have := Loop.loop_flat_induction
    (fun c c' => c'.window = c.window ∧
      (c.window.start ≤ c.window.end_ → c.tiled → c'.tiled) ∧
      (c.window.start < c.window.end_ → c.tiled →
        (∀ sp ∈ c.spans.spans, sp.start < sp.end_) →
        ∀ sp ∈ c'.spans.spans, sp.start < sp.end_))
    (fun c => ⟨rfl, fun _ h => h, fun _ _ h => h⟩)
    (fun a b c hab hbc => ⟨hbc.1.trans hab.1,
      fun hw hq => hbc.2.1 (by rw [hab.1]; exact hw) (hab.2.1 hw hq),
      fun hw hq hN => hbc.2.2 (by rw [hab.1]; exact hw) (hab.2.1 (le_of_lt hw) hq)
        (hab.2.2 hw hq hN)⟩)
    (fun n c c' b hf he => ⟨(Eval.flat_tiled hf he).1, (Eval.flat_tiled hf he).2.2,
      fun hw hq hN => Eval.flat_nonempty hf he hw hq.1 hN⟩)
    (fun c => ⟨rfl, fun _ h => h, fun _ _ h => h⟩) h hflat
  exact this.2.2 hw hq hN

/-- A non-empty chain of non-empty spans ends after its start. -/
theorem chain_lt : ∀ (l : List Span) (a b : Nat), Chain l a b →
    (∀ sp ∈ l, sp.start < sp.end_) → l ≠ [] → a < b := by
  intro l
  induction l with
  | nil => intro a b _ _ hne; exact absurd rfl hne
  | cons x l ih =>
    intro a b h hN _
    have hx := hN x (List.mem_cons_self _ _)
    obtain ⟨h1, h2⟩ := h
    cases l with
    | nil =>
      have : x.end_ = b := h2
      omega
    | cons y l =>
      have := ih x.end_ b h2 (fun sp hsp => hN sp (List.mem_cons_of_mem _ hsp))
        (List.cons_ne_nil _ _)
      omega

/-- Claim C23, amended: for the scope "c", every document (NUL bytes
included), every tree and every window with `windowStart <= windowEnd`,
`Scope::match` returns, and if `f` is the cursor position at its return then
after the final `change_style(DEFAULT)` the span list tiles
`[windowStart, max(windowStart, min(windowEnd, f)))`: the first span starts at
`windowStart`, each next span starts where the previous one ends, the last span
ends at `max(windowStart, min(windowEnd, f))`, and the list is empty only when
that range is empty.  When `windowStart < windowEnd`, every span is non-empty
and the list is empty exactly when the range is empty. -/
theorem highlight_pass_tiles_lexed (data : List Nat) (tree : Tree) (ws we : Nat)
    (hw : ws ≤ we) :
    (∃ fuel c1, Scope.match_ fuel c_scope
      (Cursor.new { data_ := data, i := 0 } tree ws we) = some c1) ∧
    ∀ fuel c1, Scope.match_ fuel c_scope
      (Cursor.new { data_ := data, i := 0 } tree ws we) = some c1 →
      (∀ s, (c1.change_style Style.DEFAULT).2.spans.spans.head? = some s → s.start = ws) ∧
      List.Chain' (fun x y : Span => x.end_ = y.start)
        (c1.change_style Style.DEFAULT).2.spans.spans ∧
      (∀ s, (c1.change_style Style.DEFAULT).2.spans.spans.getLast? = some s →
        s.end_ = max ws (min we c1.input.i)) ∧
      ((c1.change_style Style.DEFAULT).2.spans.spans = [] →
        ws = max ws (min we c1.input.i)) ∧
      (ws < we →
        (∀ sp ∈ (c1.change_style Style.DEFAULT).2.spans.spans, sp.start < sp.end_) ∧
        (ws = max ws (min we c1.input.i) →
          (c1.change_style Style.DEFAULT).2.spans.spans = [])) := by
  obtain ⟨hflat, hprod, hcons⟩ := c_scope_classes
  constructor
  · obtain ⟨c1, hl⟩ := Loop.loop_total_any c_scope hprod hcons
      (Cursor.new { data_ := data, i := 0 } tree ws we).skip_to_checkpoint
    obtain ⟨fuel, hf⟩ := Scope.match_loop_complete hl
    exact ⟨fuel, c1, hf⟩
  · intro fuel c1 hm
    have hloop := Scope.match_loop_sound fuel _ _ hm
    have hinit : (Cursor.new { data_ := data, i := 0 } tree ws we).skip_to_checkpoint.tiled := by
      constructor
      · exact Nat.zero_le _
      · show ws = clip { start := ws, end_ := we } 0
        simp [clip]
    have htiled : c1.tiled := Loop.loop_tiled hloop hflat hw hinit
    obtain ⟨hwin, _, _, _, _⟩ := hloop.loop_frame
    have hwin' : c1.window = { start := ws, end_ := we } := hwin
    have hchain := Spans.change_style_chain c1.spans c1.input.i Style.DEFAULT c1.window
      (by rw [hwin']; exact hw) htiled.1 htiled.2
    have hclip : clip c1.window c1.input.i = max ws (min we c1.input.i) := by
      rw [hwin']
      simp only [clip]
      rw [min_comm]
    rw [hclip, hwin'] at hchain
    have hF : (c1.change_style Style.DEFAULT).2.spans.spans =
        (c1.spans.change_style c1.input.i Style.DEFAULT { start := ws, end_ := we }).2.spans := by
      simp only [Cursor.change_style_spans]
      rw [hwin']
    rw [hF]
    refine ⟨chain_head _ _ _ hchain, chain_adjacent _ _ _ hchain, chain_last _ _ _ hchain, ?_, ?_⟩
    · intro hnil
      rw [hnil] at hchain
      exact hchain
    · intro hlt
      have hN1 : ∀ sp ∈ c1.spans.spans, sp.start < sp.end_ :=
        Loop.loop_nonempty hloop hflat hlt hinit (fun sp hsp => by cases hsp)
      have hN := Spans.change_style_nonempty c1.spans c1.input.i Style.DEFAULT
        { start := ws, end_ := we } hlt htiled.1 hN1
      refine ⟨hN, ?_⟩
      intro heq
      by_contra hne
      have hlt2 : ws < max ws (min we c1.input.i) := chain_lt _ _ _ hchain hN hne
      omega

/-- Witness of `highlight_pass_tiles_lexed`: the document `a`, NUL, `b` with
the window `[0, 3)`, where the pass stops at the NUL byte. -/
theorem highlight_pass_tiles_lexed_witness :
    (Scope.match_ 40 c_scope
        (Cursor.new { data_ := [97, 0, 98], i := 0 } { checkpoints := [] } 0 3)).map
      (fun c1 => (c1.input.i, (c1.change_style Style.DEFAULT).2.spans.spans)) =
      some (1, [{ start := 0, end_ := 1, style := Style.DEFAULT }]) ∧
    ∀ fuel c1, Scope.match_ fuel c_scope
      (Cursor.new { data_ := [97, 0, 98], i := 0 } { checkpoints := [] } 0 3) = some c1 →
      (∀ s, (c1.change_style Style.DEFAULT).2.spans.spans.head? = some s → s.start = 0) ∧
      List.Chain' (fun x y : Span => x.end_ = y.start)
        (c1.change_style Style.DEFAULT).2.spans.spans ∧
      (∀ s, (c1.change_style Style.DEFAULT).2.spans.spans.getLast? = some s →
        s.end_ = max 0 (min 3 c1.input.i)) ∧
      ((c1.change_style Style.DEFAULT).2.spans.spans = [] →
        0 = max 0 (min 3 c1.input.i)) ∧
      (0 < 3 →
        (∀ sp ∈ (c1.change_style Style.DEFAULT).2.spans.spans, sp.start < sp.end_) ∧
        (0 = max 0 (min 3 c1.input.i) →
          (c1.change_style Style.DEFAULT).2.spans.spans = [])) :=
  ⟨by decide,
    (highlight_pass_tiles_lexed [97, 0, 98] { checkpoints := [] } 0 3 (by decide)).2⟩
end Prism
